import Mathlib

/-!
UltraGrid: the worker pool of `src/utils/worker.cpp`, the modules of `src/module.h` and
the codec table and line converters of `src/video_codec.c`.

A shallow embedding of the worker / worker-pool code, of the module tree and of the
video codec functions, and the properties of them that the specification states.  The
functions that `module.h` only declares (their definitions are in `module.c`) are
modelled from the specification; each such definition says so.

Conventions of the embedding

* Pointers (`worker *`, `void *`, `task_t`) are natural numbers; `NULL` is `0`.
* A task function is a function pointer; what the function stored at an address
  computes is given by the parameter `call : task_t → Nat → Nat`
  (`call f x` is the value of `f(x)`).
* `std::queue` is a list, front at the head; `std::set<worker*>` is a `Finset Nat`
  and `begin()` is its least element.
* Blocking calls and assertion failures are `none`.
* A heap of modules is a function from addresses to `module`; C strings are lists of
  characters without the terminator.
* A video line is a list of bytes; fixed-width integers are natural numbers, truncated
  with `% 2 ^ 32` or `% 2 ^ 64` where the C type truncates; a converter is the list of
  the bytes it stores.
-/

namespace UltraGrid

/-! ## Task items -/

/-- The type `task_t`: a pointer to a task function. -/
abbrev task_t := Nat

/-- The null pointer. -/
abbrev NULL : Nat := 0

/-- The `struct task_data`: the task function and its argument. -/
structure task_data where
  task : task_t
  data : Nat
deriving DecidableEq, Repr

/-- The value a task item produces: `data.task(data.data)` (line 136). -/
def task_data.result (call : task_t → Nat → Nat) (d : task_data) : Nat :=
  call d.task d.data

/-- The item pushed by `worker::~worker` (lines 87-89): `poisoned.task = NULL`;
the `data` member is left uninitialised by the default constructor, so it is a parameter. -/
def poisoned (junk : Nat) : task_data := { task := NULL, data := junk }

/-! ## One worker -/

/-- Where the thread of `worker::run` stands, with its live locals. -/
inductive run_pc where
  /-- At line 122, the head of an iteration of `while(1)`. -/
  | loop_head
  /-- Inside `pthread_cond_wait` of line 125, after `notify(this)`. -/
  | cond_wait
  /-- Past line 129: `data` holds the dequeued item, the lock is released. -/
  | dequeued (data : task_data)
  /-- Past line 136: `res` holds the value of `data.task(data.data)`. -/
  | executed (data : task_data) (res : Nat)
  /-- The `return` of line 133 was taken: the thread has ended. -/
  | returned
deriving DecidableEq, Repr

/-- The `struct worker`: the two queues, and the state of its thread. -/
structure worker where
  m_data : List task_data
  m_result : List Nat
  pc : run_pc
deriving DecidableEq, Repr

namespace worker

/-- The constructor `worker::worker`: empty queues, the thread about to enter `run`. -/
def init : worker := { m_data := [], m_result := [], pc := run_pc.loop_head }

/-- One atomic step of `worker::run` (lines 119-143).  The second component tells
whether the step called `m_state_observer.notify(this)`.

* at the loop head, or woken inside `pthread_cond_wait`, with `m_lock` held:
  if `m_data` is empty, notify and wait (again); otherwise dequeue the front item;
* with an item dequeued: return if it is the poisoned pill, otherwise call the task;
* with the task executed: append the value to `m_result`, back to the loop head;
* after the return the thread does nothing more. -/
def run_step (call : task_t → Nat → Nat) (w : worker) : worker × Bool :=
  match w.pc with
  | run_pc.loop_head | run_pc.cond_wait =>
    match w.m_data with
    | [] => ({ w with pc := run_pc.cond_wait }, true)
    | d :: ds => ({ w with m_data := ds, pc := run_pc.dequeued d }, false)
  | run_pc.dequeued d =>
    if d.task = NULL then ({ w with pc := run_pc.returned }, false)
    else ({ w with pc := run_pc.executed d (call d.task d.data) }, false)
  | run_pc.executed _ res =>
    ({ w with m_result := w.m_result ++ [res], pc := run_pc.loop_head }, false)
  | run_pc.returned => (w, false)

/-- The method `worker::push` (lines 145-150): append to `m_data`. -/
def push (w : worker) (d : task_data) : worker :=
  { w with m_data := w.m_data ++ [d] }

/-- The method `worker::pop` (lines 152-164): `none` while the caller is blocked in
`pthread_cond_wait` because `m_result` is empty, otherwise the front of `m_result`,
which is removed. -/
def pop (w : worker) : Option (Nat × worker) :=
  match w.m_result with
  | [] => none
  | r :: rs => some (r, { w with m_result := rs })

/-- The worker thread runs `n` steps of `run`. -/
def run_steps (call : task_t → Nat → Nat) : Nat → worker → worker
  | 0, w => w
  | n + 1, w => run_steps call n (run_step call w).1

end worker

/-- What can happen to one worker: a `push`, a step of its own thread, a `pop`. -/
inductive worker_event where
  | push (d : task_data)
  | run
  | pop
deriving DecidableEq, Repr

/-- The items pushed by a sequence of events, in order. -/
def pushed : List worker_event → List task_data
  | [] => []
  | worker_event.push d :: es => d :: pushed es
  | _ :: es => pushed es

/-- Run an interleaving of pushes, thread steps and pops on one worker; the result is
the final worker and the values the calls of `pop` returned, in order.  A `pop` that
would block cannot be the next event to complete: such an interleaving is `none`. -/
def worker_exec (call : task_t → Nat → Nat) : worker → List worker_event → Option (worker × List Nat)
  | w, [] => some (w, [])
  | w, worker_event.push d :: es => worker_exec call (w.push d) es
  | w, worker_event.run :: es => worker_exec call (w.run_step call).1 es
  | w, worker_event.pop :: es =>
    match w.pop with
    | none => none
    | some (r, w1) =>
      match worker_exec call w1 es with
      | none => none
      | some (w2, rs) => some (w2, r :: rs)

/-! ## The pool -/

/-- The call `begin()` on a `std::set<worker*>`: an iterator to the least element,
`none` for the `end()` of an empty set. -/
def set_begin (s : Finset Nat) : Option Nat :=
  if h : s.Nonempty then some (s.min' h) else none

/-- Store `v` at address `a`. -/
def mem_set (m : Nat → worker) (a : Nat) (v : worker) : Nat → worker :=
  fun x => if x = a then v else m x

/-- The `class worker_pool` with the worker objects it owns: the two sets of
the class, the addresses of the worker objects obtained from `new worker(*this)`
(none is deleted before the pool is destroyed) and the contents of these objects. -/
structure worker_pool where
  m_empty_workers : Finset Nat
  m_occupied_workers : Finset Nat
  allocated : Finset Nat
  mem : Nat → worker

namespace worker_pool

/-- The constructor `worker_pool::worker_pool`: both sets empty, no worker yet. -/
def init : worker_pool :=
  { m_empty_workers := ∅, m_occupied_workers := ∅, allocated := ∅, mem := fun _ => worker.init }

/-- The method `worker_pool::notify` (lines 185-190). -/
def notify (p : worker_pool) (w : Nat) : worker_pool :=
  { p with
    m_occupied_workers := p.m_occupied_workers.erase w
    m_empty_workers := insert w p.m_empty_workers }

/-- The statement `m_empty_workers.insert(new worker(*this))` of line 206; `fresh` is the
address the allocator returns. -/
def new_worker (p : worker_pool) (fresh : Nat) : worker_pool :=
  { p with
    m_empty_workers := insert fresh p.m_empty_workers
    allocated := insert fresh p.allocated
    mem := mem_set p.mem fresh worker.init }

/-- The critical section of `worker_pool::run_async` (lines 204-213): the pool when the
lock is released, and the chosen worker `w`; `none` if the assertion of line 209 fails. -/
def run_async_locked (p : worker_pool) (fresh : Nat) : Option (worker_pool × Nat) :=
  let p1 := if p.m_empty_workers = ∅ then p.new_worker fresh else p
  match set_begin p1.m_empty_workers with
  | none => none
  | some w =>
    some ({ p1 with
            m_empty_workers := p1.m_empty_workers.erase w
            m_occupied_workers := insert w p1.m_occupied_workers }, w)

/-- The call `w->push(task_data(task, data))` of line 215. -/
def push_to (p : worker_pool) (w : Nat) (d : task_data) : worker_pool :=
  { p with mem := mem_set p.mem w ((p.mem w).push d) }

/-- The method `worker_pool::run_async` (lines 201-218) run by one caller without any
other thread in between: the pool afterwards and the returned handle. -/
def run_async (p : worker_pool) (task : task_t) (data : Nat) (fresh : Nat) :
    Option (worker_pool × Nat) :=
  match p.run_async_locked fresh with
  | none => none
  | some (p1, w) => some (p1.push_to w { task := task, data := data }, w)

/-- The method `worker_pool::wait_task` (lines 220-224): `w->pop()` on the worker the
handle points to; `none` while the caller is blocked. -/
def wait_task (p : worker_pool) (handle : Nat) : Option (worker_pool × Nat) :=
  match (p.mem handle).pop with
  | none => none
  | some (r, w1) => some ({ p with mem := mem_set p.mem handle w1 }, r)

/-- One step of the thread of worker `w`, with the `notify` it may call. -/
def run_worker (call : task_t → Nat → Nat) (p : worker_pool) (w : Nat) : worker_pool :=
  let r := (p.mem w).run_step call
  let p1 := { p with mem := mem_set p.mem w r.1 }
  if r.2 then p1.notify w else p1

/-- The number of workers of the pool, idle plus busy. -/
def size (p : worker_pool) : Nat :=
  p.m_empty_workers.card + p.m_occupied_workers.card

/-- The pool's bookkeeping is sound: no worker is in both sets, and the two sets hold
exactly the worker objects the pool has allocated. -/
def wf (p : worker_pool) : Prop :=
  Disjoint p.m_empty_workers p.m_occupied_workers ∧
    p.m_empty_workers ∪ p.m_occupied_workers = p.allocated

end worker_pool

/-- The free function `task_run_async` (lines 228-231) on the global `instance`.  Its
body is the expression statement `instance.run_async(task, data);` and nothing else: the
handle is computed and dropped, and control leaves the function without a `return`, so no
value is handed to the caller (`none` in the second component). -/
def task_run_async (inst : worker_pool) (task : task_t) (data : Nat) (fresh : Nat) :
    Option (worker_pool × Option Nat) :=
  match inst.run_async task data fresh with
  | none => none
  | some (p1, _) => some (p1, none)

/-- The free function `wait_task` (lines 233-236): `return instance.wait_task(handle);`. -/
def wait_task (inst : worker_pool) (handle : Nat) : Option (worker_pool × Nat) :=
  inst.wait_task handle

/-- The operations on the sets of the pool: the critical section of `run_async`
(with the address a new worker would get) and `notify(w)`. -/
inductive pool_op where
  | run_async (fresh : Nat)
  | notify (w : Nat)
deriving DecidableEq, Repr

/-- Run a sequence of pool operations.  The allocator returns only addresses that are not
in use, and `notify` is called by workers of this pool only: other sequences are `none`. -/
def pool_exec : worker_pool → List pool_op → Option worker_pool
  | p, [] => some p
  | p, pool_op.run_async fresh :: ops =>
    if fresh ∈ p.allocated then none
    else
      match p.run_async_locked fresh with
      | none => none
      | some (p1, _) => pool_exec p1 ops
  | p, pool_op.notify w :: ops =>
    if w ∈ p.allocated then pool_exec (p.notify w) ops else none

/-! ## The pool with its callers and worker threads -/

/-- The pool, its workers, and what the caller threads hold:
* `callers`: the calls of `run_async` that have left the critical section and have not
  yet pushed, each with the chosen worker and its task;
* `calls`: the calls of `run_async` that have returned, in the order of their `push`,
  each with its task and the returned handle;
* `waits`: the calls of `wait_task` that have returned, in order: the index (in `calls`)
  of the call whose handle was passed, the handle, and the returned value. -/
structure sys where
  pool : worker_pool
  callers : List (Nat × task_data)
  calls : List (task_data × Nat)
  waits : List (Nat × Nat × Nat)

/-- At process start: the global `instance` is constructed, no call was made. -/
def sys.init : sys :=
  { pool := worker_pool.init, callers := [], calls := [], waits := [] }

/-- The atomic steps of the threads. -/
inductive sys_event where
  /-- A caller of `run_async(t.task, t.data)` runs the critical section (lines 204-213). -/
  | lock (t : task_data) (fresh : Nat)
  /-- The `i`-th caller past the critical section runs `w->push(...)` and returns `w`. -/
  | push (i : Nat)
  /-- The thread of worker `w` runs one step of `worker::run`. -/
  | run (w : Nat)
  /-- The holder of the handle returned by the `k`-th call passes it to `wait_task`,
  which returns. -/
  | wait (k : Nat)
deriving DecidableEq, Repr

/-- One step of the system; `none` when the step cannot happen next (an address in use
returned by the allocator, no such caller, no such thread, the handle not yet returned,
`wait_task` still blocked, or the assertion of line 209 failing). -/
def sys_step (call : task_t → Nat → Nat) (s : sys) : sys_event → Option sys
  | sys_event.lock t fresh =>
    if fresh ∈ s.pool.allocated then none
    else
      match s.pool.run_async_locked fresh with
      | none => none
      | some (p1, w) => some { s with pool := p1, callers := s.callers ++ [(w, t)] }
  | sys_event.push i =>
    match s.callers[i]? with
    | none => none
    | some (w, t) =>
      some { s with
             pool := s.pool.push_to w t
             callers := s.callers.eraseIdx i
             calls := s.calls ++ [(t, w)] }
  | sys_event.run w =>
    if w ∈ s.pool.allocated then some { s with pool := s.pool.run_worker call w } else none
  | sys_event.wait k =>
    match s.calls[k]? with
    | none => none
    | some (_, h) =>
      match s.pool.wait_task h with
      | none => none
      | some (p1, r) => some { s with pool := p1, waits := s.waits ++ [(k, h, r)] }

/-- Run a sequence of steps from a state. -/
def sys_exec (call : task_t → Nat → Nat) : sys → List sys_event → Option sys
  | s, [] => some s
  | s, e :: es =>
    match sys_step call s e with
    | none => none
    | some s1 => sys_exec call s1 es

/-! ## Invariants -/

/-- The item the thread of a worker has taken from `m_data` and not yet turned into a
result: none at the loop head or while waiting, the local `data` otherwise (a real task
once it was executed, the poisoned pill once the thread returned). -/
def pc_holds (call : task_t → Nat → Nat) : run_pc → List task_data → Prop
  | run_pc.loop_head, cur => cur = []
  | run_pc.cond_wait, cur => cur = []
  | run_pc.dequeued d, cur => cur = [d]
  | run_pc.executed d r, cur => cur = [d] ∧ d.task ≠ NULL ∧ r = call d.task d.data
  | run_pc.returned, cur => ∃ d, cur = [d] ∧ d.task = NULL

/-- The history invariant of a worker: the items `P` pushed so far are, in order, the
items `done` whose results were appended to `m_result` (all real tasks), the item the
thread holds, and the items still in `m_data`; the values `outs` popped so far followed
by `m_result` are the results of `done`. -/
def worker_inv (call : task_t → Nat → Nat) (P : List task_data) (outs : List Nat)
    (w : worker) : Prop :=
  ∃ done cur, P = done ++ cur ++ w.m_data ∧ (∀ d ∈ done, d.task ≠ NULL) ∧
    outs ++ w.m_result = done.map (task_data.result call) ∧ pc_holds call w.pc cur

/-- The thread of worker `w` runs `n` steps, with the notifications they make. -/
def worker_pool.run_worker_steps (call : task_t → Nat → Nat) (p : worker_pool) (w : Nat) :
    Nat → worker_pool
  | 0 => p
  | n + 1 => worker_pool.run_worker_steps call (p.run_worker call w) w n

/-- The tasks of the calls of `run_async` that returned the handle `a`, in order. -/
def sys.pushed_to (s : sys) (a : Nat) : List task_data :=
  (s.calls.filter (fun c => c.2 = a)).map Prod.fst

/-- The values returned by the calls of `wait_task` on the handle `a`, in order. -/
def sys.waited_on (s : sys) (a : Nat) : List Nat :=
  (s.waits.filter (fun x => x.2.1 = a)).map (fun x => x.2.2)

/-- The invariant of the system: idle workers, the workers chosen by callers and the
returned handles are allocated workers, every `wait_task` was called on the handle of
the call it names, and every worker satisfies its history invariant with respect to the
calls that returned it and the waits on it. -/
def sys_inv (call : task_t → Nat → Nat) (s : sys) : Prop :=
  s.pool.m_empty_workers ⊆ s.pool.allocated ∧
  (∀ c ∈ s.callers, c.1 ∈ s.pool.allocated) ∧
  (∀ c ∈ s.calls, c.2 ∈ s.pool.allocated) ∧
  (∀ x ∈ s.waits, ∃ t, s.calls[x.1]? = some (t, x.2.1)) ∧
  ∀ a, worker_inv call (s.pushed_to a) (s.waited_on a) (s.pool.mem a)

/-- The number of calls of `run_async` (critical sections) in a sequence of pool
operations. -/
def submissions : List pool_op → Nat
  | [] => 0
  | pool_op.run_async _ :: ops => submissions ops + 1
  | pool_op.notify _ :: ops => submissions ops

/-! ## Destruction of the workers and of the pool -/

/-- What the destructors do to the threads and synchronisation objects, in order. -/
inductive dtor_action where
  /-- The call `this->push(poisoned)` of line 89 on worker `w`. -/
  | push_poison (w : Nat)
  /-- The call `pthread_join(m_thread_id, NULL)` of line 91 returned. -/
  | join (w : Nat)
  /-- The call `pthread_mutex_destroy(&m_lock)` of line 92. -/
  | mutex_destroy (w : Nat)
  /-- The call `pthread_cond_destroy(&m_task_ready_cv)` of line 93. -/
  | cond_destroy_ready (w : Nat)
  /-- The call `pthread_cond_destroy(&m_task_completed_cv)` of line 94. -/
  | cond_destroy_completed (w : Nat)
  /-- The call `pthread_mutex_destroy(&m_lock)` of the pool, line 182. -/
  | pool_mutex_destroy
deriving DecidableEq, Repr

/-- The increment `++first` of an iterator of a `std::set<worker*>` that stands at the
element `a`: the least element greater than `a` of the set as it is at that moment,
`none` for `end()`. -/
def set_next (s : Finset Nat) (a : Nat) : Option Nat :=
  set_begin (s.filter (fun x => a < x))

/-- Where the thread that runs `worker_pool::~worker_pool` (lines 177-183) stands.  The
two calls of `for_each(begin, end, func_delete)` are the loop
`for (; first != last; ++first) func_delete(*first);`; the iterator `first` is `none`
at `end()`. -/
inductive dtor_pc where
  /-- Before line 178. -/
  | start
  /-- In the loop over `m_empty_workers`, at the test `first != last`. -/
  | idle_loop (first : Option Nat)
  /-- In `delete` of the idle worker `a`: the pill is pushed (line 89), the thread is in
  `pthread_join` (line 91). -/
  | idle_join (a : Nat)
  /-- In the loop over `m_occupied_workers`, at the test `first != last`. -/
  | busy_loop (first : Option Nat)
  /-- In `delete` of the busy worker `a`, in `pthread_join`. -/
  | busy_join (a : Nat)
  /-- Past line 182. -/
  | done
deriving DecidableEq, Repr

/-- The pool while it is destroyed: the pool with its live sets and workers, the place of
the destructor thread, and the actions of the destructors so far, in order. -/
structure dtor_state where
  pool : worker_pool
  pc : dtor_pc
  acts : List dtor_action

/-- The start of `func_delete(a)`, that is of `delete a`: `worker::~worker` pushes the
poisoned pill to the worker's own queue (lines 87-89) and goes on to `pthread_join`.
Deleting an address that holds no live worker object is undefined: `none`.  `junk` is
the uninitialised `data` member of the pill. -/
def dtor_state.delete_begin (s : dtor_state) (a : Nat) (junk : Nat) (next : dtor_pc) :
    Option dtor_state :=
  if a ∈ s.pool.allocated then
    some { pool := s.pool.push_to a (poisoned junk), pc := next,
           acts := s.acts ++ [dtor_action.push_poison a] }
  else none

/-- The rest of `delete a` and the increment of the iterator over the set `live`:
`pthread_join` returns once the thread of `a` has returned (`none` while it has not:
the destructor is blocked), then the lock and the two condition variables of the worker
are destroyed (lines 92-94), the object is freed, and `++first` moves to the next
element of the set as it is now.  Incrementing an iterator whose element was erased
from the set meanwhile is undefined: `none`. -/
def dtor_state.delete_end (s : dtor_state) (a : Nat) (live : Finset Nat)
    (next : Option Nat → dtor_pc) : Option dtor_state :=
  if (s.pool.mem a).pc = run_pc.returned then
    if a ∈ live then
      some { pool := { s.pool with allocated := s.pool.allocated.erase a },
             pc := next (set_next live a),
             acts := s.acts ++ [dtor_action.join a, dtor_action.mutex_destroy a,
               dtor_action.cond_destroy_ready a, dtor_action.cond_destroy_completed a] }
    else none
  else none

/-- One step of the thread that runs `worker_pool::~worker_pool`.  The destructor does
not take the lock of the pool: it reads the two sets as the calls of `notify` by the
worker threads leave them.  From the return of `pthread_join` to the increment of the
iterator is one step here, so the model has fewer interleavings than the code; every
schedule of the model is a schedule of the code. -/
def dtor_step (junk : Nat → Nat) (s : dtor_state) : Option dtor_state :=
  match s.pc with
  | dtor_pc.start =>
    some { s with pc := dtor_pc.idle_loop (set_begin s.pool.m_empty_workers) }
  | dtor_pc.idle_loop (some a) => s.delete_begin a (junk a) (dtor_pc.idle_join a)
  | dtor_pc.idle_join a => s.delete_end a s.pool.m_empty_workers dtor_pc.idle_loop
  | dtor_pc.idle_loop none =>
    some { s with pc := dtor_pc.busy_loop (set_begin s.pool.m_occupied_workers) }
  | dtor_pc.busy_loop (some a) => s.delete_begin a (junk a) (dtor_pc.busy_join a)
  | dtor_pc.busy_join a => s.delete_end a s.pool.m_occupied_workers dtor_pc.busy_loop
  | dtor_pc.busy_loop none =>
    some { s with pc := dtor_pc.done, acts := s.acts ++ [dtor_action.pool_mutex_destroy] }
  | dtor_pc.done => none

/-- The atomic steps while the pool is destroyed: a step of the destructor thread, or a
step of the thread of a worker (with the `notify` it may call). -/
inductive dtor_event where
  | dtor
  | run (w : Nat)
deriving DecidableEq, Repr

/-- Run an interleaving of steps of the destructor and of the worker threads; `none` when
a step cannot happen next (the destructor blocked in `pthread_join` or past its end, no
live worker at the address) or is undefined. -/
def dtor_exec (call : task_t → Nat → Nat) (junk : Nat → Nat) :
    dtor_state → List dtor_event → Option dtor_state
  | s, [] => some s
  | s, dtor_event.dtor :: es =>
    match dtor_step junk s with
    | none => none
    | some s1 => dtor_exec call junk s1 es
  | s, dtor_event.run w :: es =>
    if w ∈ s.pool.allocated then
      dtor_exec call junk { s with pool := s.pool.run_worker call w } es
    else none

/-! ## Modules (`src/module.h`) -/

/-- The macro `MODULE_MAGIC` (line 62). -/
def MODULE_MAGIC : Nat := 0xf1125b44

/-- The `enum module_class` (lines 64-72). -/
inductive module_class where
  | MODULE_CLASS_NONE
  | MODULE_CLASS_ROOT
  | MODULE_CLASS_COMPRESS
  | MODULE_CLASS_DATA
  | MODULE_CLASS_SENDER
  | MODULE_CLASS_TX
  | MODULE_CLASS_AUDIO
deriving DecidableEq, Repr

/-- The enumerators of `enum module_class` in the order of their declaration. -/
def module_class.enumerators : List module_class :=
  [module_class.MODULE_CLASS_NONE, module_class.MODULE_CLASS_ROOT,
    module_class.MODULE_CLASS_COMPRESS, module_class.MODULE_CLASS_DATA,
    module_class.MODULE_CLASS_SENDER, module_class.MODULE_CLASS_TX,
    module_class.MODULE_CLASS_AUDIO]

/-- The value of an enumerator: the first is given as `= 0` and each of the others,
having no initialiser, is one more than the one declared before it, so the value is the
position in the declaration. -/
def module_class.val (c : module_class) : Nat :=
  module_class.enumerators.indexOf c

/-- The `struct module` (lines 79-90), without its `lock`: pointers are addresses,
`NULL` is `0`; `childs` is the child collection, in order. -/
structure module where
  magic : Nat
  cls : module_class
  parent : Nat
  childs : List Nat
  deleter : Nat
  msg_callback : Nat
  priv_data : Nat
deriving DecidableEq, Repr

/-- Store the module `v` at address `a`. -/
def module_set (h : Nat → module) (a : Nat) (v : module) : Nat → module :=
  fun x => if x = a then v else h x

/-- Modelled from the spec: the default deleter that the initialisation installs (spec
4.1, "default (no-op) deleter"); `module.c`, which defines it, is not among the sources.
It is the null pointer: no stage-specific deleter is set. -/
def default_deleter : Nat := NULL

/-- Modelled from the spec: the default message callback that the initialisation
installs (spec 4.1, "default (no-op) ... callback"); `module.c` is not among the sources.
It is the null pointer: no callback is set. -/
def default_callback : Nat := NULL

/-- Modelled from the spec: the body of `module_init_default`, which `module.h` (line 92)
declares with the node as its only parameter and whose definition (`module.c`) is not
among the sources.  Spec 4.1: it "initializes identity tag, class, empty child
collection, null parent, default (no-op) deleter and callback" and never fails.  No class
can be passed to it, so the class it stores is a value `cls0` fixed by the
implementation; the private payload, which the spec does not mention, is left as it is. -/
def module_init_default (cls0 : module_class) (h : Nat → module) (module_data : Nat) :
    Nat → module :=
  module_set h module_data
    { magic := MODULE_MAGIC
      cls := cls0
      parent := NULL
      childs := []
      deleter := default_deleter
      msg_callback := default_callback
      priv_data := (h module_data).priv_data }

/-- Modelled from the spec: the structural change of a registration (spec 4.1): append
the node to the child collection of the parent, then set the parent link of the node. -/
def module_link (h : Nat → module) (module_data parent : Nat) : Nat → module :=
  let h1 := module_set h parent
    { h parent with childs := (h parent).childs ++ [module_data] }
  module_set h1 module_data { h1 module_data with parent := parent }

/-- Modelled from the spec: the body of `module_register` (declared at `module.h` line
93; `module.c` is not among the sources).  Spec 4.1: it "appends `node` to `parent`'s
child collection, sets `node.parent = parent`; if `parent` is null, `node` becomes a new
root (no structural linkage required)".  Spec 3 and 7: the identity tag must validate
before an operation touches a node, and registering a node twice is a precondition
violation met with an assertion.  An assertion failure (or a null node) is `none`. -/
def module_register (h : Nat → module) (module_data parent : Nat) : Option (Nat → module) :=
  if module_data = NULL then none
  else if (h module_data).magic ≠ MODULE_MAGIC then none
  else if (h module_data).parent ≠ NULL then none
  else if parent = NULL then some h
  else if (h parent).magic ≠ MODULE_MAGIC then none
  else some (module_link h module_data parent)

/-- Modelled from the spec: the structural change of a teardown (spec 4.1 and 3): remove
the node from the child collection of its parent, if it has one, and invalidate the
identity tag of the node. -/
def module_unlink (h : Nat → module) (module_data : Nat) : Nat → module :=
  let parent := (h module_data).parent
  let h1 := if parent = NULL then h
    else module_set h parent { h parent with childs := (h parent).childs.erase module_data }
  module_set h1 module_data { h1 module_data with magic := 0 }

/-- Modelled from the spec: the body of `module_done` (declared at `module.h` line 94;
`module.c` is not among the sources).  Spec 4.1: it "validates identity tag; removes
`node` from its parent's child collection (if parent present); invokes the node's
deleter"; a node that is done is destroyed, so its tag no longer validates (spec 3).
Whether the node still has children is not checked (spec 9).  The deleter has the type
`module_deleter_t` of line 77 and is called on the node.  The result is the tree
afterwards and the calls of deleters made, each with the deleter and its argument; a
failed assertion is `none`. -/
def module_done (h : Nat → module) (module_data : Nat) :
    Option ((Nat → module) × List (Nat × Nat)) :=
  if (h module_data).magic ≠ MODULE_MAGIC then none
  else some (module_unlink h module_data, [((h module_data).deleter, module_data)])

/-- A sequence of calls `module_register(node, parent)`. -/
def register_all : (Nat → module) → List (Nat × Nat) → Option (Nat → module)
  | h, [] => some h
  | h, (node, parent) :: rs =>
    match module_register h node parent with
    | none => none
    | some h1 => register_all h1 rs

/-- Parent links and child collections agree: for every module `p`, a node has `p` as
its parent exactly if it occurs in the child collection of `p`, and it occurs there at
most once; nothing is a child of the null pointer. -/
def tree_consistent (h : Nat → module) : Prop :=
  (∀ n p, p ≠ NULL →
    (((h n).parent = p ↔ n ∈ (h p).childs) ∧ (h p).childs.count n ≤ 1)) ∧
  ∀ n, n ∉ (h NULL).childs

/-- A small tree: the root 1 with the children 2, 3 and 4, whose deleter is 9. -/
def demo_tree : Nat → module :=
  fun a => if a = 1 then ⟨MODULE_MAGIC, module_class.MODULE_CLASS_ROOT, 0, [2, 3, 4], 0, 0, 0⟩
    else ⟨MODULE_MAGIC, module_class.MODULE_CLASS_DATA, 1, [], 9, 0, 0⟩

/-- Modelled from the spec: appending the text `s` to the text `buf` held in a buffer of
`buflen` bytes, "truncating safely if the buffer is too small" (spec 4.1): the buffer
holds at most `buflen - 1` characters and the terminator. -/
def bounded_append (buflen : Nat) (buf s : List Char) : List Char :=
  buf ++ s.take (buflen - 1 - buf.length)

/-- Modelled from the spec: the loop of `make_message_path` (declared at `module.h` line
96; `module.c` is not among the sources).  Spec 4.1: it "renders a dot/slash-delimited
textual address from an ordered sequence of classes terminated by the NONE sentinel,
writing into a caller-provided bounded buffer and truncating safely".  The labels are
those of `module_class_name` (line 95), whose table is not among the sources either: they
are the parameter `name`, and the delimiter is the parameter `delim`.  `first` tells
that no label was written yet; `buf` is the text written so far. -/
def append_message_path (name : module_class → List Char) (delim : Char) (buflen : Nat) :
    List module_class → Bool → List Char → List Char
  | [], _, buf => buf
  | c :: cs, first, buf =>
    if c = module_class.MODULE_CLASS_NONE then buf
    else
      append_message_path name delim buflen cs false
        (bounded_append buflen (if first then buf else bounded_append buflen buf [delim])
          (name c))

/-- Modelled from the spec: `make_message_path(buf, buflen, modules)`, see
`append_message_path`; the result is the text left in `buf`, which occupies its length
plus one byte for the terminator. -/
def make_message_path (name : module_class → List Char) (delim : Char) (buflen : Nat)
    (modules : List module_class) : List Char :=
  append_message_path name delim buflen modules true []

/-- The full text of a path: the labels of the classes before the first NONE, each but
the first preceded by the delimiter. -/
def render_path (name : module_class → List Char) (delim : Char) :
    List module_class → Bool → List Char
  | [], _ => []
  | c :: cs, first =>
    if c = module_class.MODULE_CLASS_NONE then []
    else (if first then [] else [delim]) ++ name c ++ render_path name delim cs false

/-- Labels for the classes, for examples. -/
def demo_class_name : module_class → List Char
  | module_class.MODULE_CLASS_ROOT => ['r', 'o', 'o', 't']
  | module_class.MODULE_CLASS_COMPRESS => ['c', 'o', 'm', 'p', 'r', 'e', 's', 's']
  | module_class.MODULE_CLASS_SENDER => ['s', 'e', 'n', 'd', 'e', 'r']
  | _ => ['x']

/-! ## The execution loop statement by statement, with lock ownership -/

/-- The statement of `worker::run` (or of `worker_pool::notify`, which it calls) that the
thread of a worker executes next, named by its line in `worker.cpp`. -/
inductive run_line where
  /-- `pthread_mutex_lock(&m_lock)` at the head of the loop. -/
  | l122
  /-- The test `m_data.empty()` of the inner `while`. -/
  | l123
  /-- The call `m_state_observer.notify(this)`. -/
  | l124
  /-- In `notify`: `pthread_mutex_lock(&m_lock)` on the pool lock. -/
  | l186
  /-- In `notify`: `m_occupied_workers.erase(w)`. -/
  | l187
  /-- In `notify`: `m_empty_workers.insert(w)`. -/
  | l188
  /-- In `notify`: `pthread_mutex_unlock(&m_lock)` on the pool lock. -/
  | l189
  /-- The call `pthread_cond_wait(&m_task_ready_cv, &m_lock)`: it releases `m_lock`. -/
  | l125
  /-- Blocked inside `pthread_cond_wait`; on wake-up `m_lock` is taken again. -/
  | l125_blocked
  /-- `data = m_data.front()`. -/
  | l127
  /-- `m_data.pop()`. -/
  | l128
  /-- `pthread_mutex_unlock(&m_lock)`. -/
  | l129
  /-- The test `data.task == NULL`. -/
  | l132
  /-- The `return`: the thread has ended. -/
  | l133
  /-- `void *res = data.task(data.data)`: the task function is invoked. -/
  | l136
  /-- `pthread_mutex_lock(&m_lock)`. -/
  | l138
  /-- `m_result.push(res)`. -/
  | l139
  /-- `pthread_cond_signal(&m_task_completed_cv)`. -/
  | l140
  /-- `pthread_mutex_unlock(&m_lock)`. -/
  | l141
deriving DecidableEq, Repr

/-- The thread of a worker with the memory it works on: the next statement, the two
queues of the worker, the locals `data` and `res`, whether this thread owns the lock of
the worker and the lock of the pool, and the two sets of the pool. -/
structure run_state where
  line : run_line
  m_data : List task_data
  m_result : List Nat
  data : task_data
  res : Nat
  holds_m_lock : Bool
  holds_pool_lock : Bool
  m_empty_workers : Finset Nat
  m_occupied_workers : Finset Nat

/-- A new worker thread entering `run`: empty queues, no lock owned; the locals are
uninitialised (`junk`). -/
def run_state.init (idle busy : Finset Nat) (junk : task_data) (junk_res : Nat) : run_state :=
  { line := run_line.l122, m_data := [], m_result := [], data := junk, res := junk_res,
    holds_m_lock := false, holds_pool_lock := false,
    m_empty_workers := idle, m_occupied_workers := busy }

/-- The thread of the worker at address `self` executes its next statement. -/
def run_stmt (call : task_t → Nat → Nat) (self : Nat) (s : run_state) : run_state :=
  match s.line with
  | run_line.l122 => { s with holds_m_lock := true, line := run_line.l123 }
  | run_line.l123 =>
    if s.m_data = [] then { s with line := run_line.l124 } else { s with line := run_line.l127 }
  | run_line.l124 => { s with line := run_line.l186 }
  | run_line.l186 => { s with holds_pool_lock := true, line := run_line.l187 }
  | run_line.l187 =>
    { s with m_occupied_workers := s.m_occupied_workers.erase self, line := run_line.l188 }
  | run_line.l188 =>
    { s with m_empty_workers := insert self s.m_empty_workers, line := run_line.l189 }
  | run_line.l189 => { s with holds_pool_lock := false, line := run_line.l125 }
  | run_line.l125 => { s with holds_m_lock := false, line := run_line.l125_blocked }
  | run_line.l125_blocked => { s with holds_m_lock := true, line := run_line.l123 }
  | run_line.l127 => { s with data := s.m_data.headD s.data, line := run_line.l128 }
  | run_line.l128 => { s with m_data := s.m_data.tail, line := run_line.l129 }
  | run_line.l129 => { s with holds_m_lock := false, line := run_line.l132 }
  | run_line.l132 =>
    if s.data.task = NULL then { s with line := run_line.l133 }
    else { s with line := run_line.l136 }
  | run_line.l133 => s
  | run_line.l136 => { s with res := call s.data.task s.data.data, line := run_line.l138 }
  | run_line.l138 => { s with holds_m_lock := true, line := run_line.l139 }
  | run_line.l139 => { s with m_result := s.m_result ++ [s.res], line := run_line.l140 }
  | run_line.l140 => { s with line := run_line.l141 }
  | run_line.l141 => { s with holds_m_lock := false, line := run_line.l122 }

/-- What happens next: the thread of the worker executes a statement, or another thread
completes a `push` or a `pop` on the worker or changes the sets of the pool. -/
inductive run_event where
  | stmt
  | other_push (d : task_data)
  | other_pop
  | other_pool (idle busy : Finset Nat)

/-- One event.  Another thread needs the lock of the worker for `push` and `pop` and the
lock of the pool to change its sets: while the worker thread owns that lock the other
thread stays blocked and nothing changes. -/
def run_event_step (call : task_t → Nat → Nat) (self : Nat) (s : run_state) :
    run_event → run_state
  | run_event.stmt => run_stmt call self s
  | run_event.other_push d =>
    if s.holds_m_lock then s else { s with m_data := s.m_data ++ [d] }
  | run_event.other_pop =>
    if s.holds_m_lock then s else { s with m_result := s.m_result.tail }
  | run_event.other_pool idle busy =>
    if s.holds_pool_lock then s
    else { s with m_empty_workers := idle, m_occupied_workers := busy }

/-- A sequence of events from a state. -/
def run_trace (call : task_t → Nat → Nat) (self : Nat) : run_state → List run_event → run_state
  | s, [] => s
  | s, e :: es => run_trace call self (run_event_step call self s e) es

/-- The locks the worker thread owns when it is about to execute a statement: the lock of
the worker inside the two critical sections (lines 122-129 with the notification, and
lines 138-141), the lock of the pool inside `notify` (lines 186-189). -/
def locks_at : run_line → Bool × Bool
  | run_line.l122 => (false, false)
  | run_line.l123 => (true, false)
  | run_line.l124 => (true, false)
  | run_line.l186 => (true, false)
  | run_line.l187 => (true, true)
  | run_line.l188 => (true, true)
  | run_line.l189 => (true, true)
  | run_line.l125 => (true, false)
  | run_line.l125_blocked => (false, false)
  | run_line.l127 => (true, false)
  | run_line.l128 => (true, false)
  | run_line.l129 => (true, false)
  | run_line.l132 => (false, false)
  | run_line.l133 => (false, false)
  | run_line.l136 => (false, false)
  | run_line.l138 => (false, false)
  | run_line.l139 => (true, false)
  | run_line.l140 => (true, false)
  | run_line.l141 => (true, false)

/-! ## Video codecs: the table `codec_info` of `src/video_codec.c` -/

/-- The enumeration `codec_t`.  It is declared in `video_codec.h`; its enumerators are
taken from the rows of `codec_info`, which names fifteen of them.  The value
`(codec_t) -1` that `get_codec_from_fcc` returns for an unknown fourcc is no enumerator
(`vc_get_linesize` uses enumerators as indices into `codec_info`), so functions returning
a `codec_t` return an `Option codec_t` with `none` for `(codec_t) -1`. -/
inductive codec_t
  | RGBA | UYVY | YUYV | Vuy2 | DVS8 | R10k | v210 | DVS10 | DXT1 | DXT1_YUV | DXT5
  | RGB | DPX10 | JPEG | RAW
  deriving DecidableEq, Repr

/-- The definition `#define to_fourcc(a,b,c,d)`:
`((uint32_t)(a)) | ((uint32_t)(b)<<8) | ((uint32_t)(c)<<16) | ((uint32_t)(d)<<24)`. -/
def to_fourcc (a b c d : Char) : Nat :=
  (a.toNat ||| b.toNat <<< 8 ||| c.toNat <<< 16 ||| d.toNat <<< 24) % 2 ^ 32

/-- A row of `codec_info` (`struct codec_info_t`, declared in `video_codec.h`): the
members that the functions below read, in the order of the initialisers.  The members
`bpp` (a `double`), the opacity flag and `file_extension` are left out. -/
structure codec_info_t where
  codec : codec_t
  name : String
  fcc : Nat
  h_align : Int
  rgb : Bool

/-- The table `codec_info` (lines 66-83) up to its terminating row, the one whose `name`
is `NULL`: every loop over the table stops there. -/
def codec_info : List codec_info_t :=
  [ ⟨codec_t.RGBA, "RGBA", to_fourcc 'R' 'G' 'B' 'A', 1, true⟩,
    ⟨codec_t.UYVY, "UYVY", to_fourcc '2' 'v' 'u' 'y', 1, false⟩,
    ⟨codec_t.YUYV, "YUYV", to_fourcc 'Y' 'U' 'Y' 'V', 1, false⟩,
    ⟨codec_t.Vuy2, "2vuy", to_fourcc '2' 'V' 'u' 'y', 1, false⟩,
    ⟨codec_t.DVS8, "DVS8", to_fourcc 'd' 'v' 's' '8', 1, false⟩,
    ⟨codec_t.R10k, "R10k", to_fourcc 'R' '1' '0' 'k', 1, true⟩,
    ⟨codec_t.v210, "v210", to_fourcc 'v' '2' '1' '0', 48, false⟩,
    ⟨codec_t.DVS10, "DVS10", to_fourcc 'D' 'S' '1' '0', 48, false⟩,
    ⟨codec_t.DXT1, "DXT1", to_fourcc 'D' 'X' 'T' '1', 1, true⟩,
    ⟨codec_t.DXT1_YUV, "DXT1 YUV", to_fourcc 'D' 'X' 'T' 'Y', 1, false⟩,
    ⟨codec_t.DXT5, "DXT5", to_fourcc 'D' 'X' 'T' '5', 1, false⟩,
    ⟨codec_t.RGB, "RGB", to_fourcc 'R' 'G' 'B' '2', 1, true⟩,
    ⟨codec_t.DPX10, "DPX10", to_fourcc 'D' 'P' '1' '0', 1, true⟩,
    ⟨codec_t.JPEG, "JPEG", to_fourcc 'J' 'P' 'E' 'G', 0, false⟩,
    ⟨codec_t.RAW, "raw", to_fourcc 'r' 'a' 'w' 's', 0, false⟩ ]

/-- A row of `fourcc_aliases` (`struct alternate_fourcc`); the member `alias` is
`alias_` here, `alias` being a keyword. -/
structure alternate_fourcc where
  alias_ : Nat
  primary_fcc : Nat

/-- The table `fourcc_aliases` (lines 111-120) up to its terminating row `{0,0}`. -/
def fourcc_aliases : List alternate_fourcc :=
  [ ⟨to_fourcc 'A' 'B' 'G' 'R', to_fourcc 'R' 'G' 'B' 'A'⟩,
    ⟨to_fourcc '2' 'B' 'G' 'R', to_fourcc 'R' 'G' 'B' '2'⟩,
    ⟨to_fourcc 'U' 'Y' 'V' 'Y', to_fourcc '2' 'v' 'u' 'y'⟩,
    ⟨to_fourcc 'M' 'J' 'P' 'G', to_fourcc 'J' 'P' 'E' 'G'⟩,
    ⟨to_fourcc 'D' 'V' 'S' '8', to_fourcc 'd' 'v' 's' '8'⟩ ]

/-- The loop of `get_fourcc` over the rows from index `i` on:
`while (codec_info[i].name != NULL) { if (codec == codec_info[i].codec) return
codec_info[i].fcc; i++; } return 0;`. -/
def get_fourcc.loop (codec : codec_t) : List codec_info_t → Nat
  | [] => 0
  | e :: rest => if codec = e.codec then e.fcc else get_fourcc.loop codec rest

/-- The function `get_fourcc` (lines 154-164). -/
def get_fourcc (codec : codec_t) : Nat :=
  get_fourcc.loop codec codec_info

/-- The loop of `get_fcc_from_codec`, the same text as that of `get_fourcc`. -/
def get_fcc_from_codec.loop (codec : codec_t) : List codec_info_t → Nat
  | [] => 0
  | e :: rest => if codec = e.codec then e.fcc else get_fcc_from_codec.loop codec rest

/-- The function `get_fcc_from_codec` (lines 178-189). -/
def get_fcc_from_codec (codec : codec_t) : Nat :=
  get_fcc_from_codec.loop codec codec_info

/-- A scan of the table for a fourcc, as both the first loop of `get_codec_from_fcc` and
the inner loop of its second do it: the codec of the first row whose `fcc` is `fourcc`;
`none` when the scan reaches the terminating row. -/
def get_codec_from_fcc.scan (fourcc : Nat) : List codec_info_t → Option codec_t
  | [] => none
  | e :: rest => if fourcc = e.fcc then some e.codec else get_codec_from_fcc.scan fourcc rest

/-- The second loop of `get_codec_from_fcc`, over the aliases from index `i` on: at a row
whose `alias` is `fourcc` the table is scanned for the row's `primary_fcc`; when that
scan finds nothing the loop goes on with the next alias.  Falling out of the loop is
`return (codec_t) -1`, here `none`. -/
def get_codec_from_fcc.aliases (fourcc : Nat) : List alternate_fourcc → Option codec_t
  | [] => none
  | a :: rest =>
    if fourcc = a.alias_ then
      match get_codec_from_fcc.scan a.primary_fcc codec_info with
      | some c => some c
      | none => get_codec_from_fcc.aliases fourcc rest
    else get_codec_from_fcc.aliases fourcc rest

/-- The function `get_codec_from_fcc` (lines 191-215); `none` is `(codec_t) -1`. -/
def get_codec_from_fcc (fourcc : Nat) : Option codec_t :=
  match get_codec_from_fcc.scan fourcc codec_info with
  | some c => some c
  | none => get_codec_from_fcc.aliases fourcc fourcc_aliases

/-- The loop of `get_halign`: the `h_align` of the first row for `codec`, else 0. -/
def get_halign.loop (codec : codec_t) : List codec_info_t → Int
  | [] => 0
  | e :: rest => if codec = e.codec then e.h_align else get_halign.loop codec rest

/-- The function `get_halign` (lines 242-252). -/
def get_halign (codec : codec_t) : Int :=
  get_halign.loop codec codec_info

/-- The largest `int`. -/
def INT_MAX : Int := 2 ^ 31 - 1

/-- The function `get_haligned` (lines 254-258):
`return ((width_pixels + h_align - 1) / h_align) * h_align;` with
`h_align = get_halign(codec)`.  The result is `none` where C leaves the expression
undefined: the division when `h_align` is 0 (the function has no test of it, unlike
`vc_get_linesize`, which rounds only under `if (codec_info[codec].h_align)`), and the
sum `width_pixels + h_align` when it exceeds `INT_MAX`.  The division of C truncates
(`Int.tdiv`). -/
def get_haligned (width_pixels : Int) (codec : codec_t) : Option Int :=
  let h_align := get_halign codec
  if h_align = 0 then none
  else if width_pixels + h_align > INT_MAX then none
  else some (Int.tdiv (width_pixels + h_align - 1) h_align * h_align)

/-! ## Video codecs: the line converters of `src/video_codec.c`

A line is a list of bytes.  A converter `f(dst, src, len, ...)` is modelled by the list
of the bytes that it writes to `dst`, from offset 0 upwards in the order of the stores
(every converter below stores to consecutive addresses).  Words are read and stored
little-endian: the file is x86 code (it has SSE assembly).  Lengths and shift counts are
natural numbers. -/

/-- Truncation to `uint32_t` (and to `unsigned int`). -/
def u32 (x : Nat) : Nat := x % 2 ^ 32

/-- Truncation to `uint64_t`. -/
def u64 (x : Nat) : Nat := x % 2 ^ 64

/-- The byte `src[i]` of a line (`unsigned char`); offsets past the end of the list
read 0. -/
def byte (m : List Nat) (i : Nat) : Nat := m.getD i 0 % 2 ^ 8

/-- The word `((const uint32_t *) src)[k]`. -/
def rd32 (m : List Nat) (k : Nat) : Nat :=
  byte m (4 * k) ||| byte m (4 * k + 1) <<< 8 ||| byte m (4 * k + 2) <<< 16 |||
    byte m (4 * k + 3) <<< 24

/-- The word `((const uint64_t *) src)[k]`. -/
def rd64 (m : List Nat) (k : Nat) : Nat :=
  byte m (8 * k) ||| byte m (8 * k + 1) <<< 8 ||| byte m (8 * k + 2) <<< 16 |||
    byte m (8 * k + 3) <<< 24 ||| byte m (8 * k + 4) <<< 32 ||| byte m (8 * k + 5) <<< 40 |||
    byte m (8 * k + 6) <<< 48 ||| byte m (8 * k + 7) <<< 56

/-- The four bytes that the store `*(uint32_t *) d = w` writes. -/
def le32 (w : Nat) : List Nat :=
  [w % 2 ^ 8, (w >>> 8) % 2 ^ 8, (w >>> 16) % 2 ^ 8, (w >>> 24) % 2 ^ 8]

/-- The eight bytes that the store `*(uint64_t *) d = w` writes. -/
def le64 (w : Nat) : List Nat :=
  [w % 2 ^ 8, (w >>> 8) % 2 ^ 8, (w >>> 16) % 2 ^ 8, (w >>> 24) % 2 ^ 8,
   (w >>> 32) % 2 ^ 8, (w >>> 40) % 2 ^ 8, (w >>> 48) % 2 ^ 8, (w >>> 56) % 2 ^ 8]

/-- The loop `while (len > 0) { body; len -= dec; }`, with fuel.  `body k` is what the
iteration number `k` stores (the source and destination pointers advance by a fixed
amount in every iteration, so they are functions of `k`).  `len` is an `int` in C; a
subtraction that would make it negative ends the loop just as reaching 0 does. -/
def while_len {α : Type} (body : Nat → List α) (dec : Nat) : Nat → Nat → Nat → List α
  | 0, _, _ => []
  | fuel + 1, k, len =>
    if len > 0 then body k ++ while_len body dec fuel (k + 1) (len - dec) else []

/-- One pixel of the general path of `vc_copylineRGBA`:
`r = tmp & 0xff; g = (tmp >> 8) & 0xff; b = (tmp >> 16) & 0xff;
tmp = (r << rshift) | (g << gshift) | (b << bshift);`. -/
def vc_copylineRGBA.pixel (tmp rshift gshift bshift : Nat) : Nat :=
  let r := tmp &&& 0xff
  let g := (tmp >>> 8) &&& 0xff
  let b := (tmp >>> 16) &&& 0xff
  u32 (r <<< rshift) ||| u32 (g <<< gshift) ||| u32 (b <<< bshift)

/-- One iteration of the loop of `vc_copylineRGBA`: four pixels. -/
def vc_copylineRGBA.body (src : List Nat) (rshift gshift bshift : Nat) (k : Nat) :
    List Nat :=
  le32 (vc_copylineRGBA.pixel (rd32 src (4 * k)) rshift gshift bshift) ++
  le32 (vc_copylineRGBA.pixel (rd32 src (4 * k + 1)) rshift gshift bshift) ++
  le32 (vc_copylineRGBA.pixel (rd32 src (4 * k + 2)) rshift gshift bshift) ++
  le32 (vc_copylineRGBA.pixel (rd32 src (4 * k + 3)) rshift gshift bshift)

/-- The function `vc_copylineRGBA` (lines 513-553): `memcpy(dst, src, len)` when the
shifts are 0, 8 and 16, else the loop, which takes 16 from `len` in every iteration. -/
def vc_copylineRGBA (src : List Nat) (len rshift gshift bshift : Nat) : List Nat :=
  if rshift = 0 ∧ gshift = 8 ∧ bshift = 16 then (List.range len).map (byte src)
  else while_len (vc_copylineRGBA.body src rshift gshift bshift) 16 len 0 len

/-- The bit-field `a` of the struct at index `s` of a v210 line
(`struct { unsigned a:10; unsigned b:10; unsigned c:10; unsigned p1:2; }`): the first
bit-field has the lowest bits of the word (x86 ABI). -/
def v210_a (src : List Nat) (s : Nat) : Nat := rd32 src s % 2 ^ 10

/-- The bit-field `b`: bits 10 to 19. -/
def v210_b (src : List Nat) (s : Nat) : Nat := (rd32 src s >>> 10) % 2 ^ 10

/-- The bit-field `c`: bits 20 to 29. -/
def v210_c (src : List Nat) (s : Nat) : Nat := (rd32 src s >>> 20) % 2 ^ 10

/-- The first store of an iteration of `vc_copylinev210`, `s` being the index of the
struct at its start:
`tmp = (s->a >> 2) | (s->b >> 2) << 8 | (((s)->c >> 2) << 16); s++;
*(d++) = tmp | ((s->a >> 2) << 24);`. -/
def vc_copylinev210.word0 (src : List Nat) (s : Nat) : Nat :=
  let tmp := u32 ((v210_a src s >>> 2) ||| (v210_b src s >>> 2) <<< 8 |||
    (v210_c src s >>> 2) <<< 16)
  u32 (tmp ||| (v210_a src (s + 1) >>> 2) <<< 24)

/-- The second store:
`tmp = (s->b >> 2) | (((s)->c >> 2) << 8); s++;
*(d++) = tmp | ((s->a >> 2) << 16) | ((s->b >> 2) << 24);`. -/
def vc_copylinev210.word1 (src : List Nat) (s : Nat) : Nat :=
  let tmp := u32 ((v210_b src s >>> 2) ||| (v210_c src s >>> 2) <<< 8)
  u32 (tmp ||| (v210_a src (s + 1) >>> 2) <<< 16 ||| (v210_b src (s + 1) >>> 2) <<< 24)

/-- The third store:
`tmp = (s->c >> 2); s++;
*(d++) = tmp | ((s->a >> 2) << 8) | ((s->b >> 2) << 16) | ((s->c >> 2) << 24);`. -/
def vc_copylinev210.word2 (src : List Nat) (s : Nat) : Nat :=
  let tmp := u32 (v210_c src s >>> 2)
  u32 (tmp ||| (v210_a src (s + 1) >>> 2) <<< 8 ||| (v210_b src (s + 1) >>> 2) <<< 16 |||
    (v210_c src (s + 1) >>> 2) <<< 24)

/-- The two `if`s after the loop of `vc_copylinev210`: `if (dst_len >= 4)` does the
first store (and one `s++`), `if (dst_len >= 8)` the second. -/
def vc_copylinev210.tail (src : List Nat) (s dst_len : Nat) : List Nat :=
  let r1 : List Nat × Nat :=
    if dst_len ≥ 4 then (le32 (vc_copylinev210.word0 src s), s + 1) else ([], s)
  let out2 : List Nat :=
    if dst_len ≥ 8 then le32 (vc_copylinev210.word1 src r1.2) else []
  r1.1 ++ out2

/-- The loop `while (dst_len >= 12)` of `vc_copylinev210`, with fuel, followed by the
tail: an iteration does the three stores, advances `s` by four structs and takes 12
from `dst_len`. -/
def vc_copylinev210.loop (src : List Nat) : Nat → Nat → Nat → List Nat
  | 0, s, dst_len => vc_copylinev210.tail src s dst_len
  | fuel + 1, s, dst_len =>
    if dst_len ≥ 12 then
      le32 (vc_copylinev210.word0 src s) ++ le32 (vc_copylinev210.word1 src (s + 1)) ++
        le32 (vc_copylinev210.word2 src (s + 2)) ++
        vc_copylinev210.loop src fuel (s + 4) (dst_len - 12)
    else vc_copylinev210.tail src s dst_len

/-- The function `vc_copylinev210` (lines 368-408), v210 to UYVY.  The fuel `dst_len`
is more than the number of iterations. -/
def vc_copylinev210 (src : List Nat) (dst_len : Nat) : List Nat :=
  vc_copylinev210.loop src dst_len 0 dst_len

/-- The instruction `pand`: the bitwise and of two registers, a register being the list
of its sixteen bytes, lowest first. -/
def pand (a b : List Nat) : List Nat := List.zipWith (fun x y => x &&& y) a b

/-- The instruction `por`. -/
def por (a b : List Nat) : List Nat := List.zipWith (fun x y => x ||| y) a b

/-- The instruction `psrldq $n`: the register shifted right by `n` bytes, zeros coming
in at the top. -/
def psrldq (n : Nat) (a : List Nat) : List Nat := a.drop n ++ List.replicate n 0

/-- The instruction `pslldq $n`: the register shifted left by `n` bytes, zeros coming
in at the bottom. -/
def pslldq (n : Nat) (a : List Nat) : List Nat := List.replicate n 0 ++ a.take (16 - n)

/-- The load `movdqu (s), xmm` of the sixteen bytes at the word pointer `s`. -/
def movdqu (src : List Nat) (s : Nat) : List Nat :=
  (List.range 16).map (fun j => byte src (4 * s + j))

/-- The array `mask` of `vc_copylineYUYV` in memory: four words `0xff00ff00`. -/
def vc_copylineYUYV.mask : List Nat :=
  le32 0xff00ff00 ++ le32 0xff00ff00 ++ le32 0xff00ff00 ++ le32 0xff00ff00

/-- One iteration of the SSE loop of `vc_copylineYUYV`, number `k` (`s` and `d` advance
by four words in an iteration).  Before the loop `xmm4` is the mask and `xmm5` is the
mask after `psrldq $1`; the operand order is that of AT&T assembly (the destination
is the second operand). -/
def vc_copylineYUYV.sse_body (src : List Nat) (k : Nat) : List Nat :=
  let xmm4 := vc_copylineYUYV.mask
  let xmm5 := psrldq 1 xmm4
  let xmm0 := movdqu src (4 * k)
  let xmm1 := xmm0
  let xmm0 := pand xmm4 xmm0
  let xmm0 := psrldq 1 xmm0
  let xmm1 := pand xmm5 xmm1
  let xmm1 := pslldq 1 xmm1
  let xmm1 := por xmm0 xmm1
  xmm1

/-- The word that the scalar loop of `vc_copylineYUYV` stores:
`((tmp & 0x00ff0000) << 8) | ((tmp & 0xff000000) >> 8) | ((tmp & 0x000000ff) << 8) |
((tmp & 0x0000ff00) >> 8)`. -/
def vc_copylineYUYV.scalar (tmp : Nat) : Nat :=
  u32 ((tmp &&& 0x00ff0000) <<< 8) ||| ((tmp &&& 0xff000000) >>> 8) |||
    u32 ((tmp &&& 0x000000ff) <<< 8) ||| ((tmp &&& 0x0000ff00) >>> 8)

/-- The function `vc_copylineYUYV` (lines 410-454).  `none` is the failure of
`assert(dst_len % 4 == 0)`.  Both loops are `while (d < end)` with
`end = (uint32_t *) dst + dst_len / 4`: they run while the number `end - d` of words
left is positive, and take 4 words (SSE) or 1 (scalar) from it. -/
def vc_copylineYUYV (src : List Nat) (dst_len : Nat) : Option (List Nat) :=
  if dst_len % 4 ≠ 0 then none
  else if dst_len % 16 = 0 then
    some (while_len (vc_copylineYUYV.sse_body src) 4 (dst_len / 4) 0 (dst_len / 4))
  else
    some (while_len (fun k => le32 (vc_copylineYUYV.scalar (rd32 src k))) 1
      (dst_len / 4) 0 (dst_len / 4))

/-- The word that an iteration of `vc_copylineDVS10toV210` stores for the source
word `w`:
`a = b = *s1++; b = ((b >> 24) * 0x00010101) & 0x00300c03; a <<= 2; b |= a & (0xff<<2);
a <<= 2; b |= a & (0xff00<<4); a <<= 2; b |= a & (0xff0000<<6); *d++ = b;`. -/
def vc_copylineDVS10toV210.word (w : Nat) : Nat :=
  let a := w
  let b := w
  let b := u32 ((b >>> 24) * 0x00010101) &&& 0x00300c03
  let a := u32 (a <<< 2)
  let b := b ||| (a &&& (0xff <<< 2))
  let a := u32 (a <<< 2)
  let b := b ||| (a &&& (0xff00 <<< 4))
  let a := u32 (a <<< 2)
  let b := b ||| (a &&& (0xff0000 <<< 6))
  b

/-- The function `vc_copylineDVS10toV210` (lines 555-575): one word for one word, 4
bytes of `dst_len` for each. -/
def vc_copylineDVS10toV210 (src : List Nat) (dst_len : Nat) : List Nat :=
  while_len (fun k => le32 (vc_copylineDVS10toV210.word (rd32 src k))) 4 dst_len 0 dst_len

/-- The step `a = (a & 0xffffff) | ((a >> 8) & 0xffffff000000LL)` of
`vc_copylineDVS10`. -/
def vc_copylineDVS10.squeeze (a : Nat) : Nat :=
  (a &&& 0xffffff) ||| ((a >>> 8) &&& 0xffffff000000)

/-- One iteration of the loop of `vc_copylineDVS10` (the version that is compiled, lines
640-668): four 64-bit words are read and three are stored,
`a1 | (a2 << 48)`, `(a2 >> 16) | (a3 << 32)` and `(a3 >> 32) | (a4 << 16)`. -/
def vc_copylineDVS10.body (src : List Nat) (k : Nat) : List Nat :=
  let a1 := vc_copylineDVS10.squeeze (rd64 src (4 * k))
  let a2 := vc_copylineDVS10.squeeze (rd64 src (4 * k + 1))
  let a3 := vc_copylineDVS10.squeeze (rd64 src (4 * k + 2))
  let a4 := vc_copylineDVS10.squeeze (rd64 src (4 * k + 3))
  le64 (a1 ||| u64 (a2 <<< 48)) ++ le64 ((a2 >>> 16) ||| u64 (a3 <<< 32)) ++
    le64 ((a3 >>> 32) ||| u64 (a4 <<< 16))

/-- The function `vc_copylineDVS10`.  `int src_len = dst_len / 1.5;` is the integer
`2 * dst_len / 3` (the quotient of the doubles, truncated); the loop runs while
`src_len > 0` and takes 16 from it in every iteration. -/
def vc_copylineDVS10 (src : List Nat) (dst_len : Nat) : List Nat :=
  let src_len := 2 * dst_len / 3
  while_len (vc_copylineDVS10.body src) 16 src_len 0 src_len

/-- One iteration of `vc_copylineRGBAtoRGB` on the words `in1` to `in4`: the stores
`((in2 & 0xff) << 24) | (in1 & 0xffffff)`,
`((in3 & 0xffff) << 16) | ((in2 & 0xffff00) >> 8)` and
`((in4 & 0xffffff) << 8) | ((in3 & 0xff0000) >> 16)`. -/
def vc_copylineRGBAtoRGB.words (in1 in2 in3 in4 : Nat) : List Nat :=
  [ u32 ((in2 &&& 0xff) <<< 24) ||| (in1 &&& 0xffffff),
    u32 ((in3 &&& 0xffff) <<< 16) ||| ((in2 &&& 0xffff00) >>> 8),
    u32 ((in4 &&& 0xffffff) <<< 8) ||| ((in3 &&& 0xff0000) >>> 16) ]

/-- The function `vc_copylineRGBAtoRGB` (lines 696-711): four words in, three out, 12
from `dst_len`. -/
def vc_copylineRGBAtoRGB (src : List Nat) (dst_len : Nat) : List Nat :=
  while_len (fun k => (vc_copylineRGBAtoRGB.words (rd32 src (4 * k)) (rd32 src (4 * k + 1))
    (rd32 src (4 * k + 2)) (rd32 src (4 * k + 3))).flatMap le32) 12 dst_len 0 dst_len

/-- One iteration of `vc_copylineRGBAtoRGBwithShift`; each operand of `|` is a
`uint32_t`. -/
def vc_copylineRGBAtoRGBwithShift.words (in1 in2 in3 in4 rshift gshift bshift : Nat) :
    List Nat :=
  [ u32 ((in2 >>> rshift) <<< 24) ||| u32 (((in1 >>> bshift) &&& 0xff) <<< 16) |||
      u32 (((in1 >>> gshift) &&& 0xff) <<< 8) ||| ((in1 >>> rshift) &&& 0xff),
    u32 ((in3 >>> gshift) <<< 24) ||| u32 (((in3 >>> rshift) &&& 0xff) <<< 16) |||
      u32 (((in2 >>> bshift) &&& 0xff) <<< 8) ||| ((in2 >>> gshift) &&& 0xff),
    u32 ((in4 >>> bshift) <<< 24) ||| u32 (((in4 >>> gshift) &&& 0xff) <<< 16) |||
      u32 (((in4 >>> rshift) &&& 0xff) <<< 8) ||| ((in3 >>> bshift) &&& 0xff) ]

/-- The function `vc_copylineRGBAtoRGBwithShift` (lines 713-738). -/
def vc_copylineRGBAtoRGBwithShift (src : List Nat) (dst_len rshift gshift bshift : Nat) :
    List Nat :=
  while_len (fun k => (vc_copylineRGBAtoRGBwithShift.words (rd32 src (4 * k))
    (rd32 src (4 * k + 1)) (rd32 src (4 * k + 2)) (rd32 src (4 * k + 3))
    rshift gshift bshift).flatMap le32) 12 dst_len 0 dst_len

/-- One iteration of `vc_copylineABGRtoRGB`. -/
def vc_copylineABGRtoRGB.words (in1 in2 in3 in4 : Nat) : List Nat :=
  [ u32 ((in2 &&& 0xff0000) <<< 8) ||| u32 ((in1 &&& 0xff) <<< 16) ||| (in1 &&& 0xff00) |||
      (in1 &&& 0xff0000) >>> 16,
    u32 ((in3 &&& 0xff00) <<< 16) ||| (in3 &&& 0xff0000) ||| u32 ((in2 &&& 0xff) <<< 8) |||
      (in2 &&& 0xff00) >>> 8,
    u32 ((in4 &&& 0xff) <<< 24) ||| u32 ((in4 &&& 0xff00) <<< 8) |||
      (in4 &&& 0xff0000) >>> 8 ||| (in3 &&& 0xff) ]

/-- The function `vc_copylineABGRtoRGB` (lines 740-765). -/
def vc_copylineABGRtoRGB (src : List Nat) (dst_len : Nat) : List Nat :=
  while_len (fun k => (vc_copylineABGRtoRGB.words (rd32 src (4 * k)) (rd32 src (4 * k + 1))
    (rd32 src (4 * k + 2)) (rd32 src (4 * k + 3))).flatMap le32) 12 dst_len 0 dst_len

/-- The function `vc_copylineRGBtoRGBA` (lines 767-780): the iteration number `k` reads
the bytes `r`, `g`, `b` at `3k`, `3k+1`, `3k+2` and stores the word
`(r << rshift) | (g << gshift) | (b << bshift)`; it takes 4 from `dst_len`. -/
def vc_copylineRGBtoRGBA (src : List Nat) (dst_len rshift gshift bshift : Nat) : List Nat :=
  while_len (fun k => le32 (u32 (byte src (3 * k) <<< rshift) |||
    u32 (byte src (3 * k + 1) <<< gshift) ||| u32 (byte src (3 * k + 2) <<< bshift)))
    4 dst_len 0 dst_len

/-- The sample number `i` of a v210 line in the words of the specification: sample
`3w+j` is the bits `10j` to `10j+9` of the little-endian 32-bit word `w`. -/
def v210_sample (src : List Nat) (i : Nat) : Nat :=
  (rd32 src (i / 3) >>> (10 * (i % 3))) % 2 ^ 10

/-- A line without every fourth byte: byte `3k+j` is the source byte `4k+j`
(`j < 3`); `n` bytes of it. -/
def drop_fourth (src : List Nat) (n : Nat) : List Nat :=
  (List.range n).map (fun i => byte src (4 * (i / 3) + i % 3))

/-! # Theorems -/

/-! ## One worker: the history invariant -/

theorem worker_inv_init (call : task_t → Nat → Nat) : worker_inv call [] [] worker.init :=
  ⟨[], [], by simp [worker.init], by simp, by simp [worker.init], by simp [worker.init, pc_holds]⟩

theorem worker_inv_push {call : task_t → Nat → Nat} {P : List task_data} {outs : List Nat}
    {w : worker} (h : worker_inv call P outs w) (d : task_data) :
    worker_inv call (P ++ [d]) outs (w.push d) := by
  obtain ⟨done, cur, hP, hd, ho, hpc⟩ := h
  exact ⟨done, cur, by simp [worker.push, hP], hd, by simpa [worker.push] using ho,
    by simpa [worker.push] using hpc⟩

theorem worker_inv_run {call : task_t → Nat → Nat} {P : List task_data} {outs : List Nat}
    {w : worker} (h : worker_inv call P outs w) :
    worker_inv call P outs (w.run_step call).1 := by
  obtain ⟨done, cur, hP, hd, ho, hpc⟩ := h
  obtain ⟨q, res, pc⟩ := w
  cases pc with
  | loop_head =>
    cases q with
    | nil => exact ⟨done, cur, by simpa [worker.run_step] using hP, hd,
        by simpa [worker.run_step] using ho, by simpa [worker.run_step, pc_holds] using hpc⟩
    | cons d ds =>
      simp only [pc_holds] at hpc
      subst hpc
      exact ⟨done, [d], by simpa [worker.run_step] using hP, hd,
        by simpa [worker.run_step] using ho, by simp [worker.run_step, pc_holds]⟩
  | cond_wait =>
    cases q with
    | nil => exact ⟨done, cur, by simpa [worker.run_step] using hP, hd,
        by simpa [worker.run_step] using ho, by simpa [worker.run_step, pc_holds] using hpc⟩
    | cons d ds =>
      simp only [pc_holds] at hpc
      subst hpc
      exact ⟨done, [d], by simpa [worker.run_step] using hP, hd,
        by simpa [worker.run_step] using ho, by simp [worker.run_step, pc_holds]⟩
  | dequeued d =>
    simp only [pc_holds] at hpc
    subst hpc
    by_cases hn : d.task = NULL
    · exact ⟨done, [d], by simpa [worker.run_step, hn] using hP, hd,
        by simpa [worker.run_step, hn] using ho, by simp [worker.run_step, hn, pc_holds]⟩
    · exact ⟨done, [d], by simpa [worker.run_step, hn] using hP, hd,
        by simpa [worker.run_step, hn] using ho, by simp [worker.run_step, hn, pc_holds]⟩
  | executed d r =>
    simp only [pc_holds] at hpc
    obtain ⟨rfl, hn, rfl⟩ := hpc
    refine ⟨done ++ [d], [], by simpa [worker.run_step] using hP, ?_, ?_,
      by simp [worker.run_step, pc_holds]⟩
    · intro x hx
      rcases List.mem_append.1 hx with hx | hx
      · exact hd x hx
      · simp only [List.mem_singleton] at hx
        subst hx
        exact hn
    · simp only [worker.run_step, ← List.append_assoc, List.map_append, List.map_cons,
        List.map_nil, task_data.result]
      simp only [] at ho
      rw [ho]
  | returned =>
    exact ⟨done, cur, by simpa [worker.run_step] using hP, hd,
        by simpa [worker.run_step] using ho, by simpa [worker.run_step] using hpc⟩

theorem worker_inv_pop {call : task_t → Nat → Nat} {P : List task_data} {outs : List Nat}
    {w w1 : worker} {r : Nat} (h : worker_inv call P outs w) (hp : w.pop = some (r, w1)) :
    worker_inv call P (outs ++ [r]) w1 := by
  obtain ⟨done, cur, hP, hd, ho, hpc⟩ := h
  obtain ⟨q, res, pc⟩ := w
  cases res with
  | nil => simp [worker.pop] at hp
  | cons r0 rs =>
    simp only [worker.pop, Option.some.injEq, Prod.mk.injEq] at hp
    obtain ⟨rfl, rfl⟩ := hp
    exact ⟨done, cur, by simpa using hP, hd, by simpa using ho, by simpa using hpc⟩

theorem worker_inv_exec {call : task_t → Nat → Nat} (evs : List worker_event) :
    ∀ {P : List task_data} {outs : List Nat} {w w1 : worker} {rs : List Nat},
      worker_inv call P outs w → worker_exec call w evs = some (w1, rs) →
      worker_inv call (P ++ pushed evs) (outs ++ rs) w1 := by
  induction evs with
  | nil =>
    intro P outs w w1 rs h he
    simp only [worker_exec, Option.some.injEq, Prod.mk.injEq] at he
    obtain ⟨rfl, rfl⟩ := he
    simpa [pushed] using h
  | cons e es ih =>
    intro P outs w w1 rs h he
    cases e with
    | push d =>
      simp only [worker_exec] at he
      have := ih (worker_inv_push h d) he
      simpa [pushed] using this
    | run =>
      simp only [worker_exec] at he
      have := ih (worker_inv_run h) he
      simpa [pushed] using this
    | pop =>
      simp only [worker_exec] at he
      cases hp : w.pop with
      | none => simp [hp] at he
      | some v =>
        obtain ⟨r, w2⟩ := v
        simp only [hp] at he
        cases hx : worker_exec call w2 es with
        | none => simp [hx] at he
        | some v2 =>
          obtain ⟨w3, rs2⟩ := v2
          simp only [hx, Option.some.injEq, Prod.mk.injEq] at he
          obtain ⟨rfl, rfl⟩ := he
          have := ih (worker_inv_pop h hp) hx
          simpa [pushed] using this

theorem run_steps_add (call : task_t → Nat → Nat) (a b : Nat) (w : worker) :
    w.run_steps call (a + b) = (w.run_steps call a).run_steps call b := by
  induction a generalizing w with
  | zero => simp [worker.run_steps]
  | succ a ih =>
    rw [Nat.add_right_comm]
    simp only [worker.run_steps]
    exact ih _

theorem run_steps_returned (call : task_t → Nat → Nat) (n : Nat) (w : worker)
    (h : w.pc = run_pc.returned) : w.run_steps call n = w := by
  induction n with
  | zero => rfl
  | succ n ih =>
    have hs : (w.run_step call).1 = w := by
      obtain ⟨q, res, pc⟩ := w
      simp only at h
      subst h
      rfl
    simp only [worker.run_steps, hs]
    exact ih

theorem worker_inv_run_steps {call : task_t → Nat → Nat} {P : List task_data}
    {outs : List Nat} (n : Nat) : ∀ {w : worker}, worker_inv call P outs w →
    worker_inv call P outs (w.run_steps call n) := by
  induction n with
  | zero => intro w h; exact h
  | succ n ih => intro w h; exact ih (worker_inv_run h)

/-- With a real task next in line, the thread produces its result in at most three steps
and `pop` returns it. -/
theorem worker_inv_next_pop {call : task_t → Nat → Nat} {P : List task_data}
    {outs : List Nat} {w : worker} (h : worker_inv call P outs w)
    (hreal : ∀ d ∈ P, d.task ≠ NULL) (d : task_data) (hd : P[outs.length]? = some d) :
    ∃ n, n ≤ 3 ∧ (w.run_steps call n).pop.map Prod.fst = some (task_data.result call d) := by
  obtain ⟨done, cur, hP, hdone, ho, hpc⟩ := h
  obtain ⟨q, res, pc⟩ := w
  simp only at hP ho hpc
  have hlen : outs.length + res.length = done.length := by
    have := congrArg List.length ho
    simpa using this
  cases res with
  | cons r rs =>
    have hlt : outs.length < done.length := by simp at hlen; omega
    have h1 : P[outs.length]? = done[outs.length]? := by
      rw [hP, List.append_assoc, List.getElem?_append_left hlt]
    have h2 : (outs ++ r :: rs)[outs.length]? = some r := by
      rw [List.getElem?_append_right (le_refl _)]; simp
    rw [ho, List.getElem?_map, ← h1, hd] at h2
    simp only [Option.map_some', Option.some.injEq] at h2
    exact ⟨0, by omega, by simp [worker.run_steps, worker.pop, h2]⟩
  | nil =>
    have hlen2 : outs.length = done.length := by simpa using hlen
    have h1 : (cur ++ q)[0]? = some d := by
      rw [hP, List.append_assoc, hlen2, List.getElem?_append_right (le_refl _)] at hd
      simpa using hd
    cases pc with
    | loop_head =>
      simp only [pc_holds] at hpc
      subst hpc
      cases q with
      | nil => simp at h1
      | cons d0 ds =>
        simp only [List.nil_append, List.getElem?_cons_zero, Option.some.injEq] at h1
        subst h1
        have hn : d0.task ≠ NULL := hreal d0 (by simp [hP])
        have hn0 : ¬ d0.task = 0 := hn
        exact ⟨3, le_refl _, by
          simp [worker.run_steps, worker.run_step, worker.pop, hn0, task_data.result]⟩
    | cond_wait =>
      simp only [pc_holds] at hpc
      subst hpc
      cases q with
      | nil => simp at h1
      | cons d0 ds =>
        simp only [List.nil_append, List.getElem?_cons_zero, Option.some.injEq] at h1
        subst h1
        have hn : d0.task ≠ NULL := hreal d0 (by simp [hP])
        have hn0 : ¬ d0.task = 0 := hn
        exact ⟨3, le_refl _, by
          simp [worker.run_steps, worker.run_step, worker.pop, hn0, task_data.result]⟩
    | dequeued d0 =>
      simp only [pc_holds] at hpc
      subst hpc
      simp only [List.singleton_append, List.getElem?_cons_zero, Option.some.injEq] at h1
      subst h1
      have hn : d0.task ≠ NULL := hreal d0 (by simp [hP])
      have hn0 : ¬ d0.task = 0 := hn
      exact ⟨2, by omega, by
        simp [worker.run_steps, worker.run_step, worker.pop, hn0, task_data.result]⟩
    | executed d0 r =>
      simp only [pc_holds] at hpc
      obtain ⟨rfl, hn, rfl⟩ := hpc
      simp only [List.singleton_append, List.getElem?_cons_zero, Option.some.injEq] at h1
      subst h1
      exact ⟨1, by omega, by
        simp [worker.run_steps, worker.run_step, worker.pop, task_data.result]⟩
    | returned =>
      simp only [pc_holds] at hpc
      obtain ⟨d0, rfl, hn⟩ := hpc
      exact absurd hn (hreal d0 (by simp [hP]))

/-- The values popped so far are the results of the first pushed items. -/
theorem worker_inv_outs {call : task_t → Nat → Nat} {P : List task_data}
    {outs : List Nat} {w : worker} (h : worker_inv call P outs w) :
    outs = (P.take outs.length).map (task_data.result call) := by
  obtain ⟨done, cur, hP, _, ho, _⟩ := h
  have hlen : outs.length ≤ done.length := by
    have := congrArg List.length ho
    simp only [List.length_append, List.length_map] at this
    omega
  have h1 : outs = (done.map (task_data.result call)).take outs.length := by
    rw [← ho]; simp
  rw [hP, List.append_assoc, List.take_append_of_le_length hlen, List.map_take]
  exact h1

/-! ## One worker: results in submission order (C3) -/

/-- C3: for every list of tasks with non-null functions pushed to one worker and every
interleaving of the pushes with steps of the execution loop and calls of `pop`, the
`i`-th call of `pop` returned the value of the `i`-th pushed task, and while fewer values
were popped than tasks pushed, the next `pop` returns (after at most three further steps
of the loop) the value of the next task in submission order. -/
theorem pop_returns_in_submission_order (call : task_t → Nat → Nat)
    (evs : List worker_event) (w : worker) (outs : List Nat)
    (hreal : ∀ d ∈ pushed evs, d.task ≠ NULL)
    (hexec : worker_exec call worker.init evs = some (w, outs)) :
    outs = ((pushed evs).take outs.length).map (task_data.result call) ∧
    ∀ d, (pushed evs)[outs.length]? = some d →
      ∃ n, n ≤ 3 ∧ (w.run_steps call n).pop.map Prod.fst = some (task_data.result call d) := by
  have hinv := worker_inv_exec evs (worker_inv_init call) hexec
  simp only [List.nil_append] at hinv
  exact ⟨worker_inv_outs hinv, fun d hd => worker_inv_next_pop hinv hreal d hd⟩

theorem pop_returns_in_submission_order_witness :
    (∀ d ∈ pushed [worker_event.push ⟨1, 10⟩, worker_event.run, worker_event.push ⟨2, 20⟩,
        worker_event.run, worker_event.run, worker_event.pop], d.task ≠ NULL) ∧
    worker_exec (fun f x => 100 * f + x) worker.init
      [worker_event.push ⟨1, 10⟩, worker_event.run, worker_event.push ⟨2, 20⟩,
        worker_event.run, worker_event.run, worker_event.pop]
      = some (⟨[⟨2, 20⟩], [], run_pc.loop_head⟩, [110]) ∧
    ([110] = ((pushed [worker_event.push ⟨1, 10⟩, worker_event.run,
        worker_event.push ⟨2, 20⟩, worker_event.run, worker_event.run,
        worker_event.pop]).take [110].length).map
          (task_data.result (fun f x => 100 * f + x)) ∧
      ∀ d, (pushed [worker_event.push ⟨1, 10⟩, worker_event.run,
        worker_event.push ⟨2, 20⟩, worker_event.run, worker_event.run,
        worker_event.pop])[[110].length]? = some d →
        ∃ n, n ≤ 3 ∧ ((worker.mk [⟨2, 20⟩] [] run_pc.loop_head).run_steps
          (fun f x => 100 * f + x) n).pop.map Prod.fst
            = some (task_data.result (fun f x => 100 * f + x) d)) :=
  ⟨by decide, by decide,
    pop_returns_in_submission_order (fun f x => 100 * f + x) _ _ _ (by decide) (by decide)⟩

/-! ## One worker: the poisoned pill (C4) -/

/-- Two ways of cutting a list at its first item with a null function agree. -/
theorem first_null_unique {a c : List task_data} : ∀ {b e : List task_data} {x y : task_data},
    (∀ t ∈ a, t.task ≠ NULL) → (∀ t ∈ c, t.task ≠ NULL) → x.task = NULL → y.task = NULL →
    a ++ x :: b = c ++ y :: e → a = c ∧ b = e := by
  induction a generalizing c with
  | nil =>
    intro b e x y _ hc hx _ h
    cases c with
    | nil => simp only [List.nil_append, List.cons.injEq] at h; exact ⟨rfl, h.2⟩
    | cons t c =>
      simp only [List.nil_append, List.cons_append, List.cons.injEq] at h
      exact absurd (h.1 ▸ hx) (hc t (by simp))
  | cons s a ih =>
    intro b e x y ha hc hx hy h
    cases c with
    | nil =>
      simp only [List.nil_append, List.cons_append, List.cons.injEq] at h
      exact absurd (h.1 ▸ hy) (ha s (by simp))
    | cons t c =>
      simp only [List.cons_append, List.cons.injEq] at h
      obtain ⟨h1, h2⟩ := ih (fun u hu => ha u (by simp [hu])) (fun u hu => hc u (by simp [hu]))
        hx hy h.2
      exact ⟨by rw [h.1, h1], h2⟩

/-- Real items at the front of a list stand before its first null item, and what follows
that null item is at the end of the rest. -/
theorem real_front {a : List task_data} : ∀ {m c e : List task_data} {y : task_data},
    (∀ t ∈ a, t.task ≠ NULL) → y.task = NULL →
    a ++ m = c ++ y :: e → a <+: c ∧ e <:+ m := by
  induction a with
  | nil =>
    intro m c e y _ _ h
    simp only [List.nil_append] at h
    exact ⟨List.nil_prefix, ⟨c ++ [y], by simp [h]⟩⟩
  | cons s a ih =>
    intro m c e y ha hy h
    cases c with
    | nil =>
      simp only [List.nil_append, List.cons_append, List.cons.injEq] at h
      exact absurd (h.1 ▸ hy) (ha s (by simp))
    | cons t c =>
      simp only [List.cons_append, List.cons.injEq] at h
      obtain ⟨h1, h2⟩ := ih (fun u hu => ha u (by simp [hu])) hy h.2
      refine ⟨?_, h2⟩
      rw [h.1]
      exact (List.prefix_cons_inj t).2 h1

/-- At the loop head with a null item somewhere in `m_data`, the thread returns. -/
theorem returns_from_head (call : task_t → Nat → Nat) (q : List task_data) :
    ∀ (res : List Nat) (pc : run_pc), (pc = run_pc.loop_head ∨ pc = run_pc.cond_wait) →
      (∃ d ∈ q, d.task = NULL) →
      ∃ n, ((worker.mk q res pc).run_steps call n).pc = run_pc.returned := by
  induction q with
  | nil => intro res pc _ h; simp at h
  | cons d ds ih =>
    intro res pc hpc h
    by_cases hn : d.task = NULL
    · refine ⟨2, ?_⟩
      have hn0 : d.task = 0 := hn
      rcases hpc with rfl | rfl <;> simp [worker.run_steps, worker.run_step, hn0]
    · have hds : ∃ d ∈ ds, d.task = NULL := by
        obtain ⟨x, hx, hx0⟩ := h
        rcases List.mem_cons.1 hx with rfl | hx
        · exact absurd hx0 hn
        · exact ⟨x, hx, hx0⟩
      obtain ⟨n, hn1⟩ := ih (res ++ [call d.task d.data]) run_pc.loop_head (Or.inl rfl) hds
      refine ⟨3 + n, ?_⟩
      rw [run_steps_add]
      have hn0 : ¬ d.task = 0 := hn
      have h3 : (worker.mk (d :: ds) res pc).run_steps call 3
          = worker.mk ds (res ++ [call d.task d.data]) run_pc.loop_head := by
        rcases hpc with rfl | rfl <;> simp [worker.run_steps, worker.run_step, hn0]
      rw [h3]
      exact hn1

/-- Once a null item was pushed, the thread of the worker returns after finitely many
steps. -/
theorem worker_inv_returns {call : task_t → Nat → Nat} {P : List task_data}
    {outs : List Nat} {w : worker} (h : worker_inv call P outs w)
    (hnull : ∃ d ∈ P, d.task = NULL) :
    ∃ n, (w.run_steps call n).pc = run_pc.returned := by
  obtain ⟨done, cur, hP, hdone, _, hpc⟩ := h
  obtain ⟨q, res, pc⟩ := w
  simp only at hP hpc
  obtain ⟨x, hx, hx0⟩ := hnull
  have hx' : x ∈ cur ∨ x ∈ q := by
    rw [hP] at hx
    rcases List.mem_append.1 hx with hx | hx
    · rcases List.mem_append.1 hx with hx | hx
      · exact absurd hx0 (hdone x hx)
      · exact Or.inl hx
    · exact Or.inr hx
  cases pc with
  | loop_head =>
    simp only [pc_holds] at hpc
    subst hpc
    rcases hx' with hx' | hx'
    · simp at hx'
    · exact returns_from_head call q res _ (Or.inl rfl) ⟨x, hx', hx0⟩
  | cond_wait =>
    simp only [pc_holds] at hpc
    subst hpc
    rcases hx' with hx' | hx'
    · simp at hx'
    · exact returns_from_head call q res _ (Or.inr rfl) ⟨x, hx', hx0⟩
  | dequeued d =>
    by_cases hn : d.task = NULL
    · have hn0 : d.task = 0 := hn
      exact ⟨1, by simp [worker.run_steps, worker.run_step, hn0]⟩
    · simp only [pc_holds] at hpc
      subst hpc
      rcases hx' with hx' | hx'
      · simp only [List.mem_singleton] at hx'
        subst hx'
        exact absurd hx0 hn
      · obtain ⟨n, hn1⟩ := returns_from_head call q (res ++ [call d.task d.data])
          run_pc.loop_head (Or.inl rfl) ⟨x, hx', hx0⟩
        refine ⟨2 + n, ?_⟩
        rw [run_steps_add]
        have hn0 : ¬ d.task = 0 := hn
        have h2 : (worker.mk q res (run_pc.dequeued d)).run_steps call 2
            = worker.mk q (res ++ [call d.task d.data]) run_pc.loop_head := by
          simp [worker.run_steps, worker.run_step, hn0]
        rw [h2]
        exact hn1
  | executed d r =>
    simp only [pc_holds] at hpc
    obtain ⟨rfl, hn, rfl⟩ := hpc
    rcases hx' with hx' | hx'
    · simp only [List.mem_singleton] at hx'
      subst hx'
      exact absurd hx0 hn
    · obtain ⟨n, hn1⟩ := returns_from_head call q (res ++ [call d.task d.data])
        run_pc.loop_head (Or.inl rfl) ⟨x, hx', hx0⟩
      refine ⟨1 + n, ?_⟩
      rw [run_steps_add]
      have h1 : (worker.mk q res (run_pc.executed d (call d.task d.data))).run_steps call 1
          = worker.mk q (res ++ [call d.task d.data]) run_pc.loop_head := by
        simp [worker.run_steps, worker.run_step]
      rw [h1]
      exact hn1
  | returned => exact ⟨0, rfl⟩

/-- What the history invariant says when the pushed items are `reals`, a null item, and
`rest`. -/
theorem worker_inv_poison {call : task_t → Nat → Nat} {reals rest : List task_data}
    {y : task_data} {outs : List Nat} {w : worker}
    (h : worker_inv call (reals ++ y :: rest) outs w)
    (hreal : ∀ d ∈ reals, d.task ≠ NULL) (hy : y.task = NULL) :
    (outs ++ w.m_result <+: reals.map (task_data.result call)) ∧ rest <:+ w.m_data ∧
    (w.pc = run_pc.returned →
      outs ++ w.m_result = reals.map (task_data.result call) ∧ w.m_data = rest) := by
  obtain ⟨done, cur, hP, hdone, ho, hpc⟩ := h
  obtain ⟨q, res, pc⟩ := w
  simp only at hP ho hpc ⊢
  have hP1 : done ++ (cur ++ q) = reals ++ y :: rest := by rw [hP, List.append_assoc]
  have hpre : done <+: reals := (real_front hdone hy hP1).1
  refine ⟨by rw [ho]; exact hpre.map _, ?_, ?_⟩
  · cases pc with
    | loop_head =>
      simp only [pc_holds] at hpc
      subst hpc
      exact (real_front hdone hy hP1).2
    | cond_wait =>
      simp only [pc_holds] at hpc
      subst hpc
      exact (real_front hdone hy hP1).2
    | dequeued d =>
      simp only [pc_holds] at hpc
      subst hpc
      by_cases hn : d.task = NULL
      · have := first_null_unique hdone hreal hn hy (by simpa using hP1)
        rw [this.2]
      · have hd1 : ∀ t ∈ done ++ [d], t.task ≠ NULL := by
          intro t ht
          rcases List.mem_append.1 ht with ht | ht
          · exact hdone t ht
          · simp only [List.mem_singleton] at ht
            subst ht
            exact hn
        exact (real_front hd1 hy (by simpa using hP1)).2
    | executed d r =>
      simp only [pc_holds] at hpc
      obtain ⟨rfl, hn, rfl⟩ := hpc
      have hd1 : ∀ t ∈ done ++ [d], t.task ≠ NULL := by
        intro t ht
        rcases List.mem_append.1 ht with ht | ht
        · exact hdone t ht
        · simp only [List.mem_singleton] at ht
          subst ht
          exact hn
      exact (real_front hd1 hy (by simpa using hP1)).2
    | returned =>
      simp only [pc_holds] at hpc
      obtain ⟨d, rfl, hn⟩ := hpc
      have := first_null_unique hdone hreal hn hy (by simpa using hP1)
      rw [this.2]
  · intro hret
    subst hret
    simp only [pc_holds] at hpc
    obtain ⟨d, rfl, hn⟩ := hpc
    have := first_null_unique hdone hreal hn hy (by simpa using hP1)
    rw [ho, this.1]
    exact ⟨rfl, this.2⟩

/-- C4: when `k` real tasks (`reals`), then the poisoned pill, then any further tasks
(`rest`) are pushed to a worker, under every interleaving with the steps of the
execution loop and calls of `pop`: the results appended so far are the first results of
`reals` in order, the items of `rest` are still in the pending queue (none was dequeued);
if the loop has returned it has appended exactly the `k` results of `reals` and left
`rest` in the queue; and the loop does return after finitely many further steps, with
exactly those `k` results appended, `rest` untouched, and nothing happening afterwards. -/
theorem poison_after_k_tasks (call : task_t → Nat → Nat) (reals rest : List task_data)
    (junk : Nat) (evs : List worker_event) (w : worker) (outs : List Nat)
    (hreal : ∀ d ∈ reals, d.task ≠ NULL)
    (hpush : pushed evs = reals ++ poisoned junk :: rest)
    (hexec : worker_exec call worker.init evs = some (w, outs)) :
    (outs ++ w.m_result <+: reals.map (task_data.result call)) ∧ rest <:+ w.m_data ∧
    (w.pc = run_pc.returned →
      outs ++ w.m_result = reals.map (task_data.result call) ∧ w.m_data = rest) ∧
    ∃ n, (w.run_steps call n).pc = run_pc.returned ∧
      outs ++ (w.run_steps call n).m_result = reals.map (task_data.result call) ∧
      (w.run_steps call n).m_data = rest ∧
      ∀ m, (w.run_steps call n).run_steps call m = w.run_steps call n := by
  have hinv := worker_inv_exec evs (worker_inv_init call) hexec
  simp only [List.nil_append, hpush] at hinv
  have hfacts := worker_inv_poison hinv hreal rfl
  refine ⟨hfacts.1, hfacts.2.1, hfacts.2.2, ?_⟩
  obtain ⟨n, hn⟩ := worker_inv_returns hinv ⟨poisoned junk, by simp, rfl⟩
  have hfacts2 := worker_inv_poison (worker_inv_run_steps n hinv) hreal rfl
  exact ⟨n, hn, (hfacts2.2.2 hn).1, (hfacts2.2.2 hn).2,
    fun m => run_steps_returned call m _ hn⟩

theorem poison_after_k_tasks_witness :
    (∀ d ∈ [(⟨1, 10⟩ : task_data), ⟨2, 20⟩], d.task ≠ NULL) ∧
    pushed [worker_event.push ⟨1, 10⟩, worker_event.run, worker_event.push ⟨2, 20⟩,
        worker_event.push (poisoned 5), worker_event.run, worker_event.run,
        worker_event.push ⟨3, 30⟩, worker_event.pop]
      = [⟨1, 10⟩, ⟨2, 20⟩] ++ poisoned 5 :: [⟨3, 30⟩] ∧
    worker_exec (fun f x => 100 * f + x) worker.init
      [worker_event.push ⟨1, 10⟩, worker_event.run, worker_event.push ⟨2, 20⟩,
        worker_event.push (poisoned 5), worker_event.run, worker_event.run,
        worker_event.push ⟨3, 30⟩, worker_event.pop]
      = some (⟨[⟨2, 20⟩, poisoned 5, ⟨3, 30⟩], [], run_pc.loop_head⟩, [110]) ∧
    (([110] ++ (worker.mk [⟨2, 20⟩, poisoned 5, ⟨3, 30⟩] [] run_pc.loop_head).m_result <+:
        [(⟨1, 10⟩ : task_data), ⟨2, 20⟩].map (task_data.result (fun f x => 100 * f + x))) ∧
      [(⟨3, 30⟩ : task_data)] <:+
        (worker.mk [⟨2, 20⟩, poisoned 5, ⟨3, 30⟩] [] run_pc.loop_head).m_data ∧
      ((worker.mk [⟨2, 20⟩, poisoned 5, ⟨3, 30⟩] [] run_pc.loop_head).pc = run_pc.returned →
        [110] ++ (worker.mk [⟨2, 20⟩, poisoned 5, ⟨3, 30⟩] [] run_pc.loop_head).m_result
          = [(⟨1, 10⟩ : task_data), ⟨2, 20⟩].map
              (task_data.result (fun f x => 100 * f + x)) ∧
        (worker.mk [⟨2, 20⟩, poisoned 5, ⟨3, 30⟩] [] run_pc.loop_head).m_data
          = [⟨3, 30⟩]) ∧
      ∃ n, ((worker.mk [⟨2, 20⟩, poisoned 5, ⟨3, 30⟩] [] run_pc.loop_head).run_steps
            (fun f x => 100 * f + x) n).pc = run_pc.returned ∧
        [110] ++ ((worker.mk [⟨2, 20⟩, poisoned 5, ⟨3, 30⟩] [] run_pc.loop_head).run_steps
            (fun f x => 100 * f + x) n).m_result
          = [(⟨1, 10⟩ : task_data), ⟨2, 20⟩].map
              (task_data.result (fun f x => 100 * f + x)) ∧
        ((worker.mk [⟨2, 20⟩, poisoned 5, ⟨3, 30⟩] [] run_pc.loop_head).run_steps
            (fun f x => 100 * f + x) n).m_data = [⟨3, 30⟩] ∧
        ∀ m, (((worker.mk [⟨2, 20⟩, poisoned 5, ⟨3, 30⟩] [] run_pc.loop_head).run_steps
            (fun f x => 100 * f + x) n).run_steps (fun f x => 100 * f + x) m)
          = (worker.mk [⟨2, 20⟩, poisoned 5, ⟨3, 30⟩] [] run_pc.loop_head).run_steps
            (fun f x => 100 * f + x) n) :=
  ⟨by decide, by decide, by decide,
    poison_after_k_tasks (fun f x => 100 * f + x) [⟨1, 10⟩, ⟨2, 20⟩] [⟨3, 30⟩] 5
      [worker_event.push ⟨1, 10⟩, worker_event.run, worker_event.push ⟨2, 20⟩,
        worker_event.push (poisoned 5), worker_event.run, worker_event.run,
        worker_event.push ⟨3, 30⟩, worker_event.pop] _ _
      (by decide) (by decide) (by decide)⟩

/-! ## The pool: the two sets -/

theorem set_begin_mem {s : Finset Nat} {w : Nat} (h : set_begin s = some w) : w ∈ s := by
  unfold set_begin at h
  split at h
  · simp only [Option.some.injEq] at h
    subst h
    exact Finset.min'_mem _ _
  · simp at h

theorem set_begin_singleton (a : Nat) : set_begin {a} = some a := by
  simp [set_begin]

theorem set_begin_of_ne_empty {s : Finset Nat} (h : s ≠ ∅) : ∃ w, set_begin s = some w := by
  have hne : s.Nonempty := Finset.nonempty_iff_ne_empty.2 h
  exact ⟨s.min' hne, by simp [set_begin, hne]⟩

/-- With no idle worker, the critical section creates the worker `fresh` and chooses it. -/
theorem run_async_locked_of_empty {p : worker_pool} (fresh : Nat)
    (h : p.m_empty_workers = ∅) :
    p.run_async_locked fresh = some
      ({ m_empty_workers := ∅
         m_occupied_workers := insert fresh p.m_occupied_workers
         allocated := insert fresh p.allocated
         mem := mem_set p.mem fresh worker.init }, fresh) := by
  simp [worker_pool.run_async_locked, worker_pool.new_worker, h, set_begin_singleton]

/-- With an idle worker, the critical section creates nothing and chooses an idle one. -/
theorem run_async_locked_of_ne_empty {p : worker_pool} (fresh : Nat)
    (h : p.m_empty_workers ≠ ∅) :
    ∃ w, w ∈ p.m_empty_workers ∧ p.run_async_locked fresh = some
      ({ p with
         m_empty_workers := p.m_empty_workers.erase w
         m_occupied_workers := insert w p.m_occupied_workers }, w) := by
  obtain ⟨w, hw⟩ := set_begin_of_ne_empty h
  exact ⟨w, set_begin_mem hw, by simp [worker_pool.run_async_locked, h, hw]⟩

/-- The method `run_async` always returns: the assertion of line 209 never fails. -/
theorem run_async_defined (p : worker_pool) (task : task_t) (data : Nat) (fresh : Nat) :
    ∃ p1 w, p.run_async task data fresh = some (p1, w) := by
  by_cases he : p.m_empty_workers = ∅
  · exact ⟨_, fresh, by rw [worker_pool.run_async, run_async_locked_of_empty fresh he]⟩
  · obtain ⟨w, _, hr⟩ := run_async_locked_of_ne_empty fresh he
    exact ⟨_, w, by rw [worker_pool.run_async, hr]⟩

theorem wf_init : worker_pool.init.wf := by
  simp [worker_pool.wf, worker_pool.init]

theorem wf_notify {p : worker_pool} (h : p.wf) {w : Nat} (hw : w ∈ p.allocated) :
    (p.notify w).wf := by
  obtain ⟨hd, hu⟩ := h
  rw [Finset.disjoint_left] at hd
  constructor
  · rw [Finset.disjoint_left]
    intro x hx hx2
    simp only [worker_pool.notify, Finset.mem_insert, Finset.mem_erase] at hx hx2
    rcases hx with rfl | hx
    · exact hx2.1 rfl
    · exact hd hx hx2.2
  · ext x
    have hx := Finset.ext_iff.1 hu x
    simp only [Finset.mem_union] at hx
    simp only [worker_pool.notify, Finset.mem_union, Finset.mem_insert, Finset.mem_erase]
    by_cases hxw : x = w
    · subst hxw; simp [hw]
    · simp [hxw, hx]

theorem wf_run_async_locked {p p1 : worker_pool} (h : p.wf) {fresh w : Nat}
    (hr : p.run_async_locked fresh = some (p1, w)) : p1.wf := by
  obtain ⟨hd, hu⟩ := h
  rw [Finset.disjoint_left] at hd
  by_cases he : p.m_empty_workers = ∅
  · rw [run_async_locked_of_empty fresh he] at hr
    simp only [Option.some.injEq, Prod.mk.injEq] at hr
    obtain ⟨rfl, rfl⟩ := hr
    constructor
    · simp
    · simp only [Finset.empty_union]
      rw [← hu, he, Finset.empty_union]
  · obtain ⟨v, hv, hv2⟩ := run_async_locked_of_ne_empty fresh he
    rw [hv2] at hr
    simp only [Option.some.injEq, Prod.mk.injEq] at hr
    obtain ⟨rfl, rfl⟩ := hr
    constructor
    · rw [Finset.disjoint_left]
      intro x hx hx2
      simp only [Finset.mem_insert, Finset.mem_erase] at hx hx2
      rcases hx2 with rfl | hx2
      · exact hx.1 rfl
      · exact hd hx.2 hx2
    · ext x
      have hx := Finset.ext_iff.1 hu x
      simp only [Finset.mem_union] at hx
      simp only [Finset.mem_union, Finset.mem_insert, Finset.mem_erase]
      by_cases hxw : x = v
      · subst hxw
        simp only [true_or, or_true, true_iff]
        exact hx.1 (Or.inl hv)
      · simp [hxw, hx]

theorem wf_pool_exec (ops : List pool_op) : ∀ {p p1 : worker_pool}, p.wf →
    pool_exec p ops = some p1 → p1.wf := by
  induction ops with
  | nil =>
    intro p p1 h he
    simp only [pool_exec, Option.some.injEq] at he
    exact he ▸ h
  | cons op ops ih =>
    intro p p1 h he
    cases op with
    | run_async fresh =>
      simp only [pool_exec] at he
      by_cases hf : fresh ∈ p.allocated
      · simp [hf] at he
      · simp only [hf, if_false] at he
        cases hr : p.run_async_locked fresh with
        | none => simp [hr] at he
        | some v =>
          obtain ⟨p2, w⟩ := v
          simp only [hr] at he
          exact ih (wf_run_async_locked h hr) he
    | notify w =>
      simp only [pool_exec] at he
      by_cases hw : w ∈ p.allocated
      · simp only [hw, if_true] at he
        exact ih (wf_notify h hw) he
      · simp [hw] at he

/-- C6: starting from an empty pool, after any finite sequence of critical sections of
`run_async` and calls `notify(w)` with `w` a worker created by this pool, the idle set
and the busy set are disjoint and every worker the pool has created belongs to exactly
one of them (and the sets hold nothing but created workers). -/
theorem idle_busy_partition (ops : List pool_op) (p : worker_pool)
    (h : pool_exec worker_pool.init ops = some p) :
    Disjoint p.m_empty_workers p.m_occupied_workers ∧
    (∀ a ∈ p.allocated, (a ∈ p.m_empty_workers ∧ a ∉ p.m_occupied_workers) ∨
      (a ∉ p.m_empty_workers ∧ a ∈ p.m_occupied_workers)) ∧
    (∀ a, a ∈ p.m_empty_workers ∨ a ∈ p.m_occupied_workers → a ∈ p.allocated) := by
  obtain ⟨hd, hu⟩ := wf_pool_exec ops wf_init h
  refine ⟨hd, ?_, ?_⟩
  · intro a ha
    rw [← hu, Finset.mem_union] at ha
    rw [Finset.disjoint_left] at hd
    rcases ha with ha | ha
    · exact Or.inl ⟨ha, hd ha⟩
    · exact Or.inr ⟨fun h1 => hd h1 ha, ha⟩
  · intro a ha
    rw [← hu, Finset.mem_union]
    exact ha

theorem idle_busy_partition_witness :
    ∃ p, pool_exec worker_pool.init
        [pool_op.run_async 7, pool_op.notify 7, pool_op.run_async 8, pool_op.run_async 9,
          pool_op.notify 7] = some p ∧
      (Disjoint p.m_empty_workers p.m_occupied_workers ∧
      (∀ a ∈ p.allocated, (a ∈ p.m_empty_workers ∧ a ∉ p.m_occupied_workers) ∨
        (a ∉ p.m_empty_workers ∧ a ∈ p.m_occupied_workers)) ∧
      (∀ a, a ∈ p.m_empty_workers ∨ a ∈ p.m_occupied_workers → a ∈ p.allocated)) := by
  cases h : pool_exec worker_pool.init
      [pool_op.run_async 7, pool_op.notify 7, pool_op.run_async 8, pool_op.run_async 9,
        pool_op.notify 7] with
  | none =>
    have h2 : (pool_exec worker_pool.init
      [pool_op.run_async 7, pool_op.notify 7, pool_op.run_async 8, pool_op.run_async 9,
        pool_op.notify 7]).isSome = true := by decide
    rw [h] at h2
    exact absurd h2 (by decide)
  | some p => exact ⟨p, rfl, idle_busy_partition _ p h⟩

/-! ## The pool: `run_async` and `notify` (C7 - C10, C2) -/

/-- C7: for every pool state `p` and every call `run_async(f, x)`.  When the pool lock is
released (state `p1`) the chosen worker `w` is in the busy set and not in the idle set,
and the idle/busy membership of every other worker is as in `p`.  The critical section
touches no worker object that exists: if there was an idle worker, `w` is one of the
idle workers of `p` and every worker object is as in `p`; otherwise `w` is the worker
just made, with empty queues, and every other worker object is as in `p`.  The push
that follows appends `(f, x)` at the tail of the pending queue of `w` as it finds it,
whatever the other threads did since the lock was released (state `q`), leaving the
items queued before it in place and in order, and nothing else is touched.  Run without
another thread in between, the call returns `w` and leaves on `w` the items that were
queued on it in `p` (none for a new worker), in order, followed by `(f, x)`, its result
queue and its thread as in `p`, and every other worker object as in `p`. -/
theorem run_async_frame (p : worker_pool) (task : task_t) (data : Nat) (fresh : Nat) :
    ∃ p1 w, p.run_async_locked fresh = some (p1, w) ∧
      w ∈ p1.m_occupied_workers ∧ w ∉ p1.m_empty_workers ∧
      (∀ v, v ≠ w → ((v ∈ p1.m_empty_workers ↔ v ∈ p.m_empty_workers) ∧
        (v ∈ p1.m_occupied_workers ↔ v ∈ p.m_occupied_workers))) ∧
      (p.m_empty_workers ≠ ∅ →
        w ∈ p.m_empty_workers ∧ p1.mem = p.mem ∧ p1.allocated = p.allocated) ∧
      (p.m_empty_workers = ∅ →
        w = fresh ∧ p1.mem w = worker.init ∧ (∀ v, v ≠ w → p1.mem v = p.mem v) ∧
          p1.allocated = insert fresh p.allocated) ∧
      (∀ q : worker_pool,
        ((q.push_to w ⟨task, data⟩).mem w).m_data = (q.mem w).m_data ++ [⟨task, data⟩] ∧
        ((q.push_to w ⟨task, data⟩).mem w).m_result = (q.mem w).m_result ∧
        ((q.push_to w ⟨task, data⟩).mem w).pc = (q.mem w).pc ∧
        (∀ v, v ≠ w → (q.push_to w ⟨task, data⟩).mem v = q.mem v) ∧
        (q.push_to w ⟨task, data⟩).m_empty_workers = q.m_empty_workers ∧
        (q.push_to w ⟨task, data⟩).m_occupied_workers = q.m_occupied_workers ∧
        (q.push_to w ⟨task, data⟩).allocated = q.allocated) ∧
      p.run_async task data fresh = some (p1.push_to w ⟨task, data⟩, w) ∧
      ((p1.push_to w ⟨task, data⟩).mem w).m_data =
        (if p.m_empty_workers = ∅ then [] else (p.mem w).m_data) ++ [⟨task, data⟩] ∧
      (p.m_empty_workers ≠ ∅ →
        ((p1.push_to w ⟨task, data⟩).mem w).m_result = (p.mem w).m_result ∧
        ((p1.push_to w ⟨task, data⟩).mem w).pc = (p.mem w).pc) ∧
      (∀ v, v ≠ w → (p1.push_to w ⟨task, data⟩).mem v = p.mem v) := by
  have hpush : ∀ (w : Nat) (q : worker_pool),
      ((q.push_to w ⟨task, data⟩).mem w).m_data = (q.mem w).m_data ++ [⟨task, data⟩] ∧
      ((q.push_to w ⟨task, data⟩).mem w).m_result = (q.mem w).m_result ∧
      ((q.push_to w ⟨task, data⟩).mem w).pc = (q.mem w).pc ∧
      (∀ v, v ≠ w → (q.push_to w ⟨task, data⟩).mem v = q.mem v) ∧
      (q.push_to w ⟨task, data⟩).m_empty_workers = q.m_empty_workers ∧
      (q.push_to w ⟨task, data⟩).m_occupied_workers = q.m_occupied_workers ∧
      (q.push_to w ⟨task, data⟩).allocated = q.allocated := by
    intro w q
    refine ⟨?_, ?_, ?_, ?_, rfl, rfl, rfl⟩
    · simp [worker_pool.push_to, mem_set, worker.push]
    · simp [worker_pool.push_to, mem_set, worker.push]
    · simp [worker_pool.push_to, mem_set, worker.push]
    · intro v hv
      simp [worker_pool.push_to, mem_set, hv]
  by_cases he : p.m_empty_workers = ∅
  · refine ⟨_, fresh, run_async_locked_of_empty fresh he, by simp, by simp, ?_, ?_, ?_,
      hpush fresh, ?_, ?_, ?_, ?_⟩
    · intro v hv
      simp [he, hv]
    · intro hne
      exact absurd he hne
    · intro _
      refine ⟨rfl, by simp [mem_set], ?_, rfl⟩
      intro v hv
      simp [mem_set, hv]
    · simp [worker_pool.run_async, run_async_locked_of_empty fresh he]
    · simp [worker_pool.push_to, mem_set, worker.push, worker.init, he]
    · intro hne
      exact absurd he hne
    · intro v hv
      simp [worker_pool.push_to, mem_set, hv]
  · obtain ⟨w, hw, hr⟩ := run_async_locked_of_ne_empty fresh he
    refine ⟨_, w, hr, by simp, by simp, ?_, ?_, ?_, hpush w, ?_, ?_, ?_, ?_⟩
    · intro v hv
      simp [hv]
    · intro _
      exact ⟨hw, rfl, rfl⟩
    · intro h
      exact absurd h he
    · simp [worker_pool.run_async, hr]
    · simp [worker_pool.push_to, mem_set, worker.push, he]
    · intro _
      constructor <;> simp [worker_pool.push_to, mem_set, worker.push]
    · intro v hv
      simp [worker_pool.push_to, mem_set, hv]

/-- C8: in a pool whose bookkeeping is sound, `run_async` creates a new worker if and
only if the idle set is empty when it takes the lock: then the worker `fresh` is
allocated and chosen and the number of workers (idle plus busy) grows by exactly one;
when an idle worker exists nothing is allocated, the number of workers is unchanged and
the returned handle is one of the previously idle workers. -/
theorem run_async_creates_iff_no_idle (p : worker_pool) (task : task_t) (data : Nat)
    (fresh : Nat) (hwf : p.wf) (hfresh : fresh ∉ p.allocated) :
    ∃ p1 w, p.run_async task data fresh = some (p1, w) ∧
      (fresh ∈ p1.allocated ↔ p.m_empty_workers = ∅) ∧
      (p.m_empty_workers = ∅ →
        p1.allocated = insert fresh p.allocated ∧ w = fresh ∧ p1.size = p.size + 1) ∧
      (p.m_empty_workers ≠ ∅ →
        p1.allocated = p.allocated ∧ p1.size = p.size ∧ w ∈ p.m_empty_workers) := by
  obtain ⟨hd, hu⟩ := hwf
  rw [Finset.disjoint_left] at hd
  by_cases he : p.m_empty_workers = ∅
  · have hb : fresh ∉ p.m_occupied_workers := by
      intro hb
      exact hfresh (hu ▸ Finset.mem_union_right _ hb)
    have hra : p.run_async task data fresh = some (worker_pool.push_to
        { m_empty_workers := ∅
          m_occupied_workers := insert fresh p.m_occupied_workers
          allocated := insert fresh p.allocated
          mem := mem_set p.mem fresh worker.init } fresh ⟨task, data⟩, fresh) := by
      simp [worker_pool.run_async, run_async_locked_of_empty fresh he]
    refine ⟨_, fresh, hra, ?_, ?_, ?_⟩
    · simp [worker_pool.push_to, he]
    · intro _
      refine ⟨rfl, rfl, ?_⟩
      simp [worker_pool.size, worker_pool.push_to, he, Finset.card_insert_of_not_mem hb]
    · intro h; exact absurd he h
  · obtain ⟨w, hw, hr⟩ := run_async_locked_of_ne_empty fresh he
    have hra : p.run_async task data fresh = some (worker_pool.push_to
        { p with
          m_empty_workers := p.m_empty_workers.erase w
          m_occupied_workers := insert w p.m_occupied_workers } w ⟨task, data⟩, w) := by
      simp [worker_pool.run_async, hr]
    refine ⟨_, w, hra, ?_, ?_, ?_⟩
    · simp [worker_pool.push_to, he, hfresh]
    · intro h; exact absurd h he
    · intro _
      refine ⟨rfl, ?_, hw⟩
      have hcard : 0 < p.m_empty_workers.card := Finset.card_pos.2 ⟨w, hw⟩
      simp only [worker_pool.size, worker_pool.push_to, Finset.card_erase_of_mem hw,
        Finset.card_insert_of_not_mem (hd hw)]
      omega

theorem run_async_creates_iff_no_idle_witness :
    (worker_pool.mk {7} {8} {7, 8} (fun _ => worker.init)).wf ∧
    9 ∉ (worker_pool.mk {7} {8} {7, 8} (fun _ => worker.init)).allocated ∧
    ∃ p1 w, (worker_pool.mk {7} {8} {7, 8} (fun _ => worker.init)).run_async 1 10 9
        = some (p1, w) ∧
      (9 ∈ p1.allocated ↔
        (worker_pool.mk {7} {8} {7, 8} (fun _ => worker.init)).m_empty_workers = ∅) ∧
      ((worker_pool.mk {7} {8} {7, 8} (fun _ => worker.init)).m_empty_workers = ∅ →
        p1.allocated
            = insert 9 (worker_pool.mk {7} {8} {7, 8} (fun _ => worker.init)).allocated ∧
          w = 9 ∧
          p1.size = (worker_pool.mk {7} {8} {7, 8} (fun _ => worker.init)).size + 1) ∧
      ((worker_pool.mk {7} {8} {7, 8} (fun _ => worker.init)).m_empty_workers ≠ ∅ →
        p1.allocated = (worker_pool.mk {7} {8} {7, 8} (fun _ => worker.init)).allocated ∧
          p1.size = (worker_pool.mk {7} {8} {7, 8} (fun _ => worker.init)).size ∧
          w ∈ (worker_pool.mk {7} {8} {7, 8} (fun _ => worker.init)).m_empty_workers) :=
  ⟨by simp [worker_pool.wf]; decide, by decide,
    run_async_creates_iff_no_idle _ 1 10 9 (by simp [worker_pool.wf]; decide) (by decide)⟩

/-- C9: `notify` is idempotent: applied twice it yields the same pool, with the same
idle and busy sets, as applied once; when `w` is already in the idle set (and, the two
sets being disjoint, not in the busy set) it leaves both sets unchanged; and after
`notify(w)` the worker `w` is in the idle set and not in the busy set. -/
theorem notify_idempotent (p : worker_pool) (w : Nat) :
    (p.notify w).notify w = p.notify w ∧
    (w ∈ p.m_empty_workers → Disjoint p.m_empty_workers p.m_occupied_workers →
      p.notify w = p) ∧
    w ∈ (p.notify w).m_empty_workers ∧ w ∉ (p.notify w).m_occupied_workers := by
  obtain ⟨idle, busy, al, m⟩ := p
  refine ⟨by simp [worker_pool.notify], ?_, by simp [worker_pool.notify],
    by simp [worker_pool.notify]⟩
  intro hw hd
  have hb : w ∉ busy := Finset.disjoint_left.1 hd hw
  simp [worker_pool.notify, Finset.insert_eq_of_mem hw, Finset.erase_eq_of_not_mem hb]

theorem notify_idempotent_witness :
    (7 ∈ (worker_pool.mk {7} {8} {7, 8} (fun _ => worker.init)).m_empty_workers ∧
      Disjoint (worker_pool.mk {7} {8} {7, 8} (fun _ => worker.init)).m_empty_workers
        (worker_pool.mk {7} {8} {7, 8} (fun _ => worker.init)).m_occupied_workers) ∧
    (((worker_pool.mk {7} {8} {7, 8} (fun _ => worker.init)).notify 7).notify 7
        = (worker_pool.mk {7} {8} {7, 8} (fun _ => worker.init)).notify 7 ∧
      (7 ∈ (worker_pool.mk {7} {8} {7, 8} (fun _ => worker.init)).m_empty_workers →
        Disjoint (worker_pool.mk {7} {8} {7, 8} (fun _ => worker.init)).m_empty_workers
          (worker_pool.mk {7} {8} {7, 8} (fun _ => worker.init)).m_occupied_workers →
        (worker_pool.mk {7} {8} {7, 8} (fun _ => worker.init)).notify 7
          = worker_pool.mk {7} {8} {7, 8} (fun _ => worker.init)) ∧
      7 ∈ ((worker_pool.mk {7} {8} {7, 8} (fun _ => worker.init)).notify 7).m_empty_workers ∧
      7 ∉ ((worker_pool.mk {7} {8} {7, 8} (fun _ => worker.init)).notify 7).m_occupied_workers) :=
  ⟨⟨by decide, by decide⟩, notify_idempotent _ 7⟩

/-- C10: the pool never shrinks: `run_async` (always defined) and `notify` leave every
worker of the idle or busy set in one of the two sets, and every allocated worker
allocated. -/
theorem pool_never_shrinks (p : worker_pool) (task : task_t) (data : Nat) (fresh w : Nat) :
    (∃ p1 h, p.run_async task data fresh = some (p1, h) ∧
      p.m_empty_workers ∪ p.m_occupied_workers ⊆ p1.m_empty_workers ∪ p1.m_occupied_workers ∧
      p.allocated ⊆ p1.allocated) ∧
    p.m_empty_workers ∪ p.m_occupied_workers
      ⊆ (p.notify w).m_empty_workers ∪ (p.notify w).m_occupied_workers ∧
    p.allocated ⊆ (p.notify w).allocated := by
  refine ⟨?_, ?_, by simp [worker_pool.notify]⟩
  · by_cases he : p.m_empty_workers = ∅
    · refine ⟨_, fresh, by rw [worker_pool.run_async, run_async_locked_of_empty fresh he],
        ?_, ?_⟩
      · intro x hx
        simp only [worker_pool.push_to, Finset.mem_union, Finset.mem_insert] at hx ⊢
        rcases hx with hx | hx
        · simp [he] at hx
        · exact Or.inr (Or.inr hx)
      · simp [worker_pool.push_to]
    · obtain ⟨v, hv, hr⟩ := run_async_locked_of_ne_empty fresh he
      refine ⟨_, v, by rw [worker_pool.run_async, hr], ?_, ?_⟩
      · intro x hx
        simp only [worker_pool.push_to, Finset.mem_union, Finset.mem_insert,
          Finset.mem_erase] at hx ⊢
        by_cases hxv : x = v
        · exact Or.inr (Or.inl hxv)
        · rcases hx with hx | hx
          · exact Or.inl ⟨hxv, hx⟩
          · exact Or.inr (Or.inr hx)
      · simp [worker_pool.push_to]
  · intro x hx
    simp only [worker_pool.notify, Finset.mem_union, Finset.mem_insert,
      Finset.mem_erase] at hx ⊢
    by_cases hxw : x = w
    · exact Or.inl (Or.inl hxw)
    · rcases hx with hx | hx
      · exact Or.inl (Or.inr hx)
      · exact Or.inr ⟨hxw, hx⟩

/-- C2 (the code at any input): `worker_pool::run_async` produces a handle `w`, but the
entry point `task_run_async`, which has no `return` statement, hands no value to its
caller; the sibling entry point `wait_task` does pass on the value of the method it
calls. -/
theorem task_run_async_returns_no_handle (inst : worker_pool) (task : task_t) (data : Nat)
    (fresh : Nat) :
    ∃ p1 w, inst.run_async task data fresh = some (p1, w) ∧
      task_run_async inst task data fresh = some (p1, none) ∧
      (task_run_async inst task data fresh).map Prod.snd ≠ some (some w) ∧
      ∀ handle, wait_task inst handle = inst.wait_task handle := by
  obtain ⟨p1, w, hr⟩ := run_async_defined inst task data fresh
  exact ⟨p1, w, hr, by simp [task_run_async, hr], by simp [task_run_async, hr],
    fun _ => rfl⟩

/-! ## The pool with its callers and threads -/

theorem sys_inv_init (call : task_t → Nat → Nat) : sys_inv call sys.init := by
  refine ⟨by simp [sys.init, worker_pool.init], by simp [sys.init], by simp [sys.init],
    by simp [sys.init], ?_⟩
  intro a
  simpa [sys.init, sys.pushed_to, sys.waited_on, worker_pool.init] using worker_inv_init call

theorem sys_inv_lock {call : task_t → Nat → Nat} {s : sys} (h : sys_inv call s)
    (t : task_data) {fresh w : Nat} {p1 : worker_pool} (hf : fresh ∉ s.pool.allocated)
    (hr : s.pool.run_async_locked fresh = some (p1, w)) :
    sys_inv call { s with pool := p1, callers := s.callers ++ [(w, t)] } := by
  obtain ⟨hi, hc, hk, hw, hm⟩ := h
  by_cases he : s.pool.m_empty_workers = ∅
  · rw [run_async_locked_of_empty fresh he] at hr
    simp only [Option.some.injEq, Prod.mk.injEq] at hr
    obtain ⟨rfl, rfl⟩ := hr
    refine ⟨by simp, ?_, ?_, hw, ?_⟩
    · intro c hc1
      simp only [List.mem_append, List.mem_singleton] at hc1
      rcases hc1 with hc1 | rfl
      · exact Finset.mem_insert_of_mem (hc c hc1)
      · exact Finset.mem_insert_self _ _
    · intro c hc1
      exact Finset.mem_insert_of_mem (hk c hc1)
    · intro a
      by_cases ha : a = fresh
      · subst ha
        have h1 : s.pushed_to a = [] := by
          simp only [sys.pushed_to, List.map_eq_nil_iff, List.filter_eq_nil_iff]
          intro c hc1 hc2
          simp only [decide_eq_true_eq] at hc2
          exact hf (hc2 ▸ hk c hc1)
        have h2 : s.waited_on a = [] := by
          simp only [sys.waited_on, List.map_eq_nil_iff, List.filter_eq_nil_iff]
          intro x hx1 hx2
          simp only [decide_eq_true_eq] at hx2
          obtain ⟨t1, ht1⟩ := hw x hx1
          have hmem : (t1, x.2.1) ∈ s.calls := List.getElem?_mem ht1
          exact hf (hx2 ▸ hk _ hmem)
        simp only [sys.pushed_to, sys.waited_on] at h1 h2 ⊢
        simp only [h1, h2, mem_set, if_true]
        exact worker_inv_init call
      · have := hm a
        simpa [sys.pushed_to, sys.waited_on, mem_set, ha] using this
  · obtain ⟨v, hv, hr2⟩ := run_async_locked_of_ne_empty fresh he
    rw [hr2] at hr
    simp only [Option.some.injEq, Prod.mk.injEq] at hr
    obtain ⟨rfl, rfl⟩ := hr
    refine ⟨?_, ?_, hk, hw, hm⟩
    · intro x hx
      exact hi (Finset.mem_of_mem_erase hx)
    · intro c hc1
      simp only [List.mem_append, List.mem_singleton] at hc1
      rcases hc1 with hc1 | rfl
      · exact hc c hc1
      · exact hi hv

theorem sys_inv_push {call : task_t → Nat → Nat} {s : sys} (h : sys_inv call s)
    {i w : Nat} {t : task_data} (hg : s.callers[i]? = some (w, t)) :
    sys_inv call { s with
      pool := s.pool.push_to w t
      callers := s.callers.eraseIdx i
      calls := s.calls ++ [(t, w)] } := by
  obtain ⟨hi, hc, hk, hw, hm⟩ := h
  have hwa : w ∈ s.pool.allocated := hc (w, t) (List.getElem?_mem hg)
  refine ⟨hi, ?_, ?_, ?_, ?_⟩
  · intro c hc1
    exact hc c ((List.eraseIdx_sublist _ _).subset hc1)
  · intro c hc1
    simp only [List.mem_append, List.mem_singleton] at hc1
    rcases hc1 with hc1 | rfl
    · exact hk c hc1
    · exact hwa
  · intro x hx
    obtain ⟨t1, ht1⟩ := hw x hx
    refine ⟨t1, ?_⟩
    have hlt : x.1 < s.calls.length := by
      by_contra hcon
      rw [List.getElem?_eq_none (by omega)] at ht1
      simp at ht1
    simp only []
    rw [List.getElem?_append_left hlt]
    exact ht1
  · intro a
    by_cases ha : a = w
    · subst ha
      have := worker_inv_push (hm a) t
      simpa [sys.pushed_to, sys.waited_on, worker_pool.push_to, mem_set,
        List.filter_append] using this
    · have := hm a
      have ha2 : ¬ w = a := fun h => ha h.symm
      simpa [sys.pushed_to, sys.waited_on, worker_pool.push_to, mem_set, ha, ha2,
        List.filter_append] using this

theorem sys_inv_run {call : task_t → Nat → Nat} {s : sys} (h : sys_inv call s)
    {w : Nat} (hwa : w ∈ s.pool.allocated) :
    sys_inv call { s with pool := s.pool.run_worker call w } := by
  obtain ⟨hi, hc, hk, hw, hm⟩ := h
  have hal : (s.pool.run_worker call w).allocated = s.pool.allocated := by
    unfold worker_pool.run_worker
    simp only []
    split <;> rfl
  have hmem : (s.pool.run_worker call w).mem
      = mem_set s.pool.mem w ((s.pool.mem w).run_step call).1 := by
    unfold worker_pool.run_worker
    simp only []
    split <;> rfl
  have hidle : (s.pool.run_worker call w).m_empty_workers ⊆ s.pool.allocated := by
    unfold worker_pool.run_worker
    simp only []
    split
    · intro x hx
      simp only [worker_pool.notify, Finset.mem_insert] at hx
      rcases hx with rfl | hx
      · exact hwa
      · exact hi hx
    · exact hi
  refine ⟨by simpa only [hal] using hidle, by simpa only [hal] using hc,
    by simpa only [hal] using hk, hw, ?_⟩
  intro a
  simp only [sys.pushed_to, sys.waited_on, hmem]
  by_cases ha : a = w
  · subst ha
    simpa [mem_set, sys.pushed_to, sys.waited_on] using worker_inv_run (hm a)
  · simpa [mem_set, ha, sys.pushed_to, sys.waited_on] using hm a

theorem sys_inv_wait {call : task_t → Nat → Nat} {s : sys} (h : sys_inv call s)
    {k a r : Nat} {t : task_data} {p1 : worker_pool} (hg : s.calls[k]? = some (t, a))
    (hp : s.pool.wait_task a = some (p1, r)) :
    sys_inv call { s with pool := p1, waits := s.waits ++ [(k, a, r)] } := by
  obtain ⟨hi, hc, hk, hw, hm⟩ := h
  unfold worker_pool.wait_task at hp
  cases hpop : (s.pool.mem a).pop with
  | none => simp [hpop] at hp
  | some v =>
    obtain ⟨r1, w1⟩ := v
    simp only [hpop, Option.some.injEq, Prod.mk.injEq] at hp
    obtain ⟨rfl, rfl⟩ := hp
    refine ⟨hi, hc, hk, ?_, ?_⟩
    · intro x hx
      simp only [List.mem_append, List.mem_singleton] at hx
      rcases hx with hx | rfl
      · exact hw x hx
      · exact ⟨t, hg⟩
    · intro b
      by_cases hb : b = a
      · subst hb
        have := worker_inv_pop (hm b) hpop
        simpa [sys.pushed_to, sys.waited_on, mem_set, List.filter_append] using this
      · have := hm b
        have hb2 : ¬ a = b := fun h => hb h.symm
        simpa [sys.pushed_to, sys.waited_on, mem_set, hb, hb2, List.filter_append] using this

theorem sys_inv_step {call : task_t → Nat → Nat} {s s1 : sys} (h : sys_inv call s)
    (e : sys_event) (he : sys_step call s e = some s1) : sys_inv call s1 := by
  cases e with
  | lock t fresh =>
    simp only [sys_step] at he
    by_cases hf : fresh ∈ s.pool.allocated
    · simp [hf] at he
    · simp only [hf, if_false] at he
      cases hr : s.pool.run_async_locked fresh with
      | none => simp [hr] at he
      | some v =>
        obtain ⟨p1, w⟩ := v
        simp only [hr, Option.some.injEq] at he
        subst he
        exact sys_inv_lock h t hf hr
  | push i =>
    simp only [sys_step] at he
    cases hg : s.callers[i]? with
    | none => simp [hg] at he
    | some v =>
      obtain ⟨w, t⟩ := v
      simp only [hg, Option.some.injEq] at he
      subst he
      exact sys_inv_push h hg
  | run w =>
    simp only [sys_step] at he
    by_cases hw : w ∈ s.pool.allocated
    · simp only [hw, if_true, Option.some.injEq] at he
      subst he
      exact sys_inv_run h hw
    · simp [hw] at he
  | wait k =>
    simp only [sys_step] at he
    cases hg : s.calls[k]? with
    | none => simp [hg] at he
    | some v =>
      obtain ⟨t, a⟩ := v
      simp only [hg] at he
      cases hp : s.pool.wait_task a with
      | none => simp [hp] at he
      | some v2 =>
        obtain ⟨p1, r⟩ := v2
        simp only [hp, Option.some.injEq] at he
        subst he
        exact sys_inv_wait h hg hp

theorem sys_inv_exec {call : task_t → Nat → Nat} (evs : List sys_event) :
    ∀ {s s1 : sys}, sys_inv call s → sys_exec call s evs = some s1 → sys_inv call s1 := by
  induction evs with
  | nil =>
    intro s s1 h he
    simp only [sys_exec, Option.some.injEq] at he
    exact he ▸ h
  | cons e es ih =>
    intro s s1 h he
    simp only [sys_exec] at he
    cases hs : sys_step call s e with
    | none => simp [hs] at he
    | some s2 =>
      simp only [hs] at he
      exact ih (sys_inv_step h e hs) he

theorem run_worker_steps_mem (call : task_t → Nat → Nat) (w : Nat) (n : Nat) :
    ∀ p : worker_pool, (p.run_worker_steps call w n).mem w = (p.mem w).run_steps call n := by
  induction n with
  | zero => intro p; rfl
  | succ n ih =>
    intro p
    have hmem : (p.run_worker call w).mem w = ((p.mem w).run_step call).1 := by
      unfold worker_pool.run_worker
      simp only []
      split <;> simp [worker_pool.notify, mem_set]
    simp only [worker_pool.run_worker_steps, worker.run_steps]
    rw [ih, hmem]

theorem wait_task_value (p : worker_pool) (a : Nat) :
    (p.wait_task a).map Prod.snd = (p.mem a).pop.map Prod.fst := by
  unfold worker_pool.wait_task
  cases (p.mem a).pop with
  | none => rfl
  | some v => rfl

/-! ## Handles and results (C1) -/

/-- C1 (as the code has it): in every execution of the pool with its callers and worker
threads, for every worker `a`: the values returned by the calls of `wait_task` on the
handle `a` are, in order, the results of the first tasks of the calls of `run_async` that
returned `a` (the `j`-th wait on `a` gets the result of the `j`-th such call, so no result
is lost); a wait on the handle of a call that is the only one to have returned that
handle gets the result of that very call; and while fewer waits on `a` have returned
than calls (all with non-null functions) returned `a`, the next `wait_task(a)` returns,
after at most three further steps of the worker, the result of the next such call. -/
theorem wait_returns_results_in_call_order (call : task_t → Nat → Nat)
    (evs : List sys_event) (s : sys) (h : sys_exec call sys.init evs = some s) (a : Nat) :
    s.waited_on a
      = ((s.pushed_to a).take (s.waited_on a).length).map (task_data.result call) ∧
    (∀ k r, (k, a, r) ∈ s.waits → ∃ t, s.calls[k]? = some (t, a) ∧
      (s.pushed_to a = [t] → r = task_data.result call t)) ∧
    ((∀ d ∈ s.pushed_to a, d.task ≠ NULL) →
      ∀ d, (s.pushed_to a)[(s.waited_on a).length]? = some d →
        ∃ n, n ≤ 3 ∧ ((s.pool.run_worker_steps call a n).wait_task a).map Prod.snd
          = some (task_data.result call d)) := by
  obtain ⟨_, _, _, hw, hm⟩ := sys_inv_exec evs (sys_inv_init call) h
  have houts := worker_inv_outs (hm a)
  refine ⟨houts, ?_, ?_⟩
  · intro k r hk
    obtain ⟨t, ht⟩ := hw _ hk
    refine ⟨t, ht, ?_⟩
    intro hone
    have hr : r ∈ s.waited_on a := by
      simp only [sys.waited_on, List.mem_map, List.mem_filter, decide_eq_true_eq]
      exact ⟨(k, a, r), ⟨hk, rfl⟩, rfl⟩
    rw [houts, hone] at hr
    obtain ⟨d, hd, hdr⟩ := List.mem_map.1 hr
    have hd2 : d ∈ [t] := List.mem_of_mem_take hd
    simp only [List.mem_singleton] at hd2
    rw [← hdr, hd2]
  · intro hreal d hd
    obtain ⟨n, hn, hpop⟩ := worker_inv_next_pop (hm a) hreal d hd
    exact ⟨n, hn, by rw [wait_task_value, run_worker_steps_mem]; exact hpop⟩

theorem wait_returns_results_in_call_order_witness :
    ∃ s, sys_exec (fun f x => 100 * f + x) sys.init
        [sys_event.lock ⟨1, 10⟩ 7, sys_event.push 0, sys_event.lock ⟨2, 20⟩ 8,
          sys_event.push 0, sys_event.run 7, sys_event.run 7, sys_event.run 7,
          sys_event.wait 0] = some s ∧
      (s.waited_on 7
        = ((s.pushed_to 7).take (s.waited_on 7).length).map
            (task_data.result (fun f x => 100 * f + x)) ∧
      (∀ k r, (k, 7, r) ∈ s.waits → ∃ t, s.calls[k]? = some (t, 7) ∧
        (s.pushed_to 7 = [t] → r = task_data.result (fun f x => 100 * f + x) t)) ∧
      ((∀ d ∈ s.pushed_to 7, d.task ≠ NULL) →
        ∀ d, (s.pushed_to 7)[(s.waited_on 7).length]? = some d →
          ∃ n, n ≤ 3 ∧ ((s.pool.run_worker_steps (fun f x => 100 * f + x) 7 n).wait_task
            7).map Prod.snd = some (task_data.result (fun f x => 100 * f + x) d))) := by
  cases h : sys_exec (fun f x => 100 * f + x) sys.init
      [sys_event.lock ⟨1, 10⟩ 7, sys_event.push 0, sys_event.lock ⟨2, 20⟩ 8,
        sys_event.push 0, sys_event.run 7, sys_event.run 7, sys_event.run 7,
        sys_event.wait 0] with
  | none =>
    have h2 : (sys_exec (fun f x => 100 * f + x) sys.init
      [sys_event.lock ⟨1, 10⟩ 7, sys_event.push 0, sys_event.lock ⟨2, 20⟩ 8,
        sys_event.push 0, sys_event.run 7, sys_event.run 7, sys_event.run 7,
        sys_event.wait 0]).isSome = true := by decide
    rw [h] at h2
    exact absurd h2 (by decide)
  | some s => exact ⟨s, rfl, wait_returns_results_in_call_order _ _ s h 7⟩

/-- C1 (counterexample): two calls of `run_async`, each handle passed to `wait_task`
exactly once.  The worker 7 created for the first call (task 1 on 10, result 110)
finishes it and reports idle before the result is retrieved; the second call (task 2 on
20, result 220) is handed the same worker and returns the same handle 7.  The holder of
the second call's handle waits first and receives 110, the result of the first call;
the holder of the first call's handle then receives 220. -/
theorem wait_returns_result_of_other_call :
    ∃ s, sys_exec (fun f x => 100 * f + x) sys.init
        [sys_event.lock ⟨1, 10⟩ 7, sys_event.push 0, sys_event.run 7, sys_event.run 7,
          sys_event.run 7, sys_event.run 7, sys_event.lock ⟨2, 20⟩ 8, sys_event.push 0,
          sys_event.run 7, sys_event.run 7, sys_event.run 7, sys_event.wait 1,
          sys_event.wait 0] = some s ∧
      s.calls = [(⟨1, 10⟩, 7), (⟨2, 20⟩, 7)] ∧
      s.waits = [(1, 7, 110), (0, 7, 220)] ∧
      task_data.result (fun f x => 100 * f + x) ⟨2, 20⟩ = 220 ∧
      task_data.result (fun f x => 100 * f + x) ⟨1, 10⟩ = 110 := by
  cases h : sys_exec (fun f x => 100 * f + x) sys.init
      [sys_event.lock ⟨1, 10⟩ 7, sys_event.push 0, sys_event.run 7, sys_event.run 7,
        sys_event.run 7, sys_event.run 7, sys_event.lock ⟨2, 20⟩ 8, sys_event.push 0,
        sys_event.run 7, sys_event.run 7, sys_event.run 7, sys_event.wait 1,
        sys_event.wait 0] with
  | none =>
    have h2 : (sys_exec (fun f x => 100 * f + x) sys.init
      [sys_event.lock ⟨1, 10⟩ 7, sys_event.push 0, sys_event.run 7, sys_event.run 7,
        sys_event.run 7, sys_event.run 7, sys_event.lock ⟨2, 20⟩ 8, sys_event.push 0,
        sys_event.run 7, sys_event.run 7, sys_event.run 7, sys_event.wait 1,
        sys_event.wait 0]).isSome = true := by decide
    rw [h] at h2
    exact absurd h2 (by decide)
  | some s =>
    have hc : (sys_exec (fun f x => 100 * f + x) sys.init
      [sys_event.lock ⟨1, 10⟩ 7, sys_event.push 0, sys_event.run 7, sys_event.run 7,
        sys_event.run 7, sys_event.run 7, sys_event.lock ⟨2, 20⟩ 8, sys_event.push 0,
        sys_event.run 7, sys_event.run 7, sys_event.run 7, sys_event.wait 1,
        sys_event.wait 0]).map (fun s => (s.calls, s.waits))
        = some ([(⟨1, 10⟩, 7), (⟨2, 20⟩, 7)], [(1, 7, 110), (0, 7, 220)]) := by decide
    rw [h] at hc
    simp only [Option.map_some', Option.some.injEq, Prod.mk.injEq] at hc
    exact ⟨s, rfl, hc.1, hc.2, by decide, by decide⟩

/-! ## Idle workers and pending tasks (C5) -/

/-- C5 (the code at the failing interleaving): `run_async(1, 10)` creates worker 7 and
moves it to the busy set; before the caller pushes, the new thread finds `m_data` empty
and calls `notify`, which moves 7 to the idle set while the caller is still about to
push to it; after the push, worker 7 is in the idle set with the task in its pending
queue, and the next `run_async(2, 20)` creates no worker and chooses worker 7 again. -/
theorem idle_worker_with_pending_task :
    ∃ s2 s3 s4, sys_exec (fun f x => 100 * f + x) sys.init
        [sys_event.lock ⟨1, 10⟩ 7, sys_event.run 7] = some s2 ∧
      7 ∈ s2.pool.m_empty_workers ∧ 7 ∉ s2.pool.m_occupied_workers ∧
      s2.callers = [(7, ⟨1, 10⟩)] ∧
      sys_step (fun f x => 100 * f + x) s2 (sys_event.push 0) = some s3 ∧
      7 ∈ s3.pool.m_empty_workers ∧ (s3.pool.mem 7).m_data = [⟨1, 10⟩] ∧
      sys_step (fun f x => 100 * f + x) s3 (sys_event.lock ⟨2, 20⟩ 8) = some s4 ∧
      s4.callers = [(7, ⟨2, 20⟩)] ∧ s4.pool.allocated = {7} := by
  refine ⟨_, _, _, rfl, by decide, by decide, by decide, rfl, by decide, by decide, rfl,
    by decide, by decide⟩

/-! ## Notifications of the execution loop (C19) -/

/-- C19: a step of the execution loop calls `notify` (once) exactly when it stands at
the loop head or is woken inside `pthread_cond_wait` and finds `m_data` empty, and it
then waits (again) with both queues untouched; a step that finds `m_data` non-empty
dequeues the front item without calling `notify`; after the poisoned pill was dequeued
the thread returns without calling `notify`, on that step or ever after; and the call is
`notify` of the pool on the worker itself, the sets of the pool being untouched by a
step that does not notify. -/
theorem notify_iff_queue_observed_empty (call : task_t → Nat → Nat) (w : worker) :
    ((w.run_step call).2 = true ↔
      (w.pc = run_pc.loop_head ∨ w.pc = run_pc.cond_wait) ∧ w.m_data = []) ∧
    ((w.run_step call).2 = true →
      (w.run_step call).1 = { w with pc := run_pc.cond_wait }) ∧
    (∀ d ds, (w.pc = run_pc.loop_head ∨ w.pc = run_pc.cond_wait) → w.m_data = d :: ds →
      (w.run_step call).2 = false ∧
      (w.run_step call).1 = { w with m_data := ds, pc := run_pc.dequeued d }) ∧
    (∀ d, w.pc = run_pc.dequeued d → d.task = NULL →
      (w.run_step call).2 = false ∧ (w.run_step call).1.pc = run_pc.returned ∧
      ∀ n, (((w.run_step call).1.run_steps call n).run_step call).2 = false) ∧
    (∀ (p : worker_pool) (a : Nat),
      ((p.mem a).run_step call).2 = true →
        (p.run_worker call a).m_empty_workers = (p.notify a).m_empty_workers ∧
        (p.run_worker call a).m_occupied_workers = (p.notify a).m_occupied_workers) ∧
    (∀ (p : worker_pool) (a : Nat),
      ((p.mem a).run_step call).2 = false →
        (p.run_worker call a).m_empty_workers = p.m_empty_workers ∧
        (p.run_worker call a).m_occupied_workers = p.m_occupied_workers) := by
  obtain ⟨q, res, pc⟩ := w
  refine ⟨?_, ?_, ?_, ?_, ?_, ?_⟩
  rotate_right 2
  · intro p a hflag
    simp [worker_pool.run_worker, hflag, worker_pool.notify]
  · intro p a hflag
    simp [worker_pool.run_worker, hflag]
  · cases pc <;> cases q <;> simp [worker.run_step] <;> split <;> simp
  · cases pc <;> cases q <;> simp [worker.run_step] <;> split <;> simp
  · intro d ds hpc hq
    simp only at hpc hq
    subst hq
    rcases hpc with rfl | rfl <;> simp [worker.run_step]
  · intro d hpc hn
    simp only at hpc
    subst hpc
    have hn0 : d.task = 0 := hn
    refine ⟨by simp [worker.run_step, hn0], by simp [worker.run_step, hn0], ?_⟩
    intro n
    rw [run_steps_returned call n _ (by simp [worker.run_step, hn0])]
    simp [worker.run_step, hn0]

/-! ## Null tasks and the poisoned pill (C12) -/

/-- A thread that has returned has dequeued a pushed item with a null function. -/
theorem worker_inv_returned {call : task_t → Nat → Nat} {P : List task_data}
    {outs : List Nat} {w : worker} (h : worker_inv call P outs w)
    (hret : w.pc = run_pc.returned) : ∃ d ∈ P, d.task = NULL := by
  obtain ⟨done, cur, hP, _, _, hpc⟩ := h
  rw [hret] at hpc
  obtain ⟨d, rfl, hn⟩ := hpc
  exact ⟨d, by simp [hP], hn⟩

/-- C12 (as the code has it): an item pushed by `run_async(task, data)` with a non-null
`task` is not treated as the poisoned pill (the loop calls the task); in every execution
of the pool with its callers and worker threads, a worker whose loop has returned was
handed, by a call of `run_async` that returned it, an item with a null function; and a
worker that was handed only non-null tasks has not returned and does not return however
many steps its thread runs. -/
theorem loop_returns_only_on_null_task (call : task_t → Nat → Nat)
    (evs : List sys_event) (s : sys) (h : sys_exec call sys.init evs = some s) (a : Nat) :
    (∀ (task : task_t) (data : Nat) (w : worker), task ≠ NULL →
      w.pc = run_pc.dequeued ⟨task, data⟩ →
      (w.run_step call).1.pc = run_pc.executed ⟨task, data⟩ (call task data)) ∧
    ((s.pool.mem a).pc = run_pc.returned → ∃ d ∈ s.pushed_to a, d.task = NULL) ∧
    ((∀ d ∈ s.pushed_to a, d.task ≠ NULL) →
      ∀ n, ((s.pool.mem a).run_steps call n).pc ≠ run_pc.returned) := by
  obtain ⟨_, _, _, _, hm⟩ := sys_inv_exec evs (sys_inv_init call) h
  refine ⟨?_, worker_inv_returned (hm a), ?_⟩
  · intro task data w ht hpc
    obtain ⟨q, res, pc⟩ := w
    simp only at hpc
    subst hpc
    have ht0 : ¬ task = 0 := ht
    simp [worker.run_step, ht0]
  · intro hreal n hret
    obtain ⟨d, hd, hn⟩ := worker_inv_returned (worker_inv_run_steps n (hm a)) hret
    exact hreal d hd hn

theorem loop_returns_only_on_null_task_witness :
    ∃ s, sys_exec (fun f x => 100 * f + x) sys.init
        [sys_event.lock ⟨1, 10⟩ 7, sys_event.push 0, sys_event.run 7, sys_event.run 7]
        = some s ∧
      ((∀ (task : task_t) (data : Nat) (w : worker), task ≠ NULL →
        w.pc = run_pc.dequeued ⟨task, data⟩ →
        (w.run_step (fun f x => 100 * f + x)).1.pc
          = run_pc.executed ⟨task, data⟩ ((fun f x => 100 * f + x) task data)) ∧
      ((s.pool.mem 7).pc = run_pc.returned → ∃ d ∈ s.pushed_to 7, d.task = NULL) ∧
      ((∀ d ∈ s.pushed_to 7, d.task ≠ NULL) →
        ∀ n, ((s.pool.mem 7).run_steps (fun f x => 100 * f + x) n).pc
          ≠ run_pc.returned)) := by
  cases h : sys_exec (fun f x => 100 * f + x) sys.init
      [sys_event.lock ⟨1, 10⟩ 7, sys_event.push 0, sys_event.run 7, sys_event.run 7] with
  | none =>
    have h2 : (sys_exec (fun f x => 100 * f + x) sys.init
      [sys_event.lock ⟨1, 10⟩ 7, sys_event.push 0, sys_event.run 7,
        sys_event.run 7]).isSome = true := by decide
    rw [h] at h2
    exact absurd h2 (by decide)
  | some s => exact ⟨s, rfl, loop_returns_only_on_null_task _ _ s h 7⟩

/-- C12 (counterexample): the call `run_async(NULL, 5)` on a fresh pool creates worker 7
and pushes the item `(NULL, 5)`; the loop of worker 7 dequeues it, takes it for the
poisoned pill and returns without a result, although no destructor has run (worker 7 is
still allocated and in the busy set). -/
theorem run_async_null_task_stops_worker :
    ∃ s, sys_exec (fun f x => 100 * f + x) sys.init
        [sys_event.lock ⟨NULL, 5⟩ 7, sys_event.push 0, sys_event.run 7, sys_event.run 7]
        = some s ∧
      s.calls = [(⟨NULL, 5⟩, 7)] ∧ (s.pool.mem 7).pc = run_pc.returned ∧
      (s.pool.mem 7).m_result = [] ∧ (s.pool.mem 7).m_data = [] ∧
      7 ∈ s.pool.allocated ∧ 7 ∈ s.pool.m_occupied_workers := by
  refine ⟨_, rfl, by decide, by decide, by decide, by decide, by decide, by decide⟩

/-! ## The number of workers after `n` submissions (C13) -/

theorem size_eq_card_allocated {p : worker_pool} (h : p.wf) : p.size = p.allocated.card := by
  obtain ⟨hd, hu⟩ := h
  rw [← hu, Finset.card_union_of_disjoint hd]
  rfl

theorem pool_exec_append (a b : List pool_op) : ∀ (p p1 : worker_pool),
    pool_exec p (a ++ b) = some p1 ↔ ∃ p2, pool_exec p a = some p2 ∧ pool_exec p2 b = some p1 := by
  induction a with
  | nil => intro p p1; simp [pool_exec]
  | cons op a ih =>
    intro p p1
    cases op with
    | run_async fresh =>
      simp only [List.cons_append, pool_exec]
      by_cases hf : fresh ∈ p.allocated
      · simp [hf]
      · simp only [hf, if_false]
        cases hr : p.run_async_locked fresh with
        | none => simp
        | some v => exact ih v.1 p1
    | notify w =>
      simp only [List.cons_append, pool_exec]
      by_cases hw : w ∈ p.allocated
      · simp only [hw, if_true]
        exact ih _ p1
      · simp [hw]

/-- No operation frees a worker, and only a submission can allocate one. -/
theorem pool_exec_allocated (ops : List pool_op) : ∀ {p p1 : worker_pool},
    pool_exec p ops = some p1 →
    p.allocated ⊆ p1.allocated ∧ p1.allocated.card ≤ p.allocated.card + submissions ops := by
  induction ops with
  | nil =>
    intro p p1 he
    simp only [pool_exec, Option.some.injEq] at he
    subst he
    exact ⟨Finset.Subset.refl _, by simp [submissions]⟩
  | cons op ops ih =>
    intro p p1 he
    cases op with
    | run_async fresh =>
      simp only [pool_exec] at he
      by_cases hf : fresh ∈ p.allocated
      · simp [hf] at he
      · simp only [hf, if_false] at he
        cases hr : p.run_async_locked fresh with
        | none => simp [hr] at he
        | some v =>
          obtain ⟨p2, w⟩ := v
          simp only [hr] at he
          obtain ⟨h1, h2⟩ := ih he
          have h3 : p.allocated ⊆ p2.allocated ∧ p2.allocated.card ≤ p.allocated.card + 1 := by
            by_cases hempty : p.m_empty_workers = ∅
            · rw [run_async_locked_of_empty fresh hempty] at hr
              simp only [Option.some.injEq, Prod.mk.injEq] at hr
              obtain ⟨rfl, rfl⟩ := hr
              exact ⟨Finset.subset_insert _ _, by simp [Finset.card_insert_of_not_mem hf]⟩
            · obtain ⟨v, _, hr2⟩ := run_async_locked_of_ne_empty fresh hempty
              rw [hr2] at hr
              simp only [Option.some.injEq, Prod.mk.injEq] at hr
              obtain ⟨rfl, rfl⟩ := hr
              exact ⟨Finset.Subset.refl _, Nat.le_succ _⟩
          refine ⟨h3.1.trans h1, ?_⟩
          simp only [submissions]
          omega
    | notify w =>
      simp only [pool_exec] at he
      by_cases hw : w ∈ p.allocated
      · simp only [hw, if_true] at he
        obtain ⟨h1, h2⟩ := ih he
        exact ⟨h1, by simpa [submissions, worker_pool.notify] using h2⟩
      · simp [hw] at he

/-- After a submission the pool has a worker. -/
theorem pool_exec_nonempty (ops : List pool_op) : ∀ {p p1 : worker_pool}, p.wf →
    pool_exec p ops = some p1 → 1 ≤ submissions ops → 1 ≤ p1.allocated.card := by
  induction ops with
  | nil => intro p p1 _ _ hn; simp [submissions] at hn
  | cons op ops ih =>
    intro p p1 hwf he hn
    cases op with
    | run_async fresh =>
      simp only [pool_exec] at he
      by_cases hf : fresh ∈ p.allocated
      · simp [hf] at he
      · simp only [hf, if_false] at he
        cases hr : p.run_async_locked fresh with
        | none => simp [hr] at he
        | some v =>
          obtain ⟨p2, w⟩ := v
          simp only [hr] at he
          have hwf2 : p2.wf := wf_run_async_locked hwf hr
          have hw : w ∈ p2.allocated := by
            rw [← hwf2.2]
            apply Finset.mem_union_right
            by_cases hempty : p.m_empty_workers = ∅
            · rw [run_async_locked_of_empty fresh hempty] at hr
              simp only [Option.some.injEq, Prod.mk.injEq] at hr
              obtain ⟨rfl, rfl⟩ := hr
              simp
            · obtain ⟨v, _, hr2⟩ := run_async_locked_of_ne_empty fresh hempty
              rw [hr2] at hr
              simp only [Option.some.injEq, Prod.mk.injEq] at hr
              obtain ⟨rfl, rfl⟩ := hr
              simp
          have hsub := (pool_exec_allocated ops he).1
          exact Finset.card_pos.2 ⟨w, hsub hw⟩
    | notify w =>
      simp only [pool_exec] at he
      by_cases hw : w ∈ p.allocated
      · simp only [hw, if_true] at he
        exact ih (wf_notify hwf hw) he (by simpa [submissions] using hn)
      · simp [hw] at he

/-- Submissions with no notification in between each create a worker. -/
theorem pool_exec_submissions_only (freshs : List Nat) : ∀ {p p1 : worker_pool},
    p.m_empty_workers = ∅ →
    pool_exec p (freshs.map pool_op.run_async) = some p1 →
    p1.m_empty_workers = ∅ ∧ p1.allocated.card = p.allocated.card + freshs.length := by
  induction freshs with
  | nil =>
    intro p p1 hempty he
    simp only [List.map_nil, pool_exec, Option.some.injEq] at he
    subst he
    exact ⟨hempty, rfl⟩
  | cons fresh freshs ih =>
    intro p p1 hempty he
    simp only [List.map_cons, pool_exec] at he
    by_cases hf : fresh ∈ p.allocated
    · simp [hf] at he
    · simp only [hf, if_false, run_async_locked_of_empty fresh hempty] at he
      obtain ⟨h1, h2⟩ := ih rfl he
      refine ⟨h1, ?_⟩
      rw [h2]
      simp only [Finset.card_insert_of_not_mem hf, List.length_cons]
      omega

theorem pool_exec_notify_only (ws : List Nat) : ∀ {p p1 : worker_pool},
    pool_exec p (ws.map pool_op.notify) = some p1 → p1.allocated = p.allocated := by
  induction ws with
  | nil =>
    intro p p1 he
    simp only [List.map_nil, pool_exec, Option.some.injEq] at he
    subst he
    rfl
  | cons w ws ih =>
    intro p p1 he
    simp only [List.map_cons, pool_exec] at he
    by_cases hw : w ∈ p.allocated
    · simp only [hw, if_true] at he
      exact (ih he).trans rfl
    · simp [hw] at he

theorem submissions_append (a b : List pool_op) :
    submissions (a ++ b) = submissions a + submissions b := by
  induction a with
  | nil => simp [submissions]
  | cons op a ih =>
    cases op
    · show submissions (a ++ b) + 1 = submissions a + 1 + submissions b
      omega
    · exact ih

theorem submissions_map_run_async (freshs : List Nat) :
    submissions (freshs.map pool_op.run_async) = freshs.length := by
  induction freshs with
  | nil => rfl
  | cons f fs ih => simp [submissions, ih]

theorem submissions_map_notify (ws : List Nat) :
    submissions (ws.map pool_op.notify) = 0 := by
  induction ws with
  | nil => rfl
  | cons f fs ih => simp [submissions, ih]

/-- C13: for every `n >= 1`, after `n` calls of `run_async` on a pool that had no
workers, interleaved in any way with idle notifications of its workers, the number of
workers in the pool (idle plus busy) is at least 1 and at most `n`; it is exactly `n`
when no worker reports idle between the submissions. -/
theorem workers_after_n_submissions (ops : List pool_op) (p : worker_pool)
    (h : pool_exec worker_pool.init ops = some p) (hn : 1 ≤ submissions ops) :
    1 ≤ p.size ∧ p.size ≤ submissions ops ∧
    (∀ freshs ws : List Nat, ops = freshs.map pool_op.run_async ++ ws.map pool_op.notify →
      p.size = submissions ops) := by
  have hwf : p.wf := wf_pool_exec ops wf_init h
  rw [size_eq_card_allocated hwf]
  refine ⟨pool_exec_nonempty ops wf_init h hn, ?_, ?_⟩
  · have := (pool_exec_allocated ops h).2
    simpa [worker_pool.init] using this
  · intro freshs ws hops
    subst hops
    obtain ⟨p2, h1, h2⟩ := (pool_exec_append _ _ _ _).1 h
    have h3 := (pool_exec_submissions_only freshs rfl h1).2
    rw [pool_exec_notify_only ws h2, h3, submissions_append, submissions_map_run_async,
      submissions_map_notify]
    simp [worker_pool.init]

theorem workers_after_n_submissions_witness :
    ∃ p, pool_exec worker_pool.init
        [pool_op.run_async 7, pool_op.notify 7, pool_op.run_async 8, pool_op.run_async 9]
        = some p ∧
      1 ≤ submissions
        [pool_op.run_async 7, pool_op.notify 7, pool_op.run_async 8, pool_op.run_async 9] ∧
      (1 ≤ p.size ∧
        p.size ≤ submissions
          [pool_op.run_async 7, pool_op.notify 7, pool_op.run_async 8, pool_op.run_async 9] ∧
        (∀ freshs ws : List Nat,
          [pool_op.run_async 7, pool_op.notify 7, pool_op.run_async 8, pool_op.run_async 9]
            = freshs.map pool_op.run_async ++ ws.map pool_op.notify →
          p.size = submissions
            [pool_op.run_async 7, pool_op.notify 7, pool_op.run_async 8,
              pool_op.run_async 9])) := by
  cases h : pool_exec worker_pool.init
      [pool_op.run_async 7, pool_op.notify 7, pool_op.run_async 8, pool_op.run_async 9] with
  | none =>
    have h2 : (pool_exec worker_pool.init
      [pool_op.run_async 7, pool_op.notify 7, pool_op.run_async 8,
        pool_op.run_async 9]).isSome = true := by decide
    rw [h] at h2
    exact absurd h2 (by decide)
  | some p => exact ⟨p, rfl, by decide, workers_after_n_submissions _ p h (by decide)⟩

/-! ## Destruction of the pool (C11) -/

/-- C11, evaluated at the failing input.  Two calls of `run_async` on the fresh pool make
the workers 7 and 8, both busy, each with one task queued; worker 8 dequeues and
executes its task (state `s0`: the idle set is empty, the busy set is `{7, 8}`).  Then
the pool is destroyed.  The destructor finds the idle set empty, takes 7 from the busy
set, pushes the pill to it and waits in `pthread_join`; meanwhile worker 8 stores its
result, finds its queue empty and calls `notify(8)`, which moves 8 from the busy set to
the idle set; worker 7 runs its task, takes the pill and returns; the destructor
finishes with 7 and increments its iterator, which is then at the end of the busy set
(state `s1`).  The destructor has returned, and worker 8, which was in the busy set
when the destruction began, got no pill, was not joined and is not freed: it is
destroyed zero times, its thread still waiting.  With the other schedule from `s0`, in
which worker 8 does not run before it is joined, both workers are destroyed once (state
`s2`). -/
theorem pool_destructor_skips_notifying_worker :
    ∃ s0 s1 s2,
      sys_exec (fun f x => 100 * f + x) sys.init
        [sys_event.lock ⟨1, 10⟩ 7, sys_event.push 0, sys_event.lock ⟨2, 20⟩ 8,
          sys_event.push 0, sys_event.run 8, sys_event.run 8] = some s0 ∧
      s0.pool.m_empty_workers = ∅ ∧ s0.pool.m_occupied_workers = {7, 8} ∧
      s0.pool.allocated = {7, 8} ∧
      dtor_exec (fun f x => 100 * f + x) (fun _ => 0)
        { pool := s0.pool, pc := dtor_pc.start, acts := [] }
        [dtor_event.dtor, dtor_event.dtor, dtor_event.dtor, dtor_event.run 8,
          dtor_event.run 8, dtor_event.run 7, dtor_event.run 7, dtor_event.run 7,
          dtor_event.run 7, dtor_event.run 7, dtor_event.dtor, dtor_event.dtor] = some s1 ∧
      s1.pc = dtor_pc.done ∧
      s1.acts = [dtor_action.push_poison 7, dtor_action.join 7, dtor_action.mutex_destroy 7,
        dtor_action.cond_destroy_ready 7, dtor_action.cond_destroy_completed 7,
        dtor_action.pool_mutex_destroy] ∧
      s1.acts.count (dtor_action.push_poison 8) = 0 ∧
      s1.acts.count (dtor_action.join 8) = 0 ∧
      8 ∈ s1.pool.allocated ∧ 8 ∈ s1.pool.m_empty_workers ∧
      (s1.pool.mem 8).pc = run_pc.cond_wait ∧ (s1.pool.mem 8).m_data = [] ∧
      (s1.pool.mem 8).m_result = [220] ∧
      dtor_exec (fun f x => 100 * f + x) (fun _ => 0)
        { pool := s0.pool, pc := dtor_pc.start, acts := [] }
        [dtor_event.dtor, dtor_event.dtor, dtor_event.dtor, dtor_event.run 7,
          dtor_event.run 7, dtor_event.run 7, dtor_event.run 7, dtor_event.run 7,
          dtor_event.dtor, dtor_event.dtor, dtor_event.run 8, dtor_event.run 8,
          dtor_event.run 8, dtor_event.dtor, dtor_event.dtor] = some s2 ∧
      s2.pc = dtor_pc.done ∧
      s2.acts = [dtor_action.push_poison 7, dtor_action.join 7, dtor_action.mutex_destroy 7,
        dtor_action.cond_destroy_ready 7, dtor_action.cond_destroy_completed 7,
        dtor_action.push_poison 8, dtor_action.join 8, dtor_action.mutex_destroy 8,
        dtor_action.cond_destroy_ready 8, dtor_action.cond_destroy_completed 8,
        dtor_action.pool_mutex_destroy] ∧
      s2.pool.allocated = ∅ := by
  refine ⟨_, _, _, rfl, by decide, by decide, by decide, rfl, by decide, by decide, by decide,
    by decide, by decide, by decide, by decide, by decide, by decide, rfl, by decide, by decide,
    by decide⟩

/-! ## The module classes (C14) -/

/-- C14: the enumeration `module_class` is closed with exactly seven variants, NONE,
ROOT, COMPRESS, DATA, SENDER, TX, AUDIO, declared in that order, with pairwise distinct
values: NONE has the value 0 and the others the consecutive values 1 to 6. -/
theorem module_class_seven_variants :
    (∀ c : module_class, c ∈ module_class.enumerators) ∧
    module_class.enumerators.length = 7 ∧ module_class.enumerators.Nodup ∧
    module_class.enumerators =
      [module_class.MODULE_CLASS_NONE, module_class.MODULE_CLASS_ROOT,
        module_class.MODULE_CLASS_COMPRESS, module_class.MODULE_CLASS_DATA,
        module_class.MODULE_CLASS_SENDER, module_class.MODULE_CLASS_TX,
        module_class.MODULE_CLASS_AUDIO] ∧
    module_class.enumerators.map module_class.val = [0, 1, 2, 3, 4, 5, 6] ∧
    (∀ c d : module_class, c.val = d.val → c = d) ∧
    (∀ c : module_class, c.val = 0 ↔ c = module_class.MODULE_CLASS_NONE) := by
  refine ⟨?_, by decide, by decide, rfl, by decide, ?_, ?_⟩
  · intro c; cases c <;> decide
  · intro c d; cases c <;> cases d <;> decide
  · intro c; cases c <;> decide

/-! ## Registration of modules (C15) -/

theorem module_link_parent (h : Nat → module) (node parent x : Nat) :
    (module_link h node parent x).parent = if x = node then parent else (h x).parent := by
  simp only [module_link, module_set]
  split_ifs <;> simp_all

theorem module_link_childs (h : Nat → module) (node parent x : Nat) :
    (module_link h node parent x).childs
      = if x = parent then (h parent).childs ++ [node] else (h x).childs := by
  simp only [module_link, module_set]
  split_ifs <;> simp_all

theorem module_register_eq {h : Nat → module} {node parent : Nat} (hn : node ≠ NULL)
    (hm : (h node).magic = MODULE_MAGIC) (hp : (h node).parent = NULL)
    (hpn : parent ≠ NULL) (hpm : (h parent).magic = MODULE_MAGIC) :
    module_register h node parent = some (module_link h node parent) := by
  simp only [module_register, hn, hm, hp, hpn, hpm, ne_eq, not_true_eq_false, if_false]

/-- A successful registration was of a node without a parent, and either the parent is
null and the tree is unchanged, or the node was linked under the parent. -/
theorem module_register_some {h h1 : Nat → module} {node parent : Nat}
    (hr : module_register h node parent = some h1) :
    (h node).parent = NULL ∧
      ((parent = NULL ∧ h1 = h) ∨ (parent ≠ NULL ∧ h1 = module_link h node parent)) := by
  unfold module_register at hr
  split at hr
  · simp at hr
  · split at hr
    · simp at hr
    · split at hr
      · simp at hr
      · rename_i hp
        simp only [ne_eq, not_not] at hp
        split at hr
        · rename_i hpn
          simp only [Option.some.injEq] at hr
          exact ⟨hp, Or.inl ⟨hpn, hr.symm⟩⟩
        · rename_i hpn
          split at hr
          · simp at hr
          · simp only [Option.some.injEq] at hr
            exact ⟨hp, Or.inr ⟨hpn, hr.symm⟩⟩

theorem tree_consistent_link {h : Nat → module} (hc : tree_consistent h) {node parent : Nat}
    (hp : (h node).parent = NULL) (hpn : parent ≠ NULL) :
    tree_consistent (module_link h node parent) := by
  obtain ⟨h1, h2⟩ := hc
  have hnot : node ∉ (h parent).childs := by
    intro hmem
    have := ((h1 node parent hpn).1).2 hmem
    rw [hp] at this
    exact hpn this.symm
  constructor
  · intro n p hpne
    rw [module_link_parent, module_link_childs]
    obtain ⟨h3, h4⟩ := h1 n p hpne
    by_cases hn : n = node
    · subst hn
      by_cases hpp : p = parent
      · subst hpp
        simp only [if_true, List.mem_append, List.mem_singleton, or_true, true_iff,
          List.count_append]
        rw [List.count_eq_zero_of_not_mem hnot]
        simp
      · simp only [hpp, if_false, if_true]
        refine ⟨?_, h4⟩
        constructor
        · intro h5; exact absurd h5.symm hpp
        · intro h5
          have := h3.2 h5
          rw [hp] at this
          exact absurd this.symm hpne
    · by_cases hpp : p = parent
      · subst hpp
        simp only [hn, if_false, if_true, List.mem_append, List.mem_singleton, or_false,
          List.count_append]
        refine ⟨h3, ?_⟩
        have : List.count n [node] = 0 := by
          apply List.count_eq_zero_of_not_mem
          simp [hn]
        omega
      · simp only [hn, hpp, if_false]
        exact ⟨h3, h4⟩
  · intro n
    rw [module_link_childs]
    have hne : ¬ NULL = parent := fun h => hpn h.symm
    simp only [hne, if_false]
    exact h2 n

theorem tree_consistent_register_all (rs : List (Nat × Nat)) : ∀ {h h1 : Nat → module},
    tree_consistent h → register_all h rs = some h1 → tree_consistent h1 := by
  induction rs with
  | nil =>
    intro h h1 hc hr
    simp only [register_all, Option.some.injEq] at hr
    exact hr ▸ hc
  | cons r rs ih =>
    intro h h1 hc hr
    obtain ⟨node, parent⟩ := r
    simp only [register_all] at hr
    cases hm : module_register h node parent with
    | none => simp [hm] at hr
    | some h2 =>
      simp only [hm] at hr
      obtain ⟨hp, hcase | hcase⟩ := module_register_some hm
      · exact ih (hcase.2 ▸ hc) hr
      · exact ih (hcase.2 ▸ tree_consistent_link hc hp hcase.1) hr

/-- C15: after any sequence of registrations on nodes that start without parent and
children, parent links and child collections agree (a node has the module `p` as its
parent exactly if it occurs in the child collection of `p`, where it occurs at most
once).  In such a tree `module_register(node, parent)` with a non-null parent, on valid
nodes of which `node` is not yet registered, appends `node` to the child collection of
`parent`, sets `node.parent = parent`, changes no other link or collection and keeps the
agreement; with a null parent it leaves the tree as it is, and the node has no parent and
is in no child collection. -/
theorem register_keeps_tree_consistent (h0 : Nat → module) (rs : List (Nat × Nat))
    (h : Nat → module) (hfresh : ∀ a, (h0 a).parent = NULL ∧ (h0 a).childs = [])
    (hr : register_all h0 rs = some h) :
    tree_consistent h ∧
    (∀ node parent, node ≠ NULL → (h node).magic = MODULE_MAGIC → (h node).parent = NULL →
      parent ≠ NULL → (h parent).magic = MODULE_MAGIC →
      ∃ h1, module_register h node parent = some h1 ∧
        (h1 parent).childs = (h parent).childs ++ [node] ∧ (h1 node).parent = parent ∧
        (∀ x, x ≠ node → (h1 x).parent = (h x).parent) ∧
        (∀ x, x ≠ parent → (h1 x).childs = (h x).childs) ∧ tree_consistent h1) ∧
    (∀ node, node ≠ NULL → (h node).magic = MODULE_MAGIC → (h node).parent = NULL →
      module_register h node NULL = some h ∧ ∀ p, node ∉ (h p).childs) := by
  have hc0 : tree_consistent h0 := by
    refine ⟨fun n p hp => ?_, fun n => by simp [(hfresh NULL).2]⟩
    simp only [(hfresh n).1, (hfresh p).2, List.not_mem_nil, iff_false, List.count_nil,
      Nat.zero_le, and_true]
    exact fun h => hp h.symm
  have hc : tree_consistent h := tree_consistent_register_all rs hc0 hr
  refine ⟨hc, ?_, ?_⟩
  · intro node parent hn hm hp hpn hpm
    refine ⟨module_link h node parent, module_register_eq hn hm hp hpn hpm, ?_, ?_, ?_, ?_,
      tree_consistent_link hc hp hpn⟩
    · rw [module_link_childs]; simp
    · rw [module_link_parent]; simp
    · intro x hx; rw [module_link_parent]; simp [hx]
    · intro x hx; rw [module_link_childs]; simp [hx]
  · intro node hn hm hp
    refine ⟨by simp [module_register, hn, hm, hp], ?_⟩
    intro p hmem
    by_cases hpn : p = NULL
    · subst hpn; exact hc.2 node hmem
    · have := ((hc.1 node p hpn).1).2 hmem
      rw [hp] at this
      exact hpn this.symm

theorem register_keeps_tree_consistent_witness :
    (∀ a, ((fun _ => ⟨MODULE_MAGIC, module_class.MODULE_CLASS_NONE, 0, [], 0, 0, 0⟩ :
        Nat → module) a).parent = NULL ∧
      ((fun _ => ⟨MODULE_MAGIC, module_class.MODULE_CLASS_NONE, 0, [], 0, 0, 0⟩ :
        Nat → module) a).childs = []) ∧
    ∃ h, register_all (fun _ => ⟨MODULE_MAGIC, module_class.MODULE_CLASS_NONE, 0, [], 0, 0, 0⟩)
        [(1, 0), (2, 1), (3, 2), (4, 1)] = some h ∧
      (h 1).childs = [2, 4] ∧ (h 2).childs = [3] ∧ (h 3).parent = 2 ∧ (h 4).parent = 1 ∧
      tree_consistent h := by
  refine ⟨fun a => ⟨rfl, rfl⟩, ?_⟩
  cases hr : register_all (fun _ => ⟨MODULE_MAGIC, module_class.MODULE_CLASS_NONE, 0, [], 0, 0, 0⟩)
      [(1, 0), (2, 1), (3, 2), (4, 1)] with
  | none =>
    have h2 : (register_all
      (fun _ => ⟨MODULE_MAGIC, module_class.MODULE_CLASS_NONE, 0, [], 0, 0, 0⟩)
      [(1, 0), (2, 1), (3, 2), (4, 1)]).isSome = true := by decide
    rw [hr] at h2
    exact absurd h2 (by decide)
  | some h =>
    have hev : (register_all
      (fun _ => ⟨MODULE_MAGIC, module_class.MODULE_CLASS_NONE, 0, [], 0, 0, 0⟩)
      [(1, 0), (2, 1), (3, 2), (4, 1)]).map
        (fun h => ((h 1).childs, (h 2).childs, (h 3).parent, (h 4).parent))
        = some ([2, 4], [3], 2, 1) := by decide
    rw [hr] at hev
    simp only [Option.map_some', Option.some.injEq, Prod.mk.injEq] at hev
    exact ⟨h, rfl, hev.1, hev.2.1, hev.2.2.1, hev.2.2.2,
      (register_keeps_tree_consistent _ _ h (fun a => ⟨rfl, rfl⟩) hr).1⟩

/-! ## Teardown of a module (C16) -/

theorem erase_eq_filter_of_count_le_one (l : List Nat) (a : Nat) (h : l.count a ≤ 1) :
    l.erase a = l.filter (fun x => x ≠ a) := by
  induction l with
  | nil => rfl
  | cons b l ih =>
    by_cases hb : b = a
    · subst hb
      have h0 : l.count b = 0 := by
        simp only [List.count_cons_self] at h
        omega
      have hnot : b ∉ l := List.count_eq_zero.1 h0
      simp only [List.erase_cons_head, ne_eq, decide_not, List.filter_cons, decide_True,
        Bool.not_true, Bool.false_eq_true, if_false]
      symm
      rw [List.filter_eq_self]
      intro x hx
      simp only [Bool.not_eq_true', decide_eq_false_iff_not]
      exact fun hxb => hnot (hxb ▸ hx)
    · have h1 : l.count a ≤ 1 := by
        simpa [List.count_cons, hb] using h
      have hb2 : (b == a) = false := by simp [hb]
      simp only [List.erase_cons, hb2, ne_eq, decide_not, List.filter_cons, hb, decide_False,
        Bool.not_false, if_true, Bool.false_eq_true, if_false]
      rw [ih h1]
      simp

theorem module_unlink_childs (h : Nat → module) (node x : Nat) :
    (module_unlink h node x).childs
      = if x = (h node).parent ∧ (h node).parent ≠ NULL then (h x).childs.erase node
        else (h x).childs := by
  by_cases hp : (h node).parent = NULL
  · by_cases hx : x = node <;> simp [module_unlink, module_set, hp, hx]
  · by_cases hx : x = node
    · subst hx
      by_cases hx2 : x = (h x).parent
      · have hxn : ¬ x = NULL := fun e => hp (hx2 ▸ e)
        simp [module_unlink, module_set, ← hx2, hxn]
      · have hx3 : ¬ (h x).parent = x := fun e => hx2 e.symm
        simp [module_unlink, module_set, hp, hx2, hx3]
    · by_cases hx2 : x = (h node).parent
      · subst hx2
        simp [module_unlink, module_set, hp, hx]
      · simp [module_unlink, module_set, hp, hx, hx2]

theorem module_unlink_parent (h : Nat → module) (node x : Nat) :
    (module_unlink h node x).parent = (h x).parent := by
  by_cases hp : (h node).parent = NULL
  · by_cases hx : x = node <;> simp [module_unlink, module_set, hp, hx]
  · by_cases hx : x = node
    · subst hx
      by_cases hx2 : x = (h x).parent
      · have hxn : ¬ x = NULL := fun e => hp (hx2 ▸ e)
        simp [module_unlink, module_set, ← hx2, hxn]
      · have hx3 : ¬ (h x).parent = x := fun e => hx2 e.symm
        simp [module_unlink, module_set, hp, hx2, hx3]
    · by_cases hx2 : x = (h node).parent
      · subst hx2
        simp [module_unlink, module_set, hp, hx]
      · simp [module_unlink, module_set, hp, hx, hx2]

theorem module_unlink_magic (h : Nat → module) (node : Nat) :
    (module_unlink h node node).magic = 0 := by
  simp [module_unlink, module_set]

/-- C16: `module_done(node)` on a node with an invalid identity tag aborts (and so leaves
the tree as it is).  On a node with a valid tag it returns, having called the deleter of
the node exactly once, on the node; if the node has a parent, in whose child collection
it occurs at most once, the child collection of the parent is afterwards the old one
without `node`, the other children in their old order; no other child collection and no
parent link is changed. -/
theorem module_done_removes_node (h : Nat → module) (node : Nat) :
    ((h node).magic ≠ MODULE_MAGIC → module_done h node = none) ∧
    ((h node).magic = MODULE_MAGIC →
      ∃ h1 calls, module_done h node = some (h1, calls) ∧
        calls = [((h node).deleter, node)] ∧
        ((h node).parent ≠ NULL → (h ((h node).parent)).childs.count node ≤ 1 →
          (h1 ((h node).parent)).childs
            = (h ((h node).parent)).childs.filter (fun x => x ≠ node) ∧
          node ∉ (h1 ((h node).parent)).childs) ∧
        (∀ x, x ≠ (h node).parent → (h1 x).childs = (h x).childs) ∧
        (∀ x, (h1 x).parent = (h x).parent) ∧
        (h1 node).magic ≠ MODULE_MAGIC) := by
  constructor
  · intro hm
    simp [module_done, hm]
  · intro hm
    refine ⟨module_unlink h node, _, by simp [module_done, hm], rfl, ?_, ?_, ?_, ?_⟩
    · intro hp hcount
      rw [module_unlink_childs]
      simp only [hp, ne_eq, not_false_eq_true, and_self, if_true]
      rw [erase_eq_filter_of_count_le_one _ _ hcount]
      exact ⟨rfl, by simp [List.mem_filter]⟩
    · intro x hx
      rw [module_unlink_childs]
      simp [hx]
    · intro x
      exact module_unlink_parent h node x
    · rw [module_unlink_magic]
      decide

theorem module_done_removes_node_witness :
    (demo_tree 3).magic = MODULE_MAGIC ∧
    ∃ h1 calls, module_done demo_tree 3 = some (h1, calls) ∧
      calls = [((demo_tree 3).deleter, 3)] ∧
      ((demo_tree 3).parent ≠ NULL → (demo_tree ((demo_tree 3).parent)).childs.count 3 ≤ 1 →
        (h1 ((demo_tree 3).parent)).childs
          = (demo_tree ((demo_tree 3).parent)).childs.filter (fun x => x ≠ 3) ∧
        3 ∉ (h1 ((demo_tree 3).parent)).childs) ∧
      (∀ x, x ≠ (demo_tree 3).parent → (h1 x).childs = (demo_tree x).childs) ∧
      (∀ x, (h1 x).parent = (demo_tree x).parent) ∧
      (h1 3).magic ≠ MODULE_MAGIC :=
  ⟨by decide, (module_done_removes_node demo_tree 3).2 (by decide)⟩

/-! ## Initialisation of a module (C18) -/

/-- C18 (as the code has it): `module_init_default` takes the node only; it never fails
and leaves the node with the identity tag `MODULE_MAGIC`, an empty child collection, a
null parent, the default deleter and message callback, and a class fixed by the
implementation, whatever class the caller has in mind; no other node is touched. -/
theorem module_init_default_state (cls0 : module_class) (h : Nat → module) (node : Nat) :
    (module_init_default cls0 h node node).magic = MODULE_MAGIC ∧
    (module_init_default cls0 h node node).cls = cls0 ∧
    (module_init_default cls0 h node node).childs = [] ∧
    (module_init_default cls0 h node node).parent = NULL ∧
    (module_init_default cls0 h node node).deleter = default_deleter ∧
    (module_init_default cls0 h node node).msg_callback = default_callback ∧
    (∀ x, x ≠ node → module_init_default cls0 h node x = h x) := by
  refine ⟨?_, ?_, ?_, ?_, ?_, ?_, ?_⟩ <;> simp [module_init_default, module_set]
  intro x hx hx2
  exact absurd hx2 hx

/-- C18 (counterexample): whatever class the implementation of `module_init_default`
stores, the class of the initialised node does not equal every class a caller may want
to pass: the function has no class parameter. -/
theorem module_init_default_ignores_class :
    ¬ ∃ cls0, ∀ c : module_class,
      (module_init_default cls0
        (fun _ => ⟨0, module_class.MODULE_CLASS_NONE, 0, [], 0, 0, 0⟩) 5 5).cls = c := by
  rintro ⟨cls0, h⟩
  have h1 := h module_class.MODULE_CLASS_ROOT
  have h2 := h module_class.MODULE_CLASS_AUDIO
  rw [h1] at h2
  exact absurd h2 (by decide)

/-! ## Message paths (C17) -/

theorem bounded_append_take (buflen : Nat) (x s : List Char) :
    bounded_append buflen (x.take (buflen - 1)) s = (x ++ s).take (buflen - 1) := by
  unfold bounded_append
  rw [List.take_append_eq_append_take, List.length_take]
  congr 2
  omega

theorem append_message_path_take (name : module_class → List Char) (delim : Char)
    (buflen : Nat) (cs : List module_class) : ∀ (first : Bool) (x : List Char),
    append_message_path name delim buflen cs first (x.take (buflen - 1))
      = (x ++ render_path name delim cs first).take (buflen - 1) := by
  induction cs with
  | nil => intro first x; simp [append_message_path, render_path]
  | cons c cs ih =>
    intro first x
    by_cases hc : c = module_class.MODULE_CLASS_NONE
    · simp [append_message_path, render_path, hc]
    · simp only [append_message_path, render_path, hc, if_false]
      cases first with
      | true =>
        simp only [if_true, List.nil_append]
        rw [bounded_append_take, ih, List.append_assoc]
      | false =>
        simp only [Bool.false_eq_true, if_false]
        rw [bounded_append_take, bounded_append_take, ih]
        simp only [List.append_assoc]

/-- C17: for the sequence [ROOT, COMPRESS, SENDER, NONE] and every `buflen >= 1`,
`make_message_path` leaves in the buffer the first `buflen - 1` characters of the full
rendering, which is the labels of ROOT, COMPRESS and SENDER in that order separated by
the delimiter: with the terminator at most `buflen` bytes are written, the text is a
prefix of the full rendering, and it is the full rendering when the buffer is large
enough. -/
theorem make_message_path_root_compress_sender (name : module_class → List Char)
    (delim : Char) (buflen : Nat) (hb : 1 ≤ buflen) :
    make_message_path name delim buflen
        [module_class.MODULE_CLASS_ROOT, module_class.MODULE_CLASS_COMPRESS,
          module_class.MODULE_CLASS_SENDER, module_class.MODULE_CLASS_NONE]
      = (name module_class.MODULE_CLASS_ROOT ++ [delim] ++
          name module_class.MODULE_CLASS_COMPRESS ++ [delim] ++
          name module_class.MODULE_CLASS_SENDER).take (buflen - 1) ∧
    (make_message_path name delim buflen
        [module_class.MODULE_CLASS_ROOT, module_class.MODULE_CLASS_COMPRESS,
          module_class.MODULE_CLASS_SENDER, module_class.MODULE_CLASS_NONE]).length + 1
      ≤ buflen ∧
    (make_message_path name delim buflen
        [module_class.MODULE_CLASS_ROOT, module_class.MODULE_CLASS_COMPRESS,
          module_class.MODULE_CLASS_SENDER, module_class.MODULE_CLASS_NONE] <+:
      name module_class.MODULE_CLASS_ROOT ++ [delim] ++
        name module_class.MODULE_CLASS_COMPRESS ++ [delim] ++
        name module_class.MODULE_CLASS_SENDER) ∧
    ((name module_class.MODULE_CLASS_ROOT ++ [delim] ++
        name module_class.MODULE_CLASS_COMPRESS ++ [delim] ++
        name module_class.MODULE_CLASS_SENDER).length + 1 ≤ buflen →
      make_message_path name delim buflen
        [module_class.MODULE_CLASS_ROOT, module_class.MODULE_CLASS_COMPRESS,
          module_class.MODULE_CLASS_SENDER, module_class.MODULE_CLASS_NONE]
      = name module_class.MODULE_CLASS_ROOT ++ [delim] ++
          name module_class.MODULE_CLASS_COMPRESS ++ [delim] ++
          name module_class.MODULE_CLASS_SENDER) := by
  have hfull : make_message_path name delim buflen
        [module_class.MODULE_CLASS_ROOT, module_class.MODULE_CLASS_COMPRESS,
          module_class.MODULE_CLASS_SENDER, module_class.MODULE_CLASS_NONE]
      = (name module_class.MODULE_CLASS_ROOT ++ [delim] ++
          name module_class.MODULE_CLASS_COMPRESS ++ [delim] ++
          name module_class.MODULE_CLASS_SENDER).take (buflen - 1) := by
    have h := append_message_path_take name delim buflen
      [module_class.MODULE_CLASS_ROOT, module_class.MODULE_CLASS_COMPRESS,
        module_class.MODULE_CLASS_SENDER, module_class.MODULE_CLASS_NONE] true []
    simp only [List.take_nil, List.nil_append] at h
    rw [make_message_path, h]
    simp [render_path]
  rw [hfull]
  refine ⟨rfl, ?_, List.take_prefix _ _, ?_⟩
  · rw [List.length_take]
    omega
  · intro hlen
    exact List.take_of_length_le (by omega)

theorem make_message_path_root_compress_sender_witness :
    1 ≤ 10 ∧
    make_message_path demo_class_name '.' 10
        [module_class.MODULE_CLASS_ROOT, module_class.MODULE_CLASS_COMPRESS,
          module_class.MODULE_CLASS_SENDER, module_class.MODULE_CLASS_NONE]
      = ['r', 'o', 'o', 't', '.', 'c', 'o', 'm', 'p'] ∧
    (make_message_path demo_class_name '.' 10
        [module_class.MODULE_CLASS_ROOT, module_class.MODULE_CLASS_COMPRESS,
          module_class.MODULE_CLASS_SENDER, module_class.MODULE_CLASS_NONE]).length + 1
      ≤ 10 :=
  ⟨by decide, by decide,
    (make_message_path_root_compress_sender demo_class_name '.' 10 (by decide)).2.1⟩

/-! ## Lock ownership in the execution loop (C20) -/

theorem locks_at_event (call : task_t → Nat → Nat) (self : Nat) (s : run_state)
    (e : run_event) (h : (s.holds_m_lock, s.holds_pool_lock) = locks_at s.line) :
    ((run_event_step call self s e).holds_m_lock,
      (run_event_step call self s e).holds_pool_lock)
      = locks_at (run_event_step call self s e).line := by
  obtain ⟨line, q, res, d, r, hm, hp, idle, busy⟩ := s
  simp only at h
  cases e with
  | stmt =>
    cases line <;> simp only [locks_at, Prod.mk.injEq] at h <;> obtain ⟨rfl, rfl⟩ := h <;>
      simp only [run_event_step, run_stmt] <;>
      first
        | rfl
        | (split <;> rfl)
  | other_push d1 =>
    simp only [run_event_step]
    split <;> exact h
  | other_pop =>
    simp only [run_event_step]
    split <;> exact h
  | other_pool i b =>
    simp only [run_event_step]
    split <;> exact h

theorem locks_at_trace (call : task_t → Nat → Nat) (self : Nat) (evs : List run_event) :
    ∀ s : run_state, (s.holds_m_lock, s.holds_pool_lock) = locks_at s.line →
      ((run_trace call self s evs).holds_m_lock, (run_trace call self s evs).holds_pool_lock)
        = locks_at (run_trace call self s evs).line := by
  induction evs with
  | nil => intro s h; exact h
  | cons e es ih => intro s h; exact ih _ (locks_at_event call self s e h)

/-- C20: with lock ownership as explicit state, in every state the thread of a worker
reaches from its start, whatever other threads do in between: when the thread is about
to invoke a task function (line 136) it owns neither the lock of the worker nor the lock
of the pool; it owns the lock of the worker only inside the two critical sections in
which the pending queue is tested and dequeued (lines 123-129, with the idle
notification and the call of `pthread_cond_wait`) and the result is appended and
signalled (lines 139-141); and it owns the lock of the pool only inside `notify`. -/
theorem no_lock_held_while_task_runs (call : task_t → Nat → Nat) (self : Nat)
    (idle busy : Finset Nat) (junk : task_data) (junk_res : Nat) (evs : List run_event) :
    ((run_trace call self (run_state.init idle busy junk junk_res) evs).line = run_line.l136 →
      (run_trace call self (run_state.init idle busy junk junk_res) evs).holds_m_lock = false ∧
      (run_trace call self (run_state.init idle busy junk junk_res) evs).holds_pool_lock
        = false) ∧
    ((run_trace call self (run_state.init idle busy junk junk_res) evs).holds_m_lock = true →
      (run_trace call self (run_state.init idle busy junk junk_res) evs).line ∈
        [run_line.l123, run_line.l124, run_line.l186, run_line.l187, run_line.l188,
          run_line.l189, run_line.l125, run_line.l127, run_line.l128, run_line.l129,
          run_line.l139, run_line.l140, run_line.l141]) ∧
    ((run_trace call self (run_state.init idle busy junk junk_res) evs).holds_pool_lock
        = true →
      (run_trace call self (run_state.init idle busy junk junk_res) evs).line ∈
        [run_line.l187, run_line.l188, run_line.l189]) := by
  have h := locks_at_trace call self evs (run_state.init idle busy junk junk_res) rfl
  generalize run_trace call self (run_state.init idle busy junk junk_res) evs = s at h
  obtain ⟨line, q, res, d, r, hm, hp, i, b⟩ := s
  simp only at h ⊢
  cases line <;> simp only [locks_at, Prod.mk.injEq] at h <;> obtain ⟨rfl, rfl⟩ := h <;>
    simp

/-! ## The codec table -/

theorem scan_eq_none_iff (f : Nat) (l : List codec_info_t) :
    get_codec_from_fcc.scan f l = none ↔ ∀ e ∈ l, e.fcc ≠ f := by
  induction l with
  | nil => simp [get_codec_from_fcc.scan]
  | cons e rest ih =>
    by_cases h : f = e.fcc
    · simp [get_codec_from_fcc.scan, h]
    · simp only [get_codec_from_fcc.scan, h, if_false, ih, List.mem_cons, forall_eq_or_imp]
      exact ⟨fun h1 => ⟨fun h2 => h h2.symm, h1⟩, fun h1 => h1.2⟩

theorem aliases_eq_none_iff (f : Nat) (l : List alternate_fourcc)
    (hl : ∀ a ∈ l, get_codec_from_fcc.scan a.primary_fcc codec_info ≠ none) :
    get_codec_from_fcc.aliases f l = none ↔ ∀ a ∈ l, a.alias_ ≠ f := by
  induction l with
  | nil => simp [get_codec_from_fcc.aliases]
  | cons a rest ih =>
    have hrest : ∀ a ∈ rest, get_codec_from_fcc.scan a.primary_fcc codec_info ≠ none :=
      fun b hb => hl b (List.mem_cons_of_mem _ hb)
    have ha := hl a (List.mem_cons_self _ _)
    by_cases h : f = a.alias_
    · cases hs : get_codec_from_fcc.scan a.primary_fcc codec_info with
      | none => exact absurd hs ha
      | some c => simp [get_codec_from_fcc.aliases, h, hs]
    · simp only [get_codec_from_fcc.aliases, h, if_false, ih hrest, List.mem_cons,
        forall_eq_or_imp]
      exact ⟨fun h1 => ⟨fun h2 => h h2.symm, h1⟩, fun h1 => h1.2⟩

theorem aliases_primary_listed :
    ∀ a ∈ fourcc_aliases, get_codec_from_fcc.scan a.primary_fcc codec_info ≠ none := by
  decide

/-- The smallest multiple of `h` that is at least `w`, for `h ≥ 1` and `w ≥ 0`. -/
theorem round_up_multiple (w h : Int) (hw : 0 ≤ w) (hh : 1 ≤ h) :
    w ≤ Int.tdiv (w + h - 1) h * h ∧ h ∣ Int.tdiv (w + h - 1) h * h ∧
      ∀ m, w ≤ m → h ∣ m → Int.tdiv (w + h - 1) h * h ≤ m := by
  have hnn : 0 ≤ w + h - 1 := by omega
  have hdiv : Int.tdiv (w + h - 1) h = (w + h - 1) / h := Int.tdiv_eq_ediv hnn (by omega)
  rw [hdiv]
  have hpos : 0 < h := by omega
  have h1 := Int.emod_add_ediv (w + h - 1) h
  have h2 := Int.emod_nonneg (w + h - 1) (by omega : h ≠ 0)
  have h3 := Int.emod_lt_of_pos (w + h - 1) hpos
  have h4 : h * ((w + h - 1) / h) = (w + h - 1) / h * h := Int.mul_comm _ _
  refine ⟨by omega, Dvd.intro_left _ rfl, ?_⟩
  rintro m hm ⟨q, rfl⟩
  rw [Int.mul_comm ((w + h - 1) / h) h]
  apply Int.mul_le_mul_of_nonneg_left _ (by omega)
  have h5 : (w + h - 1) / h < q + 1 := by
    apply Int.ediv_lt_of_lt_mul hpos
    have : (q + 1) * h = h * q + h := by ring
    omega
  omega

/-- C21, evaluated at the failing inputs: the rows of JPEG and RAW have `h_align` 0, and
for them `get_haligned` divides by zero, whatever the width (the function has no result);
for the thirteen other codecs, and a width `w ≥ 0` whose sum with the alignment does not
overflow an `int`, it returns the smallest multiple of the alignment that is at least
`w`. -/
theorem get_haligned_divides_by_zero :
    get_halign codec_t.JPEG = 0 ∧ get_halign codec_t.RAW = 0 ∧
    (∀ w : Int, get_haligned w codec_t.JPEG = none ∧ get_haligned w codec_t.RAW = none) ∧
    (∀ (c : codec_t) (w : Int), c ≠ codec_t.JPEG → c ≠ codec_t.RAW → 0 ≤ w →
      w + get_halign c ≤ INT_MAX →
      ∃ r, get_haligned w c = some r ∧ w ≤ r ∧ get_halign c ∣ r ∧
        ∀ m, w ≤ m → get_halign c ∣ m → r ≤ m) := by
  refine ⟨by decide, by decide, fun w => ⟨?_, ?_⟩, ?_⟩
  · have h : get_halign codec_t.JPEG = 0 := by decide
    simp [get_haligned, h]
  · have h : get_halign codec_t.RAW = 0 := by decide
    simp [get_haligned, h]
  · intro c w hj hr hw hmax
    have hh : 1 ≤ get_halign c := by
      cases c <;> first | exact absurd rfl hj | exact absurd rfl hr | decide
    have h0 : get_halign c ≠ 0 := by omega
    have h1 : ¬ w + get_halign c > INT_MAX := by omega
    refine ⟨Int.tdiv (w + get_halign c - 1) (get_halign c) * get_halign c, ?_,
      round_up_multiple w (get_halign c) hw hh⟩
    simp only [get_haligned, h0, h1, if_false]

/-- C22: the fourcc round trip.  For every codec `c` of the table,
`get_codec_from_fcc (get_fourcc c)` is `c` and `get_fcc_from_codec c = get_fourcc c`;
the table has fifteen rows, one for each codec, whose fourcc values are pairwise
distinct and not zero. -/
theorem fourcc_round_trip :
    (∀ c : codec_t, get_codec_from_fcc (get_fourcc c) = some c ∧
      get_fcc_from_codec c = get_fourcc c ∧ c ∈ codec_info.map codec_info_t.codec) ∧
    codec_info.length = 15 ∧
    (codec_info.map codec_info_t.fcc).Nodup ∧
    (∀ e ∈ codec_info, e.fcc ≠ 0) := by
  refine ⟨fun c => ?_, by decide, by decide, by decide⟩
  cases c <;> decide

/-- C23: `get_codec_from_fcc f` is `(codec_t) -1` (here `none`) if and only if `f` is
neither the fourcc of a row of `codec_info` nor the alias of a row of `fourcc_aliases`;
for the fourcc of a row it is the codec of that row; for the five aliases it is the
codec of the primary fourcc: 'ABGR' gives RGBA, '2BGR' gives RGB, 'UYVY' gives UYVY,
'MJPG' gives JPEG and 'DVS8' gives DVS8. -/
theorem get_codec_from_fcc_unknown_iff :
    (∀ f : Nat, get_codec_from_fcc f = none ↔
      (∀ e ∈ codec_info, e.fcc ≠ f) ∧ (∀ a ∈ fourcc_aliases, a.alias_ ≠ f)) ∧
    (∀ e ∈ codec_info, get_codec_from_fcc e.fcc = some e.codec) ∧
    fourcc_aliases.map alternate_fourcc.alias_ =
      [to_fourcc 'A' 'B' 'G' 'R', to_fourcc '2' 'B' 'G' 'R', to_fourcc 'U' 'Y' 'V' 'Y',
       to_fourcc 'M' 'J' 'P' 'G', to_fourcc 'D' 'V' 'S' '8'] ∧
    (∀ a ∈ fourcc_aliases, get_codec_from_fcc a.alias_ = get_codec_from_fcc a.primary_fcc) ∧
    get_codec_from_fcc (to_fourcc 'A' 'B' 'G' 'R') = some codec_t.RGBA ∧
    get_fourcc codec_t.RGBA = to_fourcc 'R' 'G' 'B' 'A' ∧
    get_codec_from_fcc (to_fourcc '2' 'B' 'G' 'R') = some codec_t.RGB ∧
    get_fourcc codec_t.RGB = to_fourcc 'R' 'G' 'B' '2' ∧
    get_codec_from_fcc (to_fourcc 'U' 'Y' 'V' 'Y') = some codec_t.UYVY ∧
    get_fourcc codec_t.UYVY = to_fourcc '2' 'v' 'u' 'y' ∧
    get_codec_from_fcc (to_fourcc 'M' 'J' 'P' 'G') = some codec_t.JPEG ∧
    get_fourcc codec_t.JPEG = to_fourcc 'J' 'P' 'E' 'G' ∧
    get_codec_from_fcc (to_fourcc 'D' 'V' 'S' '8') = some codec_t.DVS8 ∧
    get_fourcc codec_t.DVS8 = to_fourcc 'd' 'v' 's' '8' := by
  refine ⟨fun f => ?_, by decide, by decide, by decide, by decide, by decide, by decide,
    by decide, by decide, by decide, by decide, by decide, by decide, by decide⟩
  unfold get_codec_from_fcc
  cases hs : get_codec_from_fcc.scan f codec_info with
  | some c =>
    have h := (scan_eq_none_iff f codec_info).not.mp (by simp [hs])
    simp only [false_iff, reduceCtorEq]
    exact fun h2 => h h2.1
  | none =>
    simp only [aliases_eq_none_iff f fourcc_aliases aliases_primary_listed]
    exact ⟨fun h => ⟨(scan_eq_none_iff f codec_info).mp hs, h⟩, fun h => h.2⟩

/-! ## Lists of blocks -/

theorem while_len_eq {α : Type} (body : Nat → List α) (dec : Nat) (hdec : 0 < dec) :
    ∀ (n fuel k : Nat), n ≤ fuel →
      while_len body dec fuel k (dec * n) = (List.range n).flatMap (fun i => body (k + i)) := by
  intro n
  induction n with
  | zero =>
    intro fuel k _
    cases fuel <;> simp [while_len]
  | succ n ih =>
    intro fuel k hf
    obtain ⟨f, rfl⟩ : ∃ f, fuel = f + 1 := ⟨fuel - 1, by omega⟩
    have hpos : dec * (n + 1) > 0 := Nat.mul_pos hdec (Nat.succ_pos n)
    have hsub : dec * (n + 1) - dec = dec * n := by
      rw [Nat.mul_succ, Nat.add_sub_cancel]
    rw [while_len, if_pos hpos, hsub, ih f (k + 1) (by omega), List.range_succ_eq_map,
      List.flatMap_cons, List.flatMap_map]
    have hfun : (fun i => body (k + 1 + i)) = (fun i => body (k + Nat.succ i)) := by
      funext i
      congr 1
      omega
    rw [hfun]
    rfl

theorem flatMap_range_mul {β : Type} (f : Nat → List β) (L : Nat) :
    ∀ n : Nat, (List.range n).flatMap (fun k => (List.range L).flatMap (fun j => f (L * k + j)))
      = (List.range (L * n)).flatMap f := by
  intro n
  induction n with
  | zero => simp
  | succ n ih =>
    rw [List.range_succ, List.flatMap_append, ih, Nat.mul_succ, List.range_add,
      List.flatMap_append, List.flatMap_map]
    simp

theorem flatMap_single {α β : Type} (g : α → β) (l : List α) :
    l.flatMap (fun i => [g i]) = l.map g := by
  induction l <;> simp_all

theorem flatMap_range_map {β : Type} (g : Nat → β) (L n : Nat) :
    (List.range n).flatMap (fun k => (List.range L).map (fun j => g (L * k + j)))
      = (List.range (L * n)).map g := by
  have h := flatMap_range_mul (fun i => [g i]) L n
  simp only [flatMap_single] at h
  exact h

theorem getD_range_map {β : Type} (g : Nat → β) (n i : Nat) (d : β) (hi : i < n) :
    ((List.range n).map g).getD i d = g i := by
  simp [List.getD_eq_getElem?_getD, List.getElem?_map, List.getElem?_range hi]

theorem byte_range_map (g : Nat → Nat) (n i : Nat) (hi : i < n) :
    byte ((List.range n).map g) i = g i % 2 ^ 8 := by
  rw [byte, getD_range_map g n i 0 hi]

/-! ## Bits of words -/

theorem testBit_mask (n s i : Nat) :
    ((2 ^ n - 1) <<< s).testBit i = (decide (s ≤ i) && decide (i < s + n)) := by
  rw [Nat.testBit_shiftLeft, Nat.testBit_two_pow_sub_one]
  by_cases h : s ≤ i
  · have : (i - s < n) ↔ (i < s + n) := by omega
    simp [h, this]
  · simp [h]

theorem testBit_0xff (i : Nat) : Nat.testBit 0xff i = decide (i < 8) := by
  simpa using testBit_mask 8 0 i

theorem testBit_0xffff (i : Nat) : Nat.testBit 0xffff i = decide (i < 16) := by
  simpa using testBit_mask 16 0 i

theorem testBit_0xffffff (i : Nat) : Nat.testBit 0xffffff i = decide (i < 24) := by
  simpa using testBit_mask 24 0 i

theorem testBit_0xff00 (i : Nat) :
    Nat.testBit 0xff00 i = (decide (8 ≤ i) && decide (i < 16)) := by
  simpa using testBit_mask 8 8 i

theorem testBit_0xffff00 (i : Nat) :
    Nat.testBit 0xffff00 i = (decide (8 ≤ i) && decide (i < 24)) := by
  simpa using testBit_mask 16 8 i

theorem testBit_0xff0000 (i : Nat) :
    Nat.testBit 0xff0000 i = (decide (16 ≤ i) && decide (i < 24)) := by
  simpa using testBit_mask 8 16 i

theorem testBit_0xff000000 (i : Nat) :
    Nat.testBit 0xff000000 i = (decide (24 ≤ i) && decide (i < 32)) := by
  simpa using testBit_mask 8 24 i

theorem testBit_0xffffff000000 (i : Nat) :
    Nat.testBit 0xffffff000000 i = (decide (24 ≤ i) && decide (i < 48)) := by
  simpa using testBit_mask 24 24 i

theorem testBit_0x00300c03 (i : Nat) :
    Nat.testBit 0x00300c03 i =
      (decide (i < 2) || (decide (10 ≤ i) && decide (i < 12)) ||
        (decide (20 ≤ i) && decide (i < 22))) := by
  have h : (0x00300c03 : Nat) = (2 ^ 2 - 1) <<< 0 ||| (2 ^ 2 - 1) <<< 10 ||| (2 ^ 2 - 1) <<< 20 := by
    decide
  rw [h, Nat.testBit_or, Nat.testBit_or, testBit_mask, testBit_mask, testBit_mask]
  simp

/-- The bytes of a 32-bit word of a line are the bytes of the line. -/
theorem le32_rd32 (m : List Nat) (k : Nat) :
    le32 (rd32 m k) = [byte m (4 * k), byte m (4 * k + 1), byte m (4 * k + 2),
      byte m (4 * k + 3)] := by
  simp only [le32, List.cons.injEq, and_true]
  refine ⟨?_, ?_, ?_, ?_⟩ <;>
  · apply Nat.eq_of_testBit_eq
    intro i
    simp only [rd32, byte, Nat.testBit_mod_two_pow, Nat.testBit_or, Nat.testBit_and,
      Nat.testBit_shiftLeft, Nat.testBit_shiftRight]
    by_cases hi : i < 8
    · interval_cases i <;> simp
    · simp [hi]

theorem rd32_bytes (m : List Nat) (k : Nat) :
    rd32 m k % 2 ^ 8 = byte m (4 * k) ∧ (rd32 m k >>> 8) % 2 ^ 8 = byte m (4 * k + 1) ∧
    (rd32 m k >>> 16) % 2 ^ 8 = byte m (4 * k + 2) ∧
    (rd32 m k >>> 24) % 2 ^ 8 = byte m (4 * k + 3) := by
  have h := le32_rd32 m k
  simp only [le32, List.cons.injEq, and_true] at h
  exact h

/-- The bytes of a 64-bit word of a line are the bytes of the line. -/
theorem le64_rd64 (m : List Nat) (k : Nat) :
    le64 (rd64 m k) = [byte m (8 * k), byte m (8 * k + 1), byte m (8 * k + 2),
      byte m (8 * k + 3), byte m (8 * k + 4), byte m (8 * k + 5), byte m (8 * k + 6),
      byte m (8 * k + 7)] := by
  simp only [le64, List.cons.injEq, and_true]
  refine ⟨?_, ?_, ?_, ?_, ?_, ?_, ?_, ?_⟩ <;>
  · apply Nat.eq_of_testBit_eq
    intro i
    simp only [rd64, byte, Nat.testBit_mod_two_pow, Nat.testBit_or, Nat.testBit_and,
      Nat.testBit_shiftLeft, Nat.testBit_shiftRight]
    by_cases hi : i < 8
    · interval_cases i <;> simp
    · simp [hi]

theorem rd32_lt (m : List Nat) (k : Nat) : rd32 m k < 2 ^ 32 := by
  apply Nat.lt_pow_two_of_testBit
  intro i hi
  simp only [rd32, byte, Nat.testBit_mod_two_pow, Nat.testBit_or, Nat.testBit_and,
    Nat.testBit_shiftLeft, Nat.testBit_shiftRight]
  have h1 : ¬ i < 8 := by omega
  have h2 : ¬ i - 8 < 8 := by omega
  have h3 : ¬ i - 16 < 8 := by omega
  have h4 : ¬ i - 24 < 8 := by omega
  simp [h1, h2, h3, h4]

/-- A word is put together again from its four bytes. -/
theorem pack_le32 (w : Nat) :
    w % 2 ^ 8 ||| ((w >>> 8) % 2 ^ 8) <<< 8 ||| ((w >>> 16) % 2 ^ 8) <<< 16 |||
      ((w >>> 24) % 2 ^ 8) <<< 24 = u32 w := by
  apply Nat.eq_of_testBit_eq
  intro i
  simp only [u32, Nat.testBit_mod_two_pow, Nat.testBit_or, Nat.testBit_and,
    Nat.testBit_shiftLeft, Nat.testBit_shiftRight]
  by_cases hi : i < 32
  · interval_cases i <;> simp
  · have h1 : ¬ i < 8 := by omega
    have h2 : ¬ i - 8 < 8 := by omega
    have h3 : ¬ i - 16 < 8 := by omega
    have h4 : ¬ i - 24 < 8 := by omega
    simp [hi, h1, h2, h3, h4]

/-- The twelve bytes of an iteration of `vc_copylineRGBAtoRGB`. -/
theorem RGBAtoRGB_words_bytes (in1 in2 in3 in4 : Nat) :
    (vc_copylineRGBAtoRGB.words in1 in2 in3 in4).flatMap le32 =
      [in1 % 2 ^ 8, (in1 >>> 8) % 2 ^ 8, (in1 >>> 16) % 2 ^ 8,
       in2 % 2 ^ 8, (in2 >>> 8) % 2 ^ 8, (in2 >>> 16) % 2 ^ 8,
       in3 % 2 ^ 8, (in3 >>> 8) % 2 ^ 8, (in3 >>> 16) % 2 ^ 8,
       in4 % 2 ^ 8, (in4 >>> 8) % 2 ^ 8, (in4 >>> 16) % 2 ^ 8] := by
  simp only [vc_copylineRGBAtoRGB.words, List.flatMap_cons, List.flatMap_nil, le32,
    List.cons_append, List.nil_append, List.append_nil, List.cons.injEq, and_true]
  refine ⟨?_, ?_, ?_, ?_, ?_, ?_, ?_, ?_, ?_, ?_, ?_, ?_⟩ <;>
  · apply Nat.eq_of_testBit_eq
    intro i
    simp only [u32, Nat.testBit_mod_two_pow, Nat.testBit_or, Nat.testBit_and,
      Nat.testBit_shiftLeft, Nat.testBit_shiftRight,
      testBit_0xff, testBit_0xffffff, testBit_0xffff, testBit_0xffff00, testBit_0xff0000]
    by_cases hi : i < 8
    · interval_cases i <;> simp
    · simp [hi]

/-- With the shifts 0, 8 and 16, `vc_copylineRGBAtoRGBwithShift` stores the words of
`vc_copylineRGBAtoRGB`. -/
theorem withShift_words_rgba (in1 in2 in3 in4 : Nat) :
    vc_copylineRGBAtoRGBwithShift.words in1 in2 in3 in4 0 8 16 =
      vc_copylineRGBAtoRGB.words in1 in2 in3 in4 := by
  simp only [vc_copylineRGBAtoRGBwithShift.words, vc_copylineRGBAtoRGB.words,
    List.cons.injEq, and_true]
  refine ⟨?_, ?_, ?_⟩ <;>
  · apply Nat.eq_of_testBit_eq
    intro i
    simp only [u32, Nat.testBit_mod_two_pow, Nat.testBit_or, Nat.testBit_and,
      Nat.testBit_shiftLeft, Nat.testBit_shiftRight,
      testBit_0xff, testBit_0xffffff, testBit_0xffff, testBit_0xffff00, testBit_0xff0000]
    by_cases hi : i < 32
    · interval_cases i <;> simp
    · have h1 : ¬ i < 8 := by omega
      have h2 : ¬ i - 8 < 8 := by omega
      have h3 : ¬ i - 16 < 8 := by omega
      have h4 : ¬ i < 24 := by omega
      have h5 : ¬ i < 16 := by omega
      have h6 : ¬ i - 16 < 16 := by omega
      have h7 : ¬ i - 8 < 24 := by omega
      have h8 : ¬ 8 + i < 24 := by omega
      have h9 : ¬ 16 + i < 24 := by omega
      simp [hi, h1, h2, h3, h4, h5, h6, h7, h8, h9]

/-- With the shifts 16, 8 and 0, `vc_copylineRGBAtoRGBwithShift` stores the words of
`vc_copylineABGRtoRGB`. -/
theorem withShift_words_abgr (in1 in2 in3 in4 : Nat) :
    vc_copylineRGBAtoRGBwithShift.words in1 in2 in3 in4 16 8 0 =
      vc_copylineABGRtoRGB.words in1 in2 in3 in4 := by
  simp only [vc_copylineRGBAtoRGBwithShift.words, vc_copylineABGRtoRGB.words,
    List.cons.injEq, and_true]
  refine ⟨?_, ?_, ?_⟩ <;>
  · apply Nat.eq_of_testBit_eq
    intro i
    simp only [u32, Nat.testBit_mod_two_pow, Nat.testBit_or, Nat.testBit_and,
      Nat.testBit_shiftLeft, Nat.testBit_shiftRight,
      testBit_0xff, testBit_0xff00, testBit_0xff0000]
    by_cases hi : i < 32
    · interval_cases i <;> simp
    · have h1 : ¬ i < 8 := by omega
      have h2 : ¬ i - 8 < 8 := by omega
      have h3 : ¬ i - 16 < 8 := by omega
      have h4 : ¬ i < 24 := by omega
      have h5 : ¬ i < 16 := by omega
      have h8 : ¬ 8 + i < 16 := by omega
      have h9 : ¬ 16 + i < 24 := by omega
      have h10 : ¬ 8 + i < 24 := by omega
      simp [hi, h1, h2, h3, h4, h5, h8, h9, h10]

theorem and_0xff (x : Nat) : x &&& 0xff = x % 2 ^ 8 :=
  Nat.and_pow_two_sub_one_eq_mod x 8

/-- The pixel of the general path of `vc_copylineRGBA` in the bytes of the line. -/
theorem RGBA_pixel_rd32 (m : List Nat) (k rshift gshift bshift : Nat) :
    vc_copylineRGBA.pixel (rd32 m k) rshift gshift bshift =
      u32 (byte m (4 * k) <<< rshift) ||| u32 (byte m (4 * k + 1) <<< gshift) |||
        u32 (byte m (4 * k + 2) <<< bshift) := by
  obtain ⟨h0, h1, h2, _⟩ := rd32_bytes m k
  simp only [vc_copylineRGBA.pixel, and_0xff, h0, h1, h2]

/-- The twenty-four bytes of an iteration of `vc_copylineDVS10`, `x1` to `x4` being the
words read. -/
theorem DVS10_words_bytes (x1 x2 x3 x4 : Nat) :
    le64 (vc_copylineDVS10.squeeze x1 ||| u64 (vc_copylineDVS10.squeeze x2 <<< 48)) ++
    le64 ((vc_copylineDVS10.squeeze x2 >>> 16) ||| u64 (vc_copylineDVS10.squeeze x3 <<< 32)) ++
    le64 ((vc_copylineDVS10.squeeze x3 >>> 32) ||| u64 (vc_copylineDVS10.squeeze x4 <<< 16)) =
      [x1 % 2 ^ 8, (x1 >>> 8) % 2 ^ 8, (x1 >>> 16) % 2 ^ 8,
       (x1 >>> 32) % 2 ^ 8, (x1 >>> 40) % 2 ^ 8, (x1 >>> 48) % 2 ^ 8,
       x2 % 2 ^ 8, (x2 >>> 8) % 2 ^ 8, (x2 >>> 16) % 2 ^ 8,
       (x2 >>> 32) % 2 ^ 8, (x2 >>> 40) % 2 ^ 8, (x2 >>> 48) % 2 ^ 8,
       x3 % 2 ^ 8, (x3 >>> 8) % 2 ^ 8, (x3 >>> 16) % 2 ^ 8,
       (x3 >>> 32) % 2 ^ 8, (x3 >>> 40) % 2 ^ 8, (x3 >>> 48) % 2 ^ 8,
       x4 % 2 ^ 8, (x4 >>> 8) % 2 ^ 8, (x4 >>> 16) % 2 ^ 8,
       (x4 >>> 32) % 2 ^ 8, (x4 >>> 40) % 2 ^ 8, (x4 >>> 48) % 2 ^ 8] := by
  simp only [le64, List.cons_append, List.nil_append, List.cons.injEq, and_true]
  refine ⟨?_, ?_, ?_, ?_, ?_, ?_, ?_, ?_, ?_, ?_, ?_, ?_, ?_, ?_, ?_, ?_, ?_, ?_, ?_, ?_,
    ?_, ?_, ?_, ?_⟩ <;>
  · apply Nat.eq_of_testBit_eq
    intro i
    simp only [vc_copylineDVS10.squeeze, u64, Nat.testBit_mod_two_pow, Nat.testBit_or,
      Nat.testBit_and, Nat.testBit_shiftLeft, Nat.testBit_shiftRight,
      testBit_0xffffff, testBit_0xffffff000000]
    by_cases hi : i < 8
    · interval_cases i <;> simp
    · simp [hi]

/-- The four bytes of a store of `vc_copylinev210` are its four fields. -/
theorem le32_fields (v0 v1 v2 v3 : Nat) :
    le32 (v0 % 2 ^ 8 ||| (v1 % 2 ^ 8) <<< 8 ||| (v2 % 2 ^ 8) <<< 16 ||| (v3 % 2 ^ 8) <<< 24) =
      [v0 % 2 ^ 8, v1 % 2 ^ 8, v2 % 2 ^ 8, v3 % 2 ^ 8] := by
  simp only [le32, List.cons.injEq, and_true]
  refine ⟨?_, ?_, ?_, ?_⟩ <;>
  · apply Nat.eq_of_testBit_eq
    intro i
    simp only [Nat.testBit_mod_two_pow, Nat.testBit_or, Nat.testBit_and,
      Nat.testBit_shiftLeft, Nat.testBit_shiftRight]
    by_cases hi : i < 8
    · interval_cases i <;> simp
    · simp [hi]

theorem le32_u32 (w : Nat) : le32 (u32 w) = le32 w := by
  simp only [le32, List.cons.injEq, and_true]
  refine ⟨?_, ?_, ?_, ?_⟩ <;>
  · apply Nat.eq_of_testBit_eq
    intro i
    simp only [u32, Nat.testBit_mod_two_pow, Nat.testBit_shiftRight]
    by_cases hi : i < 8
    · interval_cases i <;> simp
    · simp [hi]

/-- A sample of ten bits without its two lowest bits is a byte. -/
theorem sample_shift_byte (x : Nat) : (x % 2 ^ 10) >>> 2 = ((x % 2 ^ 10) >>> 2) % 2 ^ 8 := by
  rw [Nat.shiftRight_eq_div_pow]
  have h : x % 2 ^ 10 < 2 ^ 10 := Nat.mod_lt _ (by norm_num)
  omega

/-- The bytes of the word that `vc_copylineDVS10toV210` stores for `w`: each of its three
ten-bit fields, without its two lowest bits, is a byte of `w`. -/
theorem DVS10toV210_fields (w : Nat) :
    (vc_copylineDVS10toV210.word w % 2 ^ 10) >>> 2 = w % 2 ^ 8 ∧
    ((vc_copylineDVS10toV210.word w >>> 10) % 2 ^ 10) >>> 2 = (w >>> 8) % 2 ^ 8 ∧
    ((vc_copylineDVS10toV210.word w >>> 20) % 2 ^ 10) >>> 2 = (w >>> 16) % 2 ^ 8 := by
  refine ⟨?_, ?_, ?_⟩ <;>
  · apply Nat.eq_of_testBit_eq
    intro i
    simp only [vc_copylineDVS10toV210.word, u32, Nat.testBit_mod_two_pow, Nat.testBit_or,
      Nat.testBit_and, Nat.testBit_shiftLeft, Nat.testBit_shiftRight,
      testBit_0xff, testBit_0xff00, testBit_0xff0000, testBit_0x00300c03]
    by_cases hi : i < 8
    · interval_cases i <;> simp
    · have h1 : ¬ 2 + i < 10 := by omega
      simp [hi, h1]

/-- The word of `vc_copylineDVS10toV210` fits 32 bits. -/
theorem DVS10toV210_word_lt (w : Nat) : vc_copylineDVS10toV210.word w < 2 ^ 32 := by
  apply Nat.lt_pow_two_of_testBit
  intro i hi
  simp only [vc_copylineDVS10toV210.word, u32, Nat.testBit_mod_two_pow, Nat.testBit_or,
    Nat.testBit_and, Nat.testBit_shiftLeft, Nat.testBit_shiftRight,
    testBit_0xff, testBit_0xff00, testBit_0xff0000, testBit_0x00300c03]
  have h1 : ¬ i < 32 := by omega
  simp [h1]

/-- The four bytes of the word that the scalar loop of `vc_copylineYUYV` stores. -/
theorem YUYV_scalar_bytes (tmp : Nat) :
    le32 (vc_copylineYUYV.scalar tmp) =
      [(tmp >>> 8) % 2 ^ 8, tmp % 2 ^ 8, (tmp >>> 24) % 2 ^ 8, (tmp >>> 16) % 2 ^ 8] := by
  simp only [le32, List.cons.injEq, and_true]
  refine ⟨?_, ?_, ?_, ?_⟩ <;>
  · apply Nat.eq_of_testBit_eq
    intro i
    simp only [vc_copylineYUYV.scalar, u32, Nat.testBit_mod_two_pow, Nat.testBit_or,
      Nat.testBit_and, Nat.testBit_shiftLeft, Nat.testBit_shiftRight,
      testBit_0xff, testBit_0xff00, testBit_0xff0000, testBit_0xff000000]
    by_cases hi : i < 8
    · interval_cases i <;> simp
    · simp [hi]

/-- The four bytes of the word that `vc_copylineRGBtoRGBA` stores with the shifts 0, 8
and 16. -/
theorem RGBtoRGBA_bytes (r g b : Nat) :
    le32 (u32 ((r % 2 ^ 8) <<< 0) ||| u32 ((g % 2 ^ 8) <<< 8) ||| u32 ((b % 2 ^ 8) <<< 16)) =
      [r % 2 ^ 8, g % 2 ^ 8, b % 2 ^ 8, 0] := by
  simp only [le32, List.cons.injEq, and_true]
  refine ⟨?_, ?_, ?_, ?_⟩ <;>
  · apply Nat.eq_of_testBit_eq
    intro i
    simp only [u32, Nat.testBit_mod_two_pow, Nat.testBit_or,
      Nat.testBit_and, Nat.testBit_shiftLeft, Nat.testBit_shiftRight]
    by_cases hi : i < 8
    · interval_cases i <;> simp
    · simp [hi]

theorem and_byte_0xff (x : Nat) : x % 2 ^ 8 &&& 255 = x % 2 ^ 8 := by
  have h := and_0xff (x % 2 ^ 8)
  rw [Nat.mod_mod] at h
  exact h

/-- One iteration of the SSE loop of `vc_copylineYUYV` swaps the bytes of its sixteen in
pairs. -/
theorem YUYV_sse_bytes (src : List Nat) (k : Nat) :
    vc_copylineYUYV.sse_body src k =
      [byte src (16 * k + 1), byte src (16 * k), byte src (16 * k + 3), byte src (16 * k + 2),
       byte src (16 * k + 5), byte src (16 * k + 4), byte src (16 * k + 7), byte src (16 * k + 6),
       byte src (16 * k + 9), byte src (16 * k + 8), byte src (16 * k + 11),
       byte src (16 * k + 10), byte src (16 * k + 13), byte src (16 * k + 12),
       byte src (16 * k + 15), byte src (16 * k + 14)] := by
  have hr : List.range 16 = [0, 1, 2, 3, 4, 5, 6, 7, 8, 9, 10, 11, 12, 13, 14, 15] := by decide
  have hm : vc_copylineYUYV.mask =
      [0, 255, 0, 255, 0, 255, 0, 255, 0, 255, 0, 255, 0, 255, 0, 255] := by decide
  have hk : 4 * (4 * k) = 16 * k := by omega
  simp only [vc_copylineYUYV.sse_body]
  simp only [hm, movdqu, hr, hk, List.map, pand]
  simp only [psrldq, List.drop, List.replicate, List.cons_append, List.nil_append]
  simp only [List.zipWith]
  simp only [por, psrldq, pslldq, List.drop, List.take, List.replicate, List.cons_append,
    List.nil_append, List.zipWith, byte, Nat.zero_and, Nat.zero_or, Nat.or_zero, Nat.add_zero,
    Nat.and_comm 255, and_byte_0xff]

/-! ## The converters in closed form -/

theorem byte_mod (m : List Nat) (i : Nat) : byte m i % 2 ^ 8 = byte m i := by
  simp [byte]

theorem drop_fourth_length (src : List Nat) (n : Nat) : (drop_fourth src n).length = n := by
  simp [drop_fourth]

theorem drop_fourth_getD (src : List Nat) (n k j : Nat) (hk : 3 * k + j < n) (hj : j < 3) :
    (drop_fourth src n).getD (3 * k + j) 0 = byte src (4 * k + j) := by
  rw [drop_fourth, getD_range_map _ n _ 0 hk]
  congr 1
  omega

/-- An iteration of `vc_copylineRGBAtoRGB` stores twelve bytes of the line without its
fourth bytes. -/
theorem RGBAtoRGB_body (src : List Nat) (k : Nat) :
    (vc_copylineRGBAtoRGB.words (rd32 src (4 * k)) (rd32 src (4 * k + 1)) (rd32 src (4 * k + 2))
      (rd32 src (4 * k + 3))).flatMap le32 =
      (List.range 12).map (fun j => byte src (4 * ((12 * k + j) / 3) + (12 * k + j) % 3)) := by
  have hr : List.range 12 = [0, 1, 2, 3, 4, 5, 6, 7, 8, 9, 10, 11] := by decide
  obtain ⟨a0, a1, a2, _⟩ := rd32_bytes src (4 * k)
  obtain ⟨b0, b1, b2, _⟩ := rd32_bytes src (4 * k + 1)
  obtain ⟨c0, c1, c2, _⟩ := rd32_bytes src (4 * k + 2)
  obtain ⟨d0, d1, d2, _⟩ := rd32_bytes src (4 * k + 3)
  rw [RGBAtoRGB_words_bytes, hr]
  simp only [a0, a1, a2, b0, b1, b2, c0, c1, c2, d0, d1, d2, List.map, List.cons.injEq,
    and_true]
  refine ⟨?_, ?_, ?_, ?_, ?_, ?_, ?_, ?_, ?_, ?_, ?_, ?_⟩ <;>
  · congr 1
    omega

/-- In closed form: `vc_copylineRGBAtoRGB` with `dst_len = 12 n` stores the first `12 n`
bytes of the line without its fourth bytes. -/
theorem RGBAtoRGB_eq (src : List Nat) (n : Nat) :
    vc_copylineRGBAtoRGB src (12 * n) = drop_fourth src (12 * n) := by
  rw [vc_copylineRGBAtoRGB, while_len_eq _ 12 (by norm_num) n (12 * n) 0 (by omega)]
  simp only [Nat.zero_add, RGBAtoRGB_body]
  exact flatMap_range_map (fun i => byte src (4 * (i / 3) + i % 3)) 12 n

theorem rd64_bytes (m : List Nat) (k : Nat) :
    rd64 m k % 2 ^ 8 = byte m (8 * k) ∧ (rd64 m k >>> 8) % 2 ^ 8 = byte m (8 * k + 1) ∧
    (rd64 m k >>> 16) % 2 ^ 8 = byte m (8 * k + 2) ∧
    (rd64 m k >>> 24) % 2 ^ 8 = byte m (8 * k + 3) ∧
    (rd64 m k >>> 32) % 2 ^ 8 = byte m (8 * k + 4) ∧
    (rd64 m k >>> 40) % 2 ^ 8 = byte m (8 * k + 5) ∧
    (rd64 m k >>> 48) % 2 ^ 8 = byte m (8 * k + 6) ∧
    (rd64 m k >>> 56) % 2 ^ 8 = byte m (8 * k + 7) := by
  have h := le64_rd64 m k
  simp only [le64, List.cons.injEq, and_true] at h
  exact h

/-- An iteration of `vc_copylineDVS10` stores twenty-four bytes of the line without its
fourth bytes. -/
theorem DVS10_body (src : List Nat) (k : Nat) :
    vc_copylineDVS10.body src k =
      (List.range 24).map (fun j => byte src (4 * ((24 * k + j) / 3) + (24 * k + j) % 3)) := by
  have hr : List.range 24 = [0, 1, 2, 3, 4, 5, 6, 7, 8, 9, 10, 11, 12, 13, 14, 15, 16, 17,
      18, 19, 20, 21, 22, 23] := by decide
  obtain ⟨a0, a1, a2, _, a4, a5, a6, _⟩ := rd64_bytes src (4 * k)
  obtain ⟨b0, b1, b2, _, b4, b5, b6, _⟩ := rd64_bytes src (4 * k + 1)
  obtain ⟨c0, c1, c2, _, c4, c5, c6, _⟩ := rd64_bytes src (4 * k + 2)
  obtain ⟨d0, d1, d2, _, d4, d5, d6, _⟩ := rd64_bytes src (4 * k + 3)
  simp only [vc_copylineDVS10.body]
  rw [DVS10_words_bytes, hr]
  simp only [a0, a1, a2, a4, a5, a6, b0, b1, b2, b4, b5, b6, c0, c1, c2, c4, c5, c6,
    d0, d1, d2, d4, d5, d6, List.map, List.cons.injEq, and_true]
  refine ⟨?_, ?_, ?_, ?_, ?_, ?_, ?_, ?_, ?_, ?_, ?_, ?_, ?_, ?_, ?_, ?_, ?_, ?_, ?_, ?_,
    ?_, ?_, ?_, ?_⟩ <;>
  · congr 1
    omega

/-- In closed form: `vc_copylineDVS10` with `dst_len = 24 n` stores the first `24 n`
bytes of the line without its fourth bytes. -/
theorem DVS10_eq (src : List Nat) (n : Nat) :
    vc_copylineDVS10 src (24 * n) = drop_fourth src (24 * n) := by
  have hs : 2 * (24 * n) / 3 = 16 * n := by omega
  rw [vc_copylineDVS10]
  simp only [hs]
  rw [while_len_eq _ 16 (by norm_num) n (16 * n) 0 (by omega)]
  simp only [Nat.zero_add, DVS10_body]
  exact flatMap_range_map (fun i => byte src (4 * (i / 3) + i % 3)) 24 n

theorem v210_sample_a (src : List Nat) (w : Nat) :
    v210_sample src (3 * w) = v210_a src w := by
  have h1 : 3 * w / 3 = w := by omega
  have h2 : 3 * w % 3 = 0 := by omega
  simp [v210_sample, v210_a, h1, h2]

theorem v210_sample_b (src : List Nat) (w : Nat) :
    v210_sample src (3 * w + 1) = v210_b src w := by
  have h1 : (3 * w + 1) / 3 = w := by omega
  have h2 : (3 * w + 1) % 3 = 1 := by omega
  simp [v210_sample, v210_b, h1, h2]

theorem v210_sample_c (src : List Nat) (w : Nat) :
    v210_sample src (3 * w + 2) = v210_c src w := by
  have h1 : (3 * w + 2) / 3 = w := by omega
  have h2 : (3 * w + 2) % 3 = 2 := by omega
  simp [v210_sample, v210_c, h1, h2]

/-- The bytes of the first store of `vc_copylinev210`. -/
theorem v210_word0_bytes (src : List Nat) (s : Nat) :
    le32 (vc_copylinev210.word0 src s) =
      [v210_a src s >>> 2, v210_b src s >>> 2, v210_c src s >>> 2, v210_a src (s + 1) >>> 2] := by
  simp only [le32, List.cons.injEq, and_true]
  refine ⟨?_, ?_, ?_, ?_⟩ <;>
  · apply Nat.eq_of_testBit_eq
    intro i
    simp only [vc_copylinev210.word0, v210_a, v210_b, v210_c, u32, Nat.testBit_mod_two_pow,
      Nat.testBit_or, Nat.testBit_and, Nat.testBit_shiftLeft, Nat.testBit_shiftRight]
    by_cases hi : i < 8
    · interval_cases i <;> simp
    · have h1 : ¬ 2 + i < 10 := by omega
      simp [hi, h1]

/-- The bytes of the second store of `vc_copylinev210`. -/
theorem v210_word1_bytes (src : List Nat) (s : Nat) :
    le32 (vc_copylinev210.word1 src s) =
      [v210_b src s >>> 2, v210_c src s >>> 2, v210_a src (s + 1) >>> 2,
       v210_b src (s + 1) >>> 2] := by
  simp only [le32, List.cons.injEq, and_true]
  refine ⟨?_, ?_, ?_, ?_⟩ <;>
  · apply Nat.eq_of_testBit_eq
    intro i
    simp only [vc_copylinev210.word1, v210_a, v210_b, v210_c, u32, Nat.testBit_mod_two_pow,
      Nat.testBit_or, Nat.testBit_and, Nat.testBit_shiftLeft, Nat.testBit_shiftRight]
    by_cases hi : i < 8
    · interval_cases i <;> simp
    · have h1 : ¬ 2 + i < 10 := by omega
      simp [hi, h1]

/-- The bytes of the third store of `vc_copylinev210`. -/
theorem v210_word2_bytes (src : List Nat) (s : Nat) :
    le32 (vc_copylinev210.word2 src s) =
      [v210_c src s >>> 2, v210_a src (s + 1) >>> 2, v210_b src (s + 1) >>> 2,
       v210_c src (s + 1) >>> 2] := by
  simp only [le32, List.cons.injEq, and_true]
  refine ⟨?_, ?_, ?_, ?_⟩ <;>
  · apply Nat.eq_of_testBit_eq
    intro i
    simp only [vc_copylinev210.word2, v210_a, v210_b, v210_c, u32, Nat.testBit_mod_two_pow,
      Nat.testBit_or, Nat.testBit_and, Nat.testBit_shiftLeft, Nat.testBit_shiftRight]
    by_cases hi : i < 8
    · interval_cases i <;> simp
    · have h1 : ¬ 2 + i < 10 := by omega
      simp [hi, h1]

theorem v210_samples (src : List Nat) (s : Nat) :
    v210_sample src (3 * s + 0) = v210_a src s ∧ v210_sample src (3 * s + 1) = v210_b src s ∧
    v210_sample src (3 * s + 2) = v210_c src s ∧
    v210_sample src (3 * s + 3) = v210_a src (s + 1) ∧
    v210_sample src (3 * s + 4) = v210_b src (s + 1) ∧
    v210_sample src (3 * s + 5) = v210_c src (s + 1) ∧
    v210_sample src (3 * s + 6) = v210_a src (s + 2) ∧
    v210_sample src (3 * s + 7) = v210_b src (s + 2) ∧
    v210_sample src (3 * s + 8) = v210_c src (s + 2) ∧
    v210_sample src (3 * s + 9) = v210_a src (s + 3) ∧
    v210_sample src (3 * s + 10) = v210_b src (s + 3) ∧
    v210_sample src (3 * s + 11) = v210_c src (s + 3) := by
  have e3 : 3 * s + 3 = 3 * (s + 1) := by omega
  have e4 : 3 * s + 4 = 3 * (s + 1) + 1 := by omega
  have e5 : 3 * s + 5 = 3 * (s + 1) + 2 := by omega
  have e6 : 3 * s + 6 = 3 * (s + 2) := by omega
  have e7 : 3 * s + 7 = 3 * (s + 2) + 1 := by omega
  have e8 : 3 * s + 8 = 3 * (s + 2) + 2 := by omega
  have e9 : 3 * s + 9 = 3 * (s + 3) := by omega
  have e10 : 3 * s + 10 = 3 * (s + 3) + 1 := by omega
  have e11 : 3 * s + 11 = 3 * (s + 3) + 2 := by omega
  refine ⟨v210_sample_a src s, v210_sample_b src s, v210_sample_c src s, ?_, ?_, ?_, ?_, ?_,
    ?_, ?_, ?_, ?_⟩
  · rw [e3]; exact v210_sample_a src _
  · rw [e4]; exact v210_sample_b src _
  · rw [e5]; exact v210_sample_c src _
  · rw [e6]; exact v210_sample_a src _
  · rw [e7]; exact v210_sample_b src _
  · rw [e8]; exact v210_sample_c src _
  · rw [e9]; exact v210_sample_a src _
  · rw [e10]; exact v210_sample_b src _
  · rw [e11]; exact v210_sample_c src _

/-- The twelve bytes of an iteration of `vc_copylinev210` are twelve samples without
their two lowest bits. -/
theorem v210_block (src : List Nat) (s : Nat) :
    le32 (vc_copylinev210.word0 src s) ++ le32 (vc_copylinev210.word1 src (s + 1)) ++
      le32 (vc_copylinev210.word2 src (s + 2)) =
      (List.range 12).map (fun i => v210_sample src (3 * s + i) >>> 2) := by
  have hr : List.range 12 = [0, 1, 2, 3, 4, 5, 6, 7, 8, 9, 10, 11] := by decide
  obtain ⟨h0, h1, h2, h3, h4, h5, h6, h7, h8, h9, h10, h11⟩ := v210_samples src s
  rw [hr, v210_word0_bytes, v210_word1_bytes, v210_word2_bytes]
  simp only [List.map, h0, h1, h2, h3, h4, h5, h6, h7, h8, h9, h10, h11, List.cons_append,
    List.nil_append]

theorem v210_block4 (src : List Nat) (s : Nat) :
    le32 (vc_copylinev210.word0 src s) =
      (List.range 4).map (fun i => v210_sample src (3 * s + i) >>> 2) := by
  have hr : List.range 4 = [0, 1, 2, 3] := by decide
  obtain ⟨h0, h1, h2, h3, _⟩ := v210_samples src s
  rw [hr, v210_word0_bytes]
  simp only [List.map, h0, h1, h2, h3]

theorem v210_block8 (src : List Nat) (s : Nat) :
    le32 (vc_copylinev210.word0 src s) ++ le32 (vc_copylinev210.word1 src (s + 1)) =
      (List.range 8).map (fun i => v210_sample src (3 * s + i) >>> 2) := by
  have hr : List.range 8 = [0, 1, 2, 3, 4, 5, 6, 7] := by decide
  obtain ⟨h0, h1, h2, h3, h4, h5, h6, h7, _⟩ := v210_samples src s
  rw [hr, v210_word0_bytes, v210_word1_bytes]
  simp only [List.map, h0, h1, h2, h3, h4, h5, h6, h7, List.cons_append, List.nil_append]

/-- The tail of `vc_copylinev210`, for fewer than 12 bytes left. -/
theorem v210_tail_eq (src : List Nat) (s dst_len : Nat) (h : dst_len < 12) :
    vc_copylinev210.tail src s dst_len =
      (List.range (4 * (dst_len / 4))).map (fun i => v210_sample src (3 * s + i) >>> 2) := by
  by_cases h4 : dst_len < 4
  · have hq : dst_len / 4 = 0 := by omega
    have h1 : ¬ dst_len ≥ 4 := by omega
    have h2 : ¬ dst_len ≥ 8 := by omega
    simp [vc_copylinev210.tail, hq, h1, h2]
  · by_cases h8 : dst_len < 8
    · have hq : dst_len / 4 = 1 := by omega
      have h1 : dst_len ≥ 4 := by omega
      have h2 : ¬ dst_len ≥ 8 := by omega
      simp only [vc_copylinev210.tail, hq, h1, h2, if_true, if_false, List.append_nil,
        Nat.mul_one]
      exact v210_block4 src s
    · have hq : dst_len / 4 = 2 := by omega
      have h1 : dst_len ≥ 4 := by omega
      have h2 : dst_len ≥ 8 := by omega
      simp only [vc_copylinev210.tail, hq, h1, h2, if_true]
      exact v210_block8 src s

/-- The loop of `vc_copylinev210` in closed form, for enough fuel. -/
theorem v210_loop_eq (src : List Nat) :
    ∀ (fuel s dst_len : Nat), dst_len / 12 ≤ fuel →
      vc_copylinev210.loop src fuel s dst_len =
        (List.range (4 * (dst_len / 4))).map (fun i => v210_sample src (3 * s + i) >>> 2) := by
  intro fuel
  induction fuel with
  | zero =>
    intro s dst_len hf
    rw [vc_copylinev210.loop]
    exact v210_tail_eq src s dst_len (by omega)
  | succ fuel ih =>
    intro s dst_len hf
    rw [vc_copylinev210.loop]
    by_cases h12 : dst_len ≥ 12
    · rw [if_pos h12, ih (s + 4) (dst_len - 12) (by omega), v210_block]
      have hlen : 4 * (dst_len / 4) = 12 + 4 * ((dst_len - 12) / 4) := by omega
      rw [hlen, List.range_add, List.map_append, List.map_map]
      congr 1
      apply List.map_congr_left
      intro i _
      simp only [Function.comp]
      congr 2
      omega
    · rw [if_neg h12]
      exact v210_tail_eq src s dst_len (by omega)

/-- In closed form: `vc_copylinev210` stores `4 * (dst_len / 4)` bytes, the samples of
the line without their two lowest bits. -/
theorem v210_eq (src : List Nat) (dst_len : Nat) :
    vc_copylinev210 src dst_len =
      (List.range (4 * (dst_len / 4))).map (fun i => v210_sample src i >>> 2) := by
  have hle : dst_len / 12 ≤ dst_len := Nat.div_le_self _ _
  rw [vc_copylinev210, v210_loop_eq src dst_len 0 dst_len hle]
  simp

/-- The words of a buffer of stored words are the words stored. -/
theorem rd32_flatMap_le32 (f : Nat → Nat) (n k : Nat) (hk : k < n) :
    rd32 ((List.range n).flatMap (fun q => le32 (f q))) k = u32 (f k) := by
  have hr : List.range 4 = [0, 1, 2, 3] := by decide
  have hblock : ∀ q, le32 (f q) =
      (List.range 4).map (fun j => (fun i => (f (i / 4) >>> (8 * (i % 4))) % 2 ^ 8) (4 * q + j)) := by
    intro q
    have e0 : (4 * q + 0) / 4 = q := by omega
    have e1 : (4 * q + 1) / 4 = q := by omega
    have e2 : (4 * q + 2) / 4 = q := by omega
    have e3 : (4 * q + 3) / 4 = q := by omega
    have m0 : (4 * q + 0) % 4 = 0 := by omega
    have m1 : (4 * q + 1) % 4 = 1 := by omega
    have m2 : (4 * q + 2) % 4 = 2 := by omega
    have m3 : (4 * q + 3) % 4 = 3 := by omega
    rw [hr]
    simp only [List.map, e0, e1, e2, e3, m0, m1, m2, m3, le32, Nat.mul_zero, Nat.mul_one,
      Nat.shiftRight_zero]
  have hall : (List.range n).flatMap (fun q => le32 (f q)) =
      (List.range (4 * n)).map (fun i => (f (i / 4) >>> (8 * (i % 4))) % 2 ^ 8) := by
    rw [← flatMap_range_map (fun i => (f (i / 4) >>> (8 * (i % 4))) % 2 ^ 8) 4 n]
    congr 1
    funext q
    exact hblock q
  have e0 : (4 * k) / 4 = k := by omega
  have e1 : (4 * k + 1) / 4 = k := by omega
  have e2 : (4 * k + 2) / 4 = k := by omega
  have e3 : (4 * k + 3) / 4 = k := by omega
  have m0 : (4 * k) % 4 = 0 := by omega
  have m1 : (4 * k + 1) % 4 = 1 := by omega
  have m2 : (4 * k + 2) % 4 = 2 := by omega
  have m3 : (4 * k + 3) % 4 = 3 := by omega
  rw [hall, rd32, byte_range_map _ _ _ (by omega : 4 * k < 4 * n),
    byte_range_map _ _ _ (by omega : 4 * k + 1 < 4 * n),
    byte_range_map _ _ _ (by omega : 4 * k + 2 < 4 * n),
    byte_range_map _ _ _ (by omega : 4 * k + 3 < 4 * n)]
  simp only [e0, e1, e2, e3, m0, m1, m2, m3, Nat.mul_zero, Nat.shiftRight_zero, Nat.mod_mod]
  exact pack_le32 (f k)

/-- In closed form: `vc_copylineDVS10toV210` with `dst_len = 4 n` stores `n` words. -/
theorem DVS10toV210_eq (src : List Nat) (n : Nat) :
    vc_copylineDVS10toV210 src (4 * n) =
      (List.range n).flatMap (fun k => le32 (vc_copylineDVS10toV210.word (rd32 src k))) := by
  rw [vc_copylineDVS10toV210, while_len_eq _ 4 (by norm_num) n (4 * n) 0 (by omega)]
  simp only [Nat.zero_add]

/-- A sample of the v210 line that `vc_copylineDVS10toV210` makes, without its two
lowest bits, is a byte of the DVS10 line. -/
theorem DVS10toV210_sample (src : List Nat) (n i : Nat) (hi : i < 3 * n) :
    v210_sample (vc_copylineDVS10toV210 src (4 * n)) i >>> 2 =
      byte src (4 * (i / 3) + i % 3) := by
  have hw : i / 3 < n := by omega
  have hlt := DVS10toV210_word_lt (rd32 src (i / 3))
  obtain ⟨f0, f1, f2⟩ := DVS10toV210_fields (rd32 src (i / 3))
  obtain ⟨b0, b1, b2, _⟩ := rd32_bytes src (i / 3)
  rw [DVS10toV210_eq, v210_sample,
    rd32_flatMap_le32 (fun k => vc_copylineDVS10toV210.word (rd32 src k)) n (i / 3) hw]
  simp only [u32, Nat.mod_eq_of_lt hlt]
  have hj : i % 3 = 0 ∨ i % 3 = 1 ∨ i % 3 = 2 := by omega
  rcases hj with hj | hj | hj
  · rw [hj]
    simp only [Nat.mul_zero, Nat.shiftRight_zero, Nat.add_zero]
    rw [f0, b0]
  · rw [hj]
    simp only [Nat.mul_one]
    rw [f1, b1]
  · rw [hj]
    have h20 : 10 * 2 = 20 := by norm_num
    rw [h20, f2, b2]

/-- The exclusive or with 1 exchanges an even number and its successor. -/
theorem xor_one_eq (i : Nat) : i ^^^ 1 = if i % 2 = 0 then i + 1 else i - 1 := by
  apply Nat.eq_of_testBit_eq
  intro j
  rw [Nat.testBit_xor]
  cases j with
  | zero =>
    simp only [Nat.testBit_zero]
    split_ifs with h
    · have h1 : ¬ i % 2 = 1 := by omega
      have h2 : (i + 1) % 2 = 1 := by omega
      simp [h1, h2]
    · have h1 : i % 2 = 1 := by omega
      have h2 : ¬ (i - 1) % 2 = 1 := by omega
      simp [h1, h2]
  | succ j =>
    simp only [Nat.testBit_succ]
    have h0 : (1 : Nat) / 2 = 0 := by norm_num
    have h1 : (if i % 2 = 0 then i + 1 else i - 1) / 2 = i / 2 := by
      split_ifs <;> omega
    rw [h0, h1]
    simp

theorem xor_one_xor_one (i : Nat) : (i ^^^ 1) ^^^ 1 = i := by
  rw [Nat.xor_assoc, Nat.xor_self, Nat.xor_zero]

/-- The scalar loop of `vc_copylineYUYV` swaps the bytes of a word in pairs. -/
theorem YUYV_scalar_body (src : List Nat) (k : Nat) :
    le32 (vc_copylineYUYV.scalar (rd32 src k)) =
      (List.range 4).map (fun j => byte src ((4 * k + j) ^^^ 1)) := by
  have hr : List.range 4 = [0, 1, 2, 3] := by decide
  obtain ⟨b0, b1, b2, b3⟩ := rd32_bytes src k
  rw [YUYV_scalar_bytes, hr]
  simp only [b0, b1, b2, b3, List.map, List.cons.injEq, and_true, xor_one_eq]
  refine ⟨?_, ?_, ?_, ?_⟩ <;>
  · congr 1
    split_ifs <;> omega

/-- The SSE loop of `vc_copylineYUYV` swaps the bytes of sixteen in pairs. -/
theorem YUYV_sse_body (src : List Nat) (k : Nat) :
    vc_copylineYUYV.sse_body src k =
      (List.range 16).map (fun j => byte src ((16 * k + j) ^^^ 1)) := by
  have hr : List.range 16 = [0, 1, 2, 3, 4, 5, 6, 7, 8, 9, 10, 11, 12, 13, 14, 15] := by decide
  rw [YUYV_sse_bytes, hr]
  simp only [List.map, List.cons.injEq, and_true, xor_one_eq]
  refine ⟨?_, ?_, ?_, ?_, ?_, ?_, ?_, ?_, ?_, ?_, ?_, ?_, ?_, ?_, ?_, ?_⟩ <;>
  · congr 1
    split_ifs <;> omega

/-- In closed form: `vc_copylineYUYV` with `dst_len = 4 n` stores `4 n` bytes, byte `i`
being the byte `i XOR 1` of the line, on the SSE path as on the scalar path. -/
theorem YUYV_eq (src : List Nat) (n : Nat) :
    vc_copylineYUYV src (4 * n) =
      some ((List.range (4 * n)).map (fun i => byte src (i ^^^ 1))) := by
  have h4 : ¬ (4 * n) % 4 ≠ 0 := by omega
  have hd : 4 * n / 4 = n := by omega
  rw [vc_copylineYUYV, if_neg h4, hd]
  by_cases h16 : (4 * n) % 16 = 0
  · obtain ⟨q, rfl⟩ : ∃ q, n = 4 * q := ⟨n / 4, by omega⟩
    rw [if_pos h16, while_len_eq _ 4 (by norm_num) q (4 * q) 0 (by omega)]
    simp only [Nat.zero_add, YUYV_sse_body]
    have e : 4 * (4 * q) = 16 * q := by omega
    rw [e]
    exact congrArg some (flatMap_range_map (fun i => byte src (i ^^^ 1)) 16 q)
  · rw [if_neg h16]
    have e : n = 1 * n := by omega
    conv_lhs => rw [e]
    rw [while_len_eq _ 1 (by norm_num) n (1 * n) 0 (by omega)]
    simp only [Nat.zero_add, YUYV_scalar_body]
    exact congrArg some (flatMap_range_map (fun i => byte src (i ^^^ 1)) 4 n)

theorem xor_one_lt (i n : Nat) (hi : i < 4 * n) : i ^^^ 1 < 4 * n := by
  rw [xor_one_eq]
  split_ifs <;> omega

/-- Applied twice, `vc_copylineYUYV` gives the bytes of the line back. -/
theorem YUYV_twice (src : List Nat) (n : Nat) :
    vc_copylineYUYV ((List.range (4 * n)).map (fun i => byte src (i ^^^ 1))) (4 * n) =
      some ((List.range (4 * n)).map (byte src)) := by
  rw [YUYV_eq]
  congr 1
  apply List.map_congr_left
  intro i hi
  have hi2 : i < 4 * n := List.mem_range.mp hi
  rw [byte_range_map _ _ _ (xor_one_lt i n hi2), xor_one_xor_one, byte_mod]

/-- A line of bytes is the list of its bytes. -/
theorem range_map_byte (x : List Nat) (hbytes : ∀ b ∈ x, b < 256) :
    (List.range x.length).map (byte x) = x := by
  apply List.ext_getElem
  · simp
  · intro i h1 h2
    have hb : x[i] < 256 := hbytes _ (List.getElem_mem h2)
    simp only [List.getElem_map, List.getElem_range, byte, List.getD_eq_getElem?_getD,
      List.getElem?_eq_getElem h2, Option.getD_some]
    exact Nat.mod_eq_of_lt hb

/-- In closed form: `vc_copylineRGBtoRGBA` with the shifts 0, 8 and 16 and
`dst_len = 4 n` stores, for each of `n` pixels, its three bytes and a zero byte. -/
theorem RGBtoRGBA_eq (src : List Nat) (n : Nat) :
    vc_copylineRGBtoRGBA src (4 * n) 0 8 16 =
      (List.range (4 * n)).map
        (fun i => if i % 4 = 3 then 0 else byte src (3 * (i / 4) + i % 4)) := by
  have hr : List.range 4 = [0, 1, 2, 3] := by decide
  rw [vc_copylineRGBtoRGBA, while_len_eq _ 4 (by norm_num) n (4 * n) 0 (by omega),
    ← flatMap_range_map (fun i => if i % 4 = 3 then 0 else byte src (3 * (i / 4) + i % 4)) 4 n]
  congr 1
  funext k
  have e0 : (4 * k + 0) / 4 = k := by omega
  have e1 : (4 * k + 1) / 4 = k := by omega
  have e2 : (4 * k + 2) / 4 = k := by omega
  have m0 : (4 * k + 0) % 4 = 0 := by omega
  have m1 : (4 * k + 1) % 4 = 1 := by omega
  have m2 : (4 * k + 2) % 4 = 2 := by omega
  have m3 : (4 * k + 3) % 4 = 3 := by omega
  simp only [Nat.zero_add, byte, RGBtoRGBA_bytes, hr, List.map, e0, e1, e2, m0, m1, m2, m3,
    if_true, Nat.add_zero]
  simp

/-- The round trip in closed form, for any line: the bytes of the line come back. -/
theorem RGB_round_trip_bytes (x : List Nat) (n : Nat) :
    vc_copylineRGBAtoRGB (vc_copylineRGBtoRGBA x (16 * n) 0 8 16) (12 * n) =
      (List.range (12 * n)).map (byte x) := by
  have e : 16 * n = 4 * (4 * n) := by omega
  rw [RGBAtoRGB_eq, e, RGBtoRGBA_eq, drop_fourth]
  apply List.map_congr_left
  intro i hi
  have hi2 : i < 12 * n := List.mem_range.mp hi
  rw [byte_range_map _ _ _ (by omega : 4 * (i / 3) + i % 3 < 4 * (4 * n))]
  have h3 : ¬ (4 * (i / 3) + i % 3) % 4 = 3 := by omega
  have hd : (4 * (i / 3) + i % 3) / 4 = i / 3 := by omega
  have hm : (4 * (i / 3) + i % 3) % 4 = i % 3 := by omega
  have hi3 : 3 * (i / 3) + i % 3 = i := by omega
  rw [if_neg h3, hd, hm, hi3, byte_mod]

/-- An iteration of the general path of `vc_copylineRGBA`. -/
theorem RGBA_body (src : List Nat) (rshift gshift bshift k : Nat) :
    vc_copylineRGBA.body src rshift gshift bshift k =
      (List.range 4).flatMap (fun j => le32 ((fun q => u32 (byte src (4 * q) <<< rshift) |||
        u32 (byte src (4 * q + 1) <<< gshift) ||| u32 (byte src (4 * q + 2) <<< bshift))
          (4 * k + j))) := by
  have hr : List.range 4 = [0, 1, 2, 3] := by decide
  rw [hr]
  simp only [vc_copylineRGBA.body, RGBA_pixel_rd32, List.flatMap_cons, List.flatMap_nil,
    List.append_nil, Nat.add_zero, List.append_assoc]

/-- In closed form: the general path of `vc_copylineRGBA` with `len = 16 n` stores `4 n`
pixels. -/
theorem RGBA_general_eq (src : List Nat) (n rshift gshift bshift : Nat)
    (h : ¬ (rshift = 0 ∧ gshift = 8 ∧ bshift = 16)) :
    vc_copylineRGBA src (16 * n) rshift gshift bshift =
      (List.range (4 * n)).flatMap (fun q => le32 (u32 (byte src (4 * q) <<< rshift) |||
        u32 (byte src (4 * q + 1) <<< gshift) ||| u32 (byte src (4 * q + 2) <<< bshift))) := by
  rw [vc_copylineRGBA, if_neg h, while_len_eq _ 16 (by norm_num) n (16 * n) 0 (by omega)]
  simp only [Nat.zero_add, RGBA_body]
  exact flatMap_range_mul (fun q => le32 (u32 (byte src (4 * q) <<< rshift) |||
        u32 (byte src (4 * q + 1) <<< gshift) ||| u32 (byte src (4 * q + 2) <<< bshift))) 4 n

theorem u32_or3 (a b c : Nat) : u32 (u32 a ||| u32 b ||| u32 c) = u32 a ||| u32 b ||| u32 c := by
  apply Nat.eq_of_testBit_eq
  intro i
  simp only [u32, Nat.testBit_mod_two_pow, Nat.testBit_or]
  by_cases hi : i < 32 <;> simp [hi]

theorem length_flatMap_le32 (f : Nat → Nat) (n : Nat) :
    ((List.range n).flatMap (fun q => le32 (f q))).length = 4 * n := by
  induction n with
  | zero => simp
  | succ n ih =>
    rw [List.range_succ, List.flatMap_append, List.length_append, ih]
    simp [le32]
    omega

/-- A pixel of the output of `vc_copylineRGBA`, on either path. -/
theorem RGBA_pixel_at (src : List Nat) (n rshift gshift bshift k : Nat) (hk : k < 4 * n) :
    rd32 (vc_copylineRGBA src (16 * n) rshift gshift bshift) k =
      if rshift = 0 ∧ gshift = 8 ∧ bshift = 16 then rd32 src k
      else u32 (byte src (4 * k) <<< rshift) ||| u32 (byte src (4 * k + 1) <<< gshift) |||
        u32 (byte src (4 * k + 2) <<< bshift) := by
  by_cases h : rshift = 0 ∧ gshift = 8 ∧ bshift = 16
  · rw [if_pos h, vc_copylineRGBA, if_pos h, rd32, rd32,
      byte_range_map _ _ _ (by omega : 4 * k < 16 * n),
      byte_range_map _ _ _ (by omega : 4 * k + 1 < 16 * n),
      byte_range_map _ _ _ (by omega : 4 * k + 2 < 16 * n),
      byte_range_map _ _ _ (by omega : 4 * k + 3 < 16 * n)]
    simp only [byte_mod]
  · rw [if_neg h, RGBA_general_eq src n rshift gshift bshift h,
      rd32_flatMap_le32 (fun q => u32 (byte src (4 * q) <<< rshift) |||
        u32 (byte src (4 * q + 1) <<< gshift) ||| u32 (byte src (4 * q + 2) <<< bshift))
        (4 * n) k hk]
    exact u32_or3 _ _ _

theorem RGBA_length (src : List Nat) (n rshift gshift bshift : Nat) :
    (vc_copylineRGBA src (16 * n) rshift gshift bshift).length = 16 * n := by
  by_cases h : rshift = 0 ∧ gshift = 8 ∧ bshift = 16
  · rw [vc_copylineRGBA, if_pos h]
    simp
  · rw [RGBA_general_eq src n rshift gshift bshift h, length_flatMap_le32]
    omega

/-! ## The claims on the line converters -/

/-- C24, counterexample: on the line of one pixel with the bytes 0, 0, 0, 255 (and twelve
zero bytes more, `len = 16`) and the shifts 0, 8 and 16, `vc_copylineRGBA` takes the
`memcpy` branch and its first output pixel is `0xff000000`, while
`(r << 0) | (g << 8) | (b << 16)` of the bytes 0, 1, 2 of the input pixel is 0: the
copy keeps the fourth byte of the pixel. -/
theorem RGBA_fast_path_keeps_fourth_byte :
    rd32 (vc_copylineRGBA [0, 0, 0, 255, 0, 0, 0, 0, 0, 0, 0, 0, 0, 0, 0, 0] 16 0 8 16) 0
      = 0xff000000 ∧
    u32 (byte [0, 0, 0, 255, 0, 0, 0, 0, 0, 0, 0, 0, 0, 0, 0, 0] 0 <<< 0) |||
      u32 (byte [0, 0, 0, 255, 0, 0, 0, 0, 0, 0, 0, 0, 0, 0, 0, 0] 1 <<< 8) |||
      u32 (byte [0, 0, 0, 255, 0, 0, 0, 0, 0, 0, 0, 0, 0, 0, 0, 0] 2 <<< 16) = 0 := by
  decide

/-- C24, amended: for `len = 16 n`, `vc_copylineRGBA` stores `len` bytes; for every shift
triple other than (0, 8, 16) each 32-bit output pixel is
`(r << rshift) | (g << gshift) | (b << bshift)` with `r`, `g`, `b` the bytes 0, 1, 2 of
the input pixel; for the triple (0, 8, 16), the `memcpy` branch, each output pixel is
the input pixel, its fourth byte included. -/
theorem RGBA_pixel_shifted_or_copied (src : List Nat) (n rshift gshift bshift k : Nat)
    (hk : k < 4 * n) :
    (vc_copylineRGBA src (16 * n) rshift gshift bshift).length = 16 * n ∧
    rd32 (vc_copylineRGBA src (16 * n) rshift gshift bshift) k =
      if rshift = 0 ∧ gshift = 8 ∧ bshift = 16 then rd32 src k
      else u32 (byte src (4 * k) <<< rshift) ||| u32 (byte src (4 * k + 1) <<< gshift) |||
        u32 (byte src (4 * k + 2) <<< bshift) :=
  ⟨RGBA_length src n rshift gshift bshift, RGBA_pixel_at src n rshift gshift bshift k hk⟩

theorem RGBA_pixel_shifted_or_copied_witness :
    1 < 4 * 1 ∧
    (vc_copylineRGBA [1, 2, 3, 4, 5, 6, 7, 8, 9, 10, 11, 12, 13, 14, 15, 16] (16 * 1)
      16 8 0).length = 16 * 1 ∧
    rd32 (vc_copylineRGBA [1, 2, 3, 4, 5, 6, 7, 8, 9, 10, 11, 12, 13, 14, 15, 16] (16 * 1)
      16 8 0) 1 =
      if 16 = 0 ∧ 8 = 8 ∧ 0 = 16 then
        rd32 [1, 2, 3, 4, 5, 6, 7, 8, 9, 10, 11, 12, 13, 14, 15, 16] 1
      else u32 (byte [1, 2, 3, 4, 5, 6, 7, 8, 9, 10, 11, 12, 13, 14, 15, 16] (4 * 1) <<< 16) |||
        u32 (byte [1, 2, 3, 4, 5, 6, 7, 8, 9, 10, 11, 12, 13, 14, 15, 16] (4 * 1 + 1) <<< 8) |||
        u32 (byte [1, 2, 3, 4, 5, 6, 7, 8, 9, 10, 11, 12, 13, 14, 15, 16] (4 * 1 + 2) <<< 0) :=
  ⟨by decide, RGBA_pixel_shifted_or_copied
    [1, 2, 3, 4, 5, 6, 7, 8, 9, 10, 11, 12, 13, 14, 15, 16] 1 16 8 0 1 (by decide)⟩

/-- C25: for every `dst_len`, `vc_copylinev210` stores exactly `4 * (dst_len / 4)` bytes
(the list of the bytes stored has that length), and the byte number `i` is the sample
number `i` of the line shifted right by 2, the sample `3w+j` being the bits `10j` to
`10j+9` of the word `w`; the tails of 4 and 8 bytes are covered, `dst_len` being any
number. -/
theorem v210_stores_samples_shifted (src : List Nat) (dst_len : Nat) :
    vc_copylinev210 src dst_len =
      (List.range (4 * (dst_len / 4))).map (fun i => v210_sample src i >>> 2) ∧
    (vc_copylinev210 src dst_len).length = 4 * (dst_len / 4) ∧
    ∀ i, i < 4 * (dst_len / 4) →
      (vc_copylinev210 src dst_len).getD i 0 = v210_sample src i >>> 2 := by
  refine ⟨v210_eq src dst_len, ?_, ?_⟩
  · rw [v210_eq]
    simp
  · intro i hi
    rw [v210_eq, getD_range_map _ _ _ 0 hi]

/-- C26: the two DVS10 decode routes agree.  For `dst_len = 24 n`, the line that
`vc_copylineDVS10toV210` makes over `dst_len * 4 / 3` bytes, converted by
`vc_copylinev210` with `dst_len`, is byte for byte the output of `vc_copylineDVS10` with
`dst_len`; both are the first `dst_len` bytes of the line without its fourth bytes. -/
theorem DVS10_routes_agree (src : List Nat) (n : Nat) :
    vc_copylinev210 (vc_copylineDVS10toV210 src (24 * n * 4 / 3)) (24 * n) =
      vc_copylineDVS10 src (24 * n) ∧
    vc_copylineDVS10 src (24 * n) = drop_fourth src (24 * n) := by
  refine ⟨?_, DVS10_eq src n⟩
  have e1 : 24 * n * 4 / 3 = 4 * (8 * n) := by omega
  have e2 : 4 * (24 * n / 4) = 24 * n := by omega
  rw [DVS10_eq, v210_eq, e1, e2, drop_fourth]
  apply List.map_congr_left
  intro i hi
  have hi2 : i < 24 * n := List.mem_range.mp hi
  exact DVS10toV210_sample src (8 * n) i (by omega)

/-- C27: for `dst_len = 24 n`, `vc_copylineDVS10` stores exactly `dst_len` bytes, and
the byte `3k+j` stored is the byte `4k+j` of the source, for `k < dst_len / 3` and
`j < 3`: every fourth source byte is dropped. -/
theorem DVS10_drops_fourth_bytes (src : List Nat) (n : Nat) :
    (vc_copylineDVS10 src (24 * n)).length = 24 * n ∧
    ∀ k j, k < 24 * n / 3 → j < 3 →
      (vc_copylineDVS10 src (24 * n)).getD (3 * k + j) 0 = byte src (4 * k + j) := by
  rw [DVS10_eq]
  refine ⟨drop_fourth_length src _, ?_⟩
  intro k j hk hj
  exact drop_fourth_getD src (24 * n) k j (by omega) hj

/-- C28: for `dst_len = 4 n`, whether or not it is a multiple of 16 (SSE path or scalar
path), `vc_copylineYUYV` stores `dst_len` bytes and the byte `i` stored is the byte
`i XOR 1` of the line; applied to its own output it gives the bytes of the line back, so
a line of `dst_len` bytes comes back unchanged. -/
theorem YUYV_swaps_adjacent_bytes (src : List Nat) (n : Nat) :
    ∃ out, vc_copylineYUYV src (4 * n) = some out ∧ out.length = 4 * n ∧
      (∀ i, i < 4 * n → out.getD i 0 = byte src (i ^^^ 1)) ∧
      vc_copylineYUYV out (4 * n) = some ((List.range (4 * n)).map (byte src)) ∧
      (src.length = 4 * n → (∀ b ∈ src, b < 256) → vc_copylineYUYV out (4 * n) = some src) := by
  refine ⟨(List.range (4 * n)).map (fun i => byte src (i ^^^ 1)), YUYV_eq src n, by simp, ?_,
    YUYV_twice src n, ?_⟩
  · intro i hi
    rw [getD_range_map _ _ _ 0 hi]
  · intro hlen hb
    rw [YUYV_twice, ← hlen, range_map_byte src hb]

/-- C29: the round trip from RGB to RGBA and back.  For a line `x` of `12 n` bytes,
`vc_copylineRGBtoRGBA` with `dst_len = 16 n` and the shifts 0, 8 and 16 followed by
`vc_copylineRGBAtoRGB` with `dst_len = 12 n` gives exactly `x`. -/
theorem RGB_RGBA_RGB_round_trip (x : List Nat) (n : Nat) (hlen : x.length = 12 * n)
    (hbytes : ∀ b ∈ x, b < 256) :
    vc_copylineRGBAtoRGB (vc_copylineRGBtoRGBA x (16 * n) 0 8 16) (12 * n) = x := by
  rw [RGB_round_trip_bytes, ← hlen]
  exact range_map_byte x hbytes

theorem RGB_RGBA_RGB_round_trip_witness :
    [1, 2, 3, 40, 50, 60, 7, 8, 9, 250, 251, 252].length = 12 * 1 ∧
    (∀ b ∈ [1, 2, 3, 40, 50, 60, 7, 8, 9, 250, 251, 252], b < 256) ∧
    vc_copylineRGBAtoRGB
      (vc_copylineRGBtoRGBA [1, 2, 3, 40, 50, 60, 7, 8, 9, 250, 251, 252] (16 * 1) 0 8 16)
      (12 * 1) = [1, 2, 3, 40, 50, 60, 7, 8, 9, 250, 251, 252] :=
  ⟨by decide, by decide, RGB_RGBA_RGB_round_trip [1, 2, 3, 40, 50, 60, 7, 8, 9, 250, 251, 252] 1
    (by decide) (by decide)⟩

/-- C30: `vc_copylineRGBAtoRGBwithShift` with the shifts (0, 8, 16) has the output of
`vc_copylineRGBAtoRGB`, and with the shifts (16, 8, 0) the output of
`vc_copylineABGRtoRGB`, for every line and every `dst_len` (the multiples of 12 among
them, for which `12 n` bytes are stored). -/
theorem withShift_specialises (src : List Nat) (dst_len n : Nat) :
    vc_copylineRGBAtoRGBwithShift src dst_len 0 8 16 = vc_copylineRGBAtoRGB src dst_len ∧
    vc_copylineRGBAtoRGBwithShift src dst_len 16 8 0 = vc_copylineABGRtoRGB src dst_len ∧
    (vc_copylineRGBAtoRGBwithShift src (12 * n) 0 8 16).length = 12 * n ∧
    (vc_copylineRGBAtoRGBwithShift src (12 * n) 16 8 0).length = 12 * n := by
  have h1 : ∀ len, vc_copylineRGBAtoRGBwithShift src len 0 8 16 =
      vc_copylineRGBAtoRGB src len := by
    intro len
    simp only [vc_copylineRGBAtoRGBwithShift, vc_copylineRGBAtoRGB, withShift_words_rgba]
  have h2 : ∀ len, vc_copylineRGBAtoRGBwithShift src len 16 8 0 =
      vc_copylineABGRtoRGB src len := by
    intro len
    simp only [vc_copylineRGBAtoRGBwithShift, vc_copylineABGRtoRGB, withShift_words_abgr]
  refine ⟨h1 dst_len, h2 dst_len, ?_, ?_⟩
  · rw [h1, RGBAtoRGB_eq, drop_fourth_length]
  · rw [vc_copylineRGBAtoRGBwithShift, while_len_eq _ 12 (by norm_num) n (12 * n) 0 (by omega)]
    induction n with
    | zero => simp
    | succ n ih =>
      rw [List.range_succ, List.flatMap_append, List.length_append, ih]
      simp [vc_copylineRGBAtoRGBwithShift.words, le32]
      omega

end UltraGrid
